import Mathlib

/-!
# FileTreeModel (gImageReader, `qt/src/FileTreeModel.cc`)

A shallow embedding of the sorted path tree behind `FileTreeModel`.

* Objects live in an arena (`FileTreeModel.nodes`); a pointer is a position
  in the arena, `new` appends a node, `nullptr` is `none`.  Nodes are never
  moved, so pointers stay stable across operations exactly as in the C++.
  `delete p` only records `p` in `deleted`: the object stays readable in the
  arena, ownership is what the `dirs`/`files` lists say.
* A result of type `Option _` is `none` when the C++ would dereference a
  null or out-of-range pointer/iterator (undefined behaviour).
* `QString` is a list of characters.  `startsWith`, `mid`, `split` with
  `SkipEmptyParts` and `join` are the character-wise Qt operations.
* The collator is a parameter `lt a b`, standing for
  `collator().compare(a, b) < 0`; the temporary directory is a parameter
  `tempPath`, standing for `QDir::tempPath()`.  The non-Windows branch of the
  `#ifdef Q_OS_WIN32` blocks is the one embedded.
* `beginInsertRows` / `endInsertRows` / `beginRemoveRows` / `endRemoveRows`
  append to `log`.
-/

namespace FileTreeModel

/-! ## Strings and paths -/

abbrev QString := List Char

/-- `s.startsWith(p)`. -/
def startsWith (s p : QString) : Bool := p.isPrefixOf s

/-- `s.mid(n)`. -/
def mid (s : QString) (n : Nat) : QString := s.drop n

/-- `s.split("/", QString::SkipEmptyParts)`. -/
def splitSlash : QString → List QString
  | [] => []
  | c :: cs =>
    if c = '/' then splitSlash cs
    else
      match cs with
      | [] => [[c]]
      | d :: _ =>
        if d = '/' then [c] :: splitSlash cs
        else
          match splitSlash cs with
          | [] => [[c]]
          | s :: ss => (c :: s) :: ss

/-- `l.join("/")`. -/
def joinSlash : List QString → QString
  | [] => []
  | [s] => s
  | s :: t :: u => s ++ '/' :: joinSlash (t :: u)

/-- Modelled from the Qt documentation: `QFileInfo(p).fileName()`, the part of
`p` after its last `'/'`. -/
def fileNameOf : QString → QString
  | [] => []
  | c :: cs => if cs.contains '/' then fileNameOf cs else if c = '/' then cs else c :: cs

/-- The part of `p` before its last `'/'` (empty when there is none). -/
def dirPart : QString → QString
  | [] => []
  | c :: cs => if cs.contains '/' then c :: dirPart cs else []

/-- Modelled from the Qt documentation: `QFileInfo(p).absolutePath()` for an
absolute, clean path `p`: the part before the last `'/'`, and `"/"` for an
entry of the filesystem root.  The empty path gives the empty string. -/
def absolutePath (p : QString) : QString :=
  if p = [] then [] else if dirPart p = [] then ['/'] else dirPart p

/-- The string `"/s1/s2/.../sk"`. -/
def slashCat : List QString → QString
  | [] => []
  | s :: ss => '/' :: (s ++ slashCat ss)

/-- The clean absolute path of the directory with segments `segs`:
`"/"` for the filesystem root, `"/s1/s2/.../sk"` otherwise. -/
def dirPath (segs : List QString) : QString :=
  if segs = [] then ['/'] else slashCat segs

/-- A path segment: not empty and without `'/'`. -/
def isSeg (s : QString) : Bool := !s.isEmpty && !s.contains '/'

/-- The clean absolute path of the file `name` in the directory with segments `segs`. -/
def filePathOf (segs : List QString) (name : QString) : QString :=
  slashCat (segs ++ [name])

/-! ## Data model -/

/-- Modelled from the spec: `Node`, `DirNode` and `FileNode` of
`FileTreeModel.hh` in one record; `isDir` is the dynamic type.  A `FileNode`
has empty `dirs` and `files`. -/
structure Node where
  isDir : Bool
  fileName : QString
  path : QString
  parent : Option Nat
  dirs : List Nat
  files : List Nat
  data : Nat
  displayName : QString
  editable : Bool
  deriving DecidableEq, Repr

/-- Modelled from the spec: `DirNode::childCount()`, `|dirs| + |files|`. -/
def Node.childCount (n : Node) : Nat := n.dirs.length + n.files.length

/-- `new DirNode(fileName, path, parent)`. -/
def mkDir (fileName path : QString) (parent : Option Nat) : Node :=
  { isDir := true, fileName := fileName, path := path, parent := parent,
    dirs := [], files := [], data := 0, displayName := [], editable := false }

/-- `new FileNode(fileName, path, parent, data, displayName)`. -/
def mkFile (fileName path : QString) (parent : Option Nat) (data : Nat)
    (displayName : QString) : Node :=
  { isDir := false, fileName := fileName, path := path, parent := parent,
    dirs := [], files := [], data := data, displayName := displayName, editable := false }

/-- `QModelIndex`: invalid, or `createIndex(row, column, ptr)`. -/
inductive QModelIndex where
  | invalid
  | mk (row column ptr : Nat)
  deriving DecidableEq, Repr

def QModelIndex.isValid : QModelIndex → Bool
  | .invalid => false
  | .mk _ _ _ => true

def QModelIndex.row : QModelIndex → Int
  | .invalid => -1
  | .mk r _ _ => r

/-- The notifications of `QAbstractItemModel`. -/
inductive Event where
  | beginInsertRows (parent : QModelIndex) (first last : Int)
  | endInsertRows
  | beginRemoveRows (parent : QModelIndex) (first last : Int)
  | endRemoveRows
  deriving DecidableEq, Repr

end FileTreeModel

/-- The state of a `FileTreeModel`. -/
structure FileTreeModel where
  nodes : List FileTreeModel.Node
  m_root : Option Nat
  m_tmpdir : Option Nat
  deleted : List Nat
  log : List FileTreeModel.Event
  deriving DecidableEq, Repr

namespace FileTreeModel

/-- The model after construction. -/
def empty : FileTreeModel :=
  { nodes := [], m_root := none, m_tmpdir := none, deleted := [], log := [] }

/-! ## The arena -/

/-- `*p`. -/
def deref (m : FileTreeModel) (p : Nat) : Option Node := m.nodes[p]?

/-- `new`. -/
def alloc (m : FileTreeModel) (n : Node) : FileTreeModel × Nat :=
  ({ m with nodes := m.nodes ++ [n] }, m.nodes.length)

/-- `*p = n`. -/
def store (m : FileTreeModel) (p : Nat) (n : Node) : FileTreeModel :=
  { m with nodes := m.nodes.set p n }

def emit (m : FileTreeModel) (e : Event) : FileTreeModel :=
  { m with log := m.log ++ [e] }

/-- The `fileName`s of the nodes of a `NodeList`. -/
def namesOf (m : FileTreeModel) : List Nat → Option (List QString)
  | [] => some []
  | p :: ps =>
    match deref m p, namesOf m ps with
    | some n, some r => some (n.fileName :: r)
    | _, _ => none

/-- `m_root ? m_root->childCount() : 0`. -/
def rootChildCount (m : FileTreeModel) : Option Nat :=
  match m.m_root with
  | none => some 0
  | some r => (deref m r).map Node.childCount

/-! ## `NodeList` -/

/-- Modelled from the C++ standard: `std::lower_bound` with the comparison
`collator().compare(a->fileName, key) < 0` on a range partitioned by it, as
the distance from `begin()`: the first position whose name is not below `key`. -/
def lowerBound (lt : QString → QString → Bool) (key : QString) : List QString → Nat
  | [] => 0
  | a :: as => if lt a key then lowerBound lt key as + 1 else 0

/-- `NodeList::insIndex(fileName)`. -/
def insIndex (lt : QString → QString → Bool) (names : List QString) (fileName : QString) : Nat :=
  lowerBound lt fileName names

/-- `NodeList::find(fileName)`, as a position; `none` is `end()`. -/
def find (lt : QString → QString → Bool) (names : List QString) (fileName : QString) :
    Option Nat :=
  let it := lowerBound lt fileName names
  match names[it]? with
  | none => none
  | some n => if n = fileName then some it else none

/-- `QList::insert(begin() + pos, x)`. -/
def insertAt {α : Type} (x : α) (pos : Nat) (l : List α) : List α :=
  l.take pos ++ x :: l.drop pos

/-- `cur->dirs.add(node)`. -/
def dirsAdd (lt : QString → QString → Bool) (m : FileTreeModel) (cur node : Nat) :
    Option FileTreeModel := do
  let c ← deref m cur
  let n ← deref m node
  let ns ← namesOf m c.dirs
  some (store m cur { c with dirs := insertAt node (lowerBound lt n.fileName ns) c.dirs })

/-- `cur->files.add(node)`. -/
def filesAdd (lt : QString → QString → Bool) (m : FileTreeModel) (cur node : Nat) :
    Option FileTreeModel := do
  let c ← deref m cur
  let n ← deref m node
  let ns ← namesOf m c.files
  some (store m cur { c with files := insertAt node (lowerBound lt n.fileName ns) c.files })

/-- `cur->dirs.add(node, pos)`. -/
def dirsAddAt (m : FileTreeModel) (cur node pos : Nat) : Option FileTreeModel := do
  let c ← deref m cur
  if pos ≤ c.dirs.length then
    some (store m cur { c with dirs := insertAt node pos c.dirs })
  else none

/-- `cur->files.add(node, pos)`. -/
def filesAddAt (m : FileTreeModel) (cur node pos : Nat) : Option FileTreeModel := do
  let c ← deref m cur
  if pos ≤ c.files.length then
    some (store m cur { c with files := insertAt node pos c.files })
  else none

/-- `cur->dirs.take(node)`: the node, or `none` for `nullptr`. -/
def dirsTake (lt : QString → QString → Bool) (m : FileTreeModel) (cur node : Nat) :
    Option (FileTreeModel × Option Nat) := do
  let c ← deref m cur
  let n ← deref m node
  let ns ← namesOf m c.dirs
  match find lt ns n.fileName with
  | some it => some (store m cur { c with dirs := c.dirs.eraseIdx it }, some node)
  | none => some (m, none)

/-- `cur->files.take(node)`: the node, or `none` for `nullptr`. -/
def filesTake (lt : QString → QString → Bool) (m : FileTreeModel) (cur node : Nat) :
    Option (FileTreeModel × Option Nat) := do
  let c ← deref m cur
  let n ← deref m node
  let ns ← namesOf m c.files
  match find lt ns n.fileName with
  | some it => some (store m cur { c with files := c.files.eraseIdx it }, some node)
  | none => some (m, none)

/-- `delete p` (`delete nullptr` does nothing). -/
def delete (m : FileTreeModel) : Option Nat → FileTreeModel
  | none => m
  | some p => { m with deleted := m.deleted ++ [p] }

/-! ## The row projection -/

/-- `FileTreeModel::index(row, column, parent)`. -/
def index (m : FileTreeModel) (row column : Nat) (parent : QModelIndex) :
    Option QModelIndex := do
  let parentNode : Option Nat ←
    match parent with
    | .mk _ _ p => some (some p)
    | .invalid =>
      match m.m_root with
      | none => some m.m_tmpdir
      | some r => do
        let rn ← deref m r
        if row < rn.childCount then some (some r) else some m.m_tmpdir
  match parentNode with
  | none => some .invalid
  | some pn => do
    let dirNode ← deref m pn
    if dirNode.isDir then do
      let off ← if some pn = m.m_tmpdir ∧ m.m_root.isSome then rootChildCount m else some 0
      if row < off then none
      else
        let i := row - off
        let nDirs := dirNode.dirs.length
        if i ≥ nDirs then do
          let c ← dirNode.files[i - nDirs]?
          some (.mk row column c)
        else do
          let c ← dirNode.dirs[i]?
          some (.mk row column c)
    else some .invalid

/-- `FileTreeModel::parent(child)`; `QModelIndex().parent()` is invalid. -/
def parent (lt : QString → QString → Bool) (m : FileTreeModel) :
    QModelIndex → Option QModelIndex
  | .invalid => some .invalid
  | .mk _ _ p => do
    let node ← deref m p
    match node.parent with
    | none => some .invalid
    | some pp =>
      if some pp = m.m_root ∨ some pp = m.m_tmpdir then some .invalid
      else do
        let parentNode ← deref m pp
        let gp ← parentNode.parent
        let g ← deref m gp
        let ns ← namesOf m g.dirs
        let row := lowerBound lt parentNode.fileName ns
        let off ← if some pp = m.m_tmpdir ∧ m.m_root.isSome then rootChildCount m else some 0
        some (.mk (row + off) 0 pp)

/-- Lines 45-54: the directory is under the temporary directory. -/
def insertScratch (lt : QString → QString → Bool) (tempPath : QString) (m : FileTreeModel)
    (filePath fileName : QString) (data : Nat) (displayName : QString) :
    Option (FileTreeModel × QModelIndex) := do
  let (m1, t) :=
    match m.m_tmpdir with
    | some t => (m, t)
    | none =>
      let (m0, t) := alloc m (mkDir (fileNameOf tempPath) tempPath none)
      ({ m0 with m_tmpdir := some t }, t)
  let tn ← deref m1 t
  let ns ← namesOf m1 tn.files
  let pos := insIndex lt ns fileName
  let rc ← rootChildCount m1
  let row := rc + pos
  let m2 := emit m1 (.beginInsertRows .invalid row row)
  let (m3, f) := alloc m2 (mkFile fileName filePath (some t) data displayName)
  let m4 ← filesAdd lt m3 t f
  let m5 := emit m4 .endInsertRows
  let h ← index m5 row 0 .invalid
  some (m5, h)

/-- Lines 55-61: there is no root yet. -/
def insertInitial (lt : QString → QString → Bool) (m : FileTreeModel)
    (fileDir filePath fileName : QString) (data : Nat) (displayName : QString) :
    Option (FileTreeModel × QModelIndex) := do
  let (m0, r) := alloc m (mkDir (fileNameOf fileDir) fileDir none)
  let m1 := { m0 with m_root := some r }
  let m2 := emit m1 (.beginInsertRows .invalid 0 0)
  let (m3, f) := alloc m2 (mkFile fileName filePath (some r) data displayName)
  let m4 ← filesAdd lt m3 r f
  let m5 := emit m4 .endInsertRows
  let h ← index m5 0 0 .invalid
  some (m5, h)

/-- Lines 62-69: the directory is the root. -/
def insertAtRoot (lt : QString → QString → Bool) (m : FileTreeModel) (r : Nat)
    (filePath fileName : QString) (data : Nat) (displayName : QString) :
    Option (FileTreeModel × QModelIndex) := do
  let rn ← deref m r
  let ns ← namesOf m rn.files
  let pos := insIndex lt ns fileName
  let row := rn.dirs.length + pos
  let m1 := emit m (.beginInsertRows .invalid row row)
  let (m2, f) := alloc m1 (mkFile fileName filePath (some r) data displayName)
  let m3 ← filesAddAt m2 r f pos
  let m4 := emit m3 .endInsertRows
  let h ← index m4 row 0 .invalid
  some (m4, h)

/-- The loops of lines 80-82 and 134-136:
`cur = cur->dirs.add(new DirNode(path[i], cur->path + "/" + path[i], cur))`
for each `path[i]` of `parts`; the result is the final `cur`. -/
def chainLoop (lt : QString → QString → Bool) :
    FileTreeModel → Nat → List QString → Option (FileTreeModel × Nat)
  | m, cur, [] => some (m, cur)
  | m, cur, part :: rest => do
    let c ← deref m cur
    let (m1, d) := alloc m (mkDir part (c.path ++ '/' :: part) (some cur))
    let m2 ← dirsAdd lt m1 cur d
    chainLoop lt m2 d rest

/-- Lines 83-84 and 137-138: `cur->dirs.add(oldroot); oldroot->parent = cur;`. -/
def attachOldRoot (lt : QString → QString → Bool) (m : FileTreeModel) (cur oldroot : Nat) :
    Option FileTreeModel := do
  let m1 ← dirsAdd lt m cur oldroot
  let o ← deref m1 oldroot
  some (store m1 oldroot { o with parent := some cur })

/-- Lines 70-87: the root is below the new directory. -/
def insertAbove (lt : QString → QString → Bool) (m : FileTreeModel) (r : Nat)
    (fileDir filePath fileName : QString) (data : Nat) (displayName : QString) :
    Option (FileTreeModel × QModelIndex) := do
  let rn ← deref m r
  let path := splitSlash (mid rn.path fileDir.length)
  let m1 := emit m (.beginRemoveRows .invalid 0 ((rn.childCount : Int) - 1))
  let oldroot := r
  let m2 := { m1 with m_root := none }
  let m3 := emit m2 .endRemoveRows
  let m4 := emit m3 (.beginInsertRows .invalid 0 1)
  let (m5, nr) := alloc m4 (mkDir (fileNameOf fileDir) fileDir none)
  let m6 := { m5 with m_root := some nr }
  let (m7, cur) ← chainLoop lt m6 nr path.dropLast
  let m8 ← attachOldRoot lt m7 cur oldroot
  let (m9, f) := alloc m8 (mkFile fileName filePath (some nr) data displayName)
  let m10 ← filesAdd lt m9 nr f
  let m11 := emit m10 .endInsertRows
  let h ← index m11 1 0 .invalid
  some (m11, h)

/-- The loop of lines 93-106. -/
def descendLoop (lt : QString → QString → Bool) :
    FileTreeModel → Nat → QModelIndex → List QString →
      Option (FileTreeModel × Nat × QModelIndex)
  | m, cur, idx, [] => some (m, cur, idx)
  | m, cur, idx, part :: rest => do
    let c ← deref m cur
    let ns ← namesOf m c.dirs
    match find lt ns part with
    | none =>
      let row := insIndex lt ns part
      let m1 := emit m (.beginInsertRows idx row row)
      let (m2, d) := alloc m1 (mkDir part (c.path ++ '/' :: part) (some cur))
      let m3 ← dirsAddAt m2 cur d row
      let m4 := emit m3 .endInsertRows
      let idx1 ← index m4 row 0 idx
      descendLoop lt m4 d idx1 rest
    | some it =>
      let row := it
      let d ← c.dirs[it]?
      let idx1 ← index m row 0 idx
      descendLoop lt m d idx1 rest

/-- Lines 88-112: the new directory is below the root. -/
def insertBelow (lt : QString → QString → Bool) (m : FileTreeModel) (r : Nat)
    (fileDir filePath fileName : QString) (data : Nat) (displayName : QString) :
    Option (FileTreeModel × QModelIndex) := do
  let rn ← deref m r
  let path := splitSlash (mid fileDir rn.path.length)
  let (m1, cur, idx) ← descendLoop lt m r .invalid path
  let c ← deref m1 cur
  let ns ← namesOf m1 c.files
  let pos := insIndex lt ns fileName
  let row := c.dirs.length + pos
  let m2 := emit m1 (.beginInsertRows idx row row)
  let (m3, f) := alloc m2 (mkFile fileName filePath (some cur) data displayName)
  let m4 ← filesAddAt m3 cur f pos
  let m5 := emit m4 .endInsertRows
  let h ← index m5 row 0 idx
  some (m5, h)

/-- The loop of lines 118-122: the length of the common prefix. -/
def commonLen : List QString → List QString → Nat
  | a :: as, b :: bs => if a ≠ b then 0 else commonLen as bs + 1
  | _, _ => 0

/-- The loop of lines 143-147. -/
def branchLoop (lt : QString → QString → Bool) :
    FileTreeModel → Nat → QModelIndex → List QString →
      Option (FileTreeModel × Nat × QModelIndex)
  | m, cur, idx, [] => some (m, cur, idx)
  | m, cur, idx, part :: rest => do
    let c ← deref m cur
    let ns ← namesOf m c.dirs
    let pos := insIndex lt ns part
    let (m1, d) := alloc m (mkDir part (c.path ++ '/' :: part) (some cur))
    let m2 ← dirsAddAt m1 cur d pos
    let idx1 ← index m2 pos 0 idx
    branchLoop lt m2 d idx1 rest

/-- Lines 113-151: unrelated trees. -/
def insertUnrelated (lt : QString → QString → Bool) (m : FileTreeModel) (r : Nat)
    (fileDir filePath fileName : QString) (data : Nat) (displayName : QString) :
    Option (FileTreeModel × QModelIndex) := do
  let rn ← deref m r
  let rootPath := splitSlash rn.path
  let newPath := splitSlash fileDir
  let pos := commonLen rootPath newPath
  let newRoot := '/' :: joinSlash (rootPath.take pos)
  let m1 := emit m (.beginRemoveRows .invalid 0 ((rn.childCount : Int) - 1))
  let oldroot := r
  let m2 := { m1 with m_root := none }
  let m3 := emit m2 .endRemoveRows
  let (m4, nr) := alloc m3 (mkDir (fileNameOf newRoot) newRoot none)
  let m5 := { m4 with m_root := some nr }
  let m6 := emit m5 (.beginInsertRows .invalid 0 1)
  let (m7, cur) ← chainLoop lt m6 nr (rootPath.drop pos).dropLast
  let m8 ← attachOldRoot lt m7 cur oldroot
  let (m9, cur2, idx) ← branchLoop lt m8 nr .invalid (newPath.drop pos)
  let (m10, f) := alloc m9 (mkFile fileName filePath (some cur2) data displayName)
  let m11 ← filesAdd lt m10 cur2 f
  let m12 := emit m11 .endInsertRows
  let h ← index m12 0 0 idx
  some (m12, h)

/-- `FileTreeModel::insertFile(filePath, data, displayName)`: the new state and
the returned index. -/
def insertFile (lt : QString → QString → Bool) (tempPath : QString) (m : FileTreeModel)
    (filePath : QString) (data : Nat) (displayName : QString) :
    Option (FileTreeModel × QModelIndex) :=
  let fileDir := absolutePath filePath
  let fileName := fileNameOf filePath
  if startsWith fileDir tempPath then
    insertScratch lt tempPath m filePath fileName data displayName
  else
    match m.m_root with
    | none => insertInitial lt m fileDir filePath fileName data displayName
    | some r =>
      match deref m r with
      | none => none
      | some rn =>
        if rn.path = fileDir then
          insertAtRoot lt m r filePath fileName data displayName
        else if startsWith rn.path fileDir then
          insertAbove lt m r fileDir filePath fileName data displayName
        else if startsWith fileDir rn.path then
          insertBelow lt m r fileDir filePath fileName data displayName
        else
          insertUnrelated lt m r fileDir filePath fileName data displayName

/-! ## `findFile` -/

/-- The loop of lines 181-188; the inner `none` is the `return QModelIndex()`
of line 184. -/
def findLoop (lt : QString → QString → Bool) (m : FileTreeModel) :
    Nat → QModelIndex → List QString → Option (Option (Nat × QModelIndex))
  | cur, idx, [] => some (some (cur, idx))
  | cur, idx, part :: rest => do
    let c ← deref m cur
    let ns ← namesOf m c.dirs
    match find lt ns part with
    | none => some none
    | some it => do
      let d ← c.dirs[it]?
      let dn ← deref m d
      let idx1 ← index m (lowerBound lt dn.fileName ns) 0 idx
      findLoop lt m d idx1 rest

/-- `FileTreeModel::findFile(filePath, isFile)`. -/
def findFile (lt : QString → QString → Bool) (m : FileTreeModel) (filePath : QString)
    (isFile : Bool) : Option QModelIndex :=
  match m.m_root with
  | none => some .invalid
  | some r => do
    let rn ← deref m r
    let fileDir := absolutePath filePath
    let fileName := fileNameOf filePath
    let scratch : Option (Option Nat) :=
      match m.m_tmpdir with
      | none => some none
      | some t => do
        let tn ← deref m t
        if startsWith fileDir tn.path then some (some t) else some none
    match ← scratch with
    | some t => do
      let tn ← deref m t
      let ns ← namesOf m tn.files
      -- line 171 dereferences `it` before it is compared with `end()`
      let it ← find lt ns fileName
      let f ← tn.files[it]?
      let fn ← deref m f
      let rc ← rootChildCount m
      index m (lowerBound lt fn.fileName ns + rc) 0 .invalid
    | none =>
      if !startsWith fileDir rn.path then some .invalid
      else do
        let parts := splitSlash (mid fileDir rn.path.length)
        match ← findLoop lt m r .invalid parts with
        | none => some .invalid
        | some (cur, idx) => do
          let c ← deref m cur
          if isFile then do
            let ns ← namesOf m c.files
            match find lt ns fileName with
            | none => some .invalid
            | some it => do
              let f ← c.files[it]?
              let fn ← deref m f
              index m (c.dirs.length + lowerBound lt fn.fileName ns) 0 idx
          else do
            let ns ← namesOf m c.dirs
            match find lt ns fileName with
            | none => some .invalid
            | some it => do
              let d ← c.dirs[it]?
              let dn ← deref m d
              index m (lowerBound lt dn.fileName ns) 0 idx

/-! ## `removeIndex` and `clear` -/

/-- The loop of lines 207-211, run for at most `fuel` tests of its condition
(`none` when that is not enough). -/
def pruneLoop (lt : QString → QString → Bool) (m : FileTreeModel) :
    Nat → Nat → QModelIndex → Bool → Option (Nat × QModelIndex × Bool)
  | 0, _, _, _ => none
  | fuel + 1, deleteNode, deleteIndex, isFile => do
    let dn ← deref m deleteNode
    match dn.parent with
    | none => some (deleteNode, deleteIndex, isFile)
    | some p => do
      let pn ← deref m p
      if pn.childCount = 1 then do
        let di ← parent lt m deleteIndex
        pruneLoop lt m fuel p di false
      else some (deleteNode, deleteIndex, isFile)

/-- `FileTreeModel::removeIndex(index)`: the new state and the returned flag. -/
def removeIndex (lt : QString → QString → Bool) (m : FileTreeModel) (index : QModelIndex) :
    Option (FileTreeModel × Bool) :=
  match index with
  | .invalid => some (m, false)
  | .mk _ _ p => do
    let node ← deref m p
    let (deleteNode, deleteIndex, isFile) ←
      pruneLoop lt m m.nodes.length p index (!node.isDir)
    if some deleteNode = m.m_root then
      let m1 := emit m (.beginRemoveRows .invalid 0 0)
      let m2 := delete m1 m1.m_root
      let m3 := { m2 with m_root := none }
      some (emit m3 .endRemoveRows, true)
    else if some deleteNode = m.m_tmpdir then do
      let rc ← rootChildCount m
      let tn ← deref m deleteNode
      let row : Int := (rc : Int) + (tn.childCount : Int) - 1
      let m1 := emit m (.beginRemoveRows .invalid row row)
      let m2 := delete m1 m1.m_tmpdir
      let m3 := { m2 with m_tmpdir := none }
      some (emit m3 .endRemoveRows, true)
    else do
      let pidx ← parent lt m deleteIndex
      let m1 := emit m (.beginRemoveRows pidx deleteIndex.row deleteIndex.row)
      let dn ← deref m1 deleteNode
      let par ← dn.parent
      let (m2, taken) ←
        if isFile then filesTake lt m1 par deleteNode else dirsTake lt m1 par deleteNode
      let m3 := delete m2 taken
      some (emit m3 .endRemoveRows, true)

/-- `FileTreeModel::clear()`. -/
def clear (m : FileTreeModel) : Option FileTreeModel :=
  if m.m_root.isSome ∨ m.m_tmpdir.isSome then do
    let rc ← rootChildCount m
    let tc ← match m.m_tmpdir with
      | none => some 0
      | some t => (deref m t).map Node.childCount
    let m1 := emit m (.beginRemoveRows .invalid 0 ((rc : Int) + (tc : Int) - 1))
    let m2 := delete m1 m1.m_root
    let m3 := { m2 with m_root := none }
    let m4 := delete m3 m3.m_tmpdir
    let m5 := { m4 with m_tmpdir := none }
    some (emit m5 .endRemoveRows)
  else some m

/-- `FileTreeModel::fileData(index)`. -/
def fileData (m : FileTreeModel) : QModelIndex → Option (Option Nat)
  | .invalid => none
  | .mk _ _ p => do
    let n ← deref m p
    some (if n.isDir then none else some n.data)

/-- A comparator for examples: the order of the character codes. -/
def codeLt : QString → QString → Bool
  | [], [] => false
  | [], _ :: _ => true
  | _ :: _, [] => false
  | a :: as, b :: bs => if a.toNat < b.toNat then true else if b.toNat < a.toNat then false else codeLt as bs

/-! ## Observations and scenarios -/

/-- The comparator hypotheses: `lt` is the strict part of a total preorder. -/
structure StrictWeak (lt : QString → QString → Bool) : Prop where
  irrefl : ∀ a, lt a a = false
  trans : ∀ a b c, lt a b = true → lt b c = true → lt a c = true
  negTrans : ∀ a b c, lt a c = true → lt a b = true ∨ lt b c = true

/-- A list of names is non-decreasing. -/
def SortedLe (lt : QString → QString → Bool) (ns : List QString) : Prop :=
  ns.Pairwise (fun a b => lt b a = false)

/-- A list of names is strictly increasing. -/
def SortedLt (lt : QString → QString → Bool) (ns : List QString) : Prop :=
  ns.Pairwise (fun a b => lt a b = true)

instance (lt : QString → QString → Bool) (ns : List QString) : Decidable (SortedLe lt ns) := by
  unfold SortedLe; infer_instance

instance (lt : QString → QString → Bool) (ns : List QString) : Decidable (SortedLt lt ns) := by
  unfold SortedLt; infer_instance

/-- The main root node. -/
def rootNode (m : FileTreeModel) : Option Node := m.m_root.bind (deref m)

/-- The scratch root node. -/
def tmpNode (m : FileTreeModel) : Option Node := m.m_tmpdir.bind (deref m)

/-- The node a valid index points to. -/
def nodeOf (m : FileTreeModel) : QModelIndex → Option Node
  | .invalid => none
  | .mk _ _ p => deref m p

/-- `insertFile` for each path and payload in turn. -/
def insertAll (lt : QString → QString → Bool) (tempPath : QString) :
    FileTreeModel → List (QString × Nat) → Option FileTreeModel
  | m, [] => some m
  | m, (p, d) :: rest =>
    match insertFile lt tempPath m p d [] with
    | none => none
    | some (m1, _) => insertAll lt tempPath m1 rest

/-- `insertFile` followed by `removeIndex` of the returned index. -/
def insertThenRemove (lt : QString → QString → Bool) (tempPath : QString) (m : FileTreeModel)
    (filePath : QString) (data : Nat) (displayName : QString) : Option FileTreeModel :=
  match insertFile lt tempPath m filePath data displayName with
  | none => none
  | some (m1, h) => (removeIndex lt m1 h).map Prod.fst

/-- The path `a` is an ancestor of or equal to the path `b`, segment by segment. -/
def segAncestor (a b : QString) : Bool := (splitSlash a).isPrefixOf (splitSlash b)

/-- What a file node shows: name, path, payload. -/
def fileView (m : FileTreeModel) (f : Nat) : Option (QString × QString × Nat) :=
  match deref m f with
  | some n => if n.isDir then none else some (n.fileName, n.path, n.data)
  | none => none

/-- What a directory node shows: name, path, the names of its subdirectories, its files. -/
def dirView (m : FileTreeModel) (d : Nat) :
    Option (QString × QString × Option (List QString) × List (Option (QString × QString × Nat))) :=
  match deref m d with
  | some n =>
    if n.isDir then some (n.fileName, n.path, namesOf m n.dirs, n.files.map (fileView m))
    else none
  | none => none

/-- The temporary directory of the examples. -/
def exTmp : QString := "/tmp".toList

/-! ## Composite updates -/

/-- The arena after `x` was allocated and inserted at `pos` into the `files` of `cur`,
whose node was `c`. -/
def attachedFile (m : FileTreeModel) (cur : Nat) (c x : Node) (pos : Nat) : FileTreeModel :=
  store (alloc m x).1 cur { c with files := insertAt m.nodes.length pos c.files }

/-- The arena after `x` was allocated and inserted at `pos` into the `dirs` of `cur`,
whose node was `c`. -/
def attachedDir (m : FileTreeModel) (cur : Nat) (c x : Node) (pos : Nat) : FileTreeModel :=
  store (alloc m x).1 cur { c with dirs := insertAt m.nodes.length pos c.dirs }

/-! ## Invariants and reachable states -/

/-- The structural invariant of the arena.  `hole` is a directory that was just
created and has no child yet, if there is one. -/
structure Inv (lt : QString → QString → Bool) (m : FileTreeModel) (hole : Option Nat) :
    Prop where
  root_ok : ∀ r, m.m_root = some r →
    ∃ n, deref m r = some n ∧ n.isDir = true ∧ n.parent = none
  tmp_ok : ∀ t, m.m_tmpdir = some t →
    ∃ n, deref m t = some n ∧ n.isDir = true ∧ n.parent = none ∧ n.dirs = []
  root_ne_tmp : ∀ r, m.m_root = some r → m.m_tmpdir ≠ some r
  dirs_ok : ∀ p n c, deref m p = some n → c ∈ n.dirs →
    ∃ cn, deref m c = some cn ∧ cn.isDir = true ∧ cn.parent = some p
  files_ok : ∀ p n c, deref m p = some n → c ∈ n.files →
    ∃ cn, deref m c = some cn ∧ cn.isDir = false ∧ cn.parent = some p
  leaf : ∀ p n, deref m p = some n → n.isDir = false → n.dirs = [] ∧ n.files = []
  parent_ok : ∀ p n q, deref m p = some n → n.parent = some q →
    ∃ qn, deref m q = some qn ∧ qn.isDir = true
  nonempty : ∀ p n, deref m p = some n → n.isDir = true → some p ≠ hole → 1 ≤ n.childCount
  sorted_dirs : ∀ p n ns, deref m p = some n → namesOf m n.dirs = some ns → SortedLe lt ns
  sorted_files : ∀ p n ns, deref m p = some n → namesOf m n.files = some ns → SortedLe lt ns

/-- `rk` decreases along the parent pointers. -/
def RankOK (m : FileTreeModel) (rk : Nat → Nat) : Prop :=
  ∀ p n q, deref m p = some n → n.parent = some q → rk q < rk p

/-- The parent pointers have no cycle. -/
def Ranked (m : FileTreeModel) : Prop := ∃ rk, RankOK m rk

/-- The main root carries a clean absolute path and the last segment of it as its name. -/
def RootClean (m : FileTreeModel) : Prop :=
  ∀ r n, m.m_root = some r → deref m r = some n →
    ∃ segs, (∀ s ∈ segs, isSeg s = true) ∧ n.path = dirPath segs ∧
      n.fileName = fileNameOf n.path

/-- The invariant of the reachable states. -/
structure Good (lt : QString → QString → Bool) (m : FileTreeModel) : Prop where
  inv : Inv lt m none
  ranked : Ranked m
  rootClean : RootClean m

/-- From state `m` to a later state `m1` of the same `insertFile` call, before the file
node is allocated: old nodes keep their identity, file nodes are untouched, the new
nodes are directories. -/
structure Frame (m m1 : FileTreeModel) : Prop where
  len : m.nodes.length ≤ m1.nodes.length
  old_sig : ∀ p n, deref m p = some n → ∃ n1, deref m1 p = some n1 ∧
    n1.isDir = n.isDir ∧ n1.fileName = n.fileName ∧ n1.path = n.path ∧ n1.data = n.data ∧
    n1.displayName = n.displayName ∧ n1.editable = n.editable
  old_file : ∀ p n, deref m p = some n → n.isDir = false → deref m1 p = some n
  old_lists : ∀ p n, deref m p = some n → ∃ n1, deref m1 p = some n1 ∧
    (∀ c ∈ n.dirs, c ∈ n1.dirs) ∧ (∀ c ∈ n.files, c ∈ n1.files)
  new_dir : ∀ p n, deref m1 p = some n → m.nodes.length ≤ p → n.isDir = true

/-- The index `idx` that `insertFile` carries along with the cursor `cur`. -/
def IdxFor (m : FileTreeModel) (idx : QModelIndex) (cur : Nat) : Prop :=
  (idx = .invalid ∧ m.m_root = some cur) ∨ ∃ r0 c0, idx = .mk r0 c0 cur

/-- The loop invariant of `insertFile`: `m0` is a state of the call that started in `m`,
`cur` is its cursor and `idx` the index carried along. -/
structure Cursor (lt : QString → QString → Bool) (m m0 : FileTreeModel) (cur : Nat)
    (idx : QModelIndex) : Prop where
  frame : Frame m m0
  ranked : Ranked m0
  clean : RootClean m0
  node : ∃ c, deref m0 cur = some c ∧ c.isDir = true ∧
    (m0.m_root ≠ some cur → ∃ gp, c.parent = some gp) ∧
    (Inv lt m0 none ∨ (Inv lt m0 (some cur) ∧ c.dirs = [] ∧ c.files = []))
  not_tmp : m0.m_tmpdir ≠ some cur
  idx_ok : IdxFor m0 idx cur
  tmp_eq : m0.m_tmpdir = m.m_tmpdir

/-- The loop invariant of the chain loops (lines 80-82 and 134-136): `m0` is a state of
the call that started in `m`, the cursor `cur` is a new directory without children, the
old root `r` is untouched, and `k` more directories fit between `cur` and `r`. -/
structure ChainInv (lt : QString → QString → Bool) (m : FileTreeModel) (r : Nat) (rn : Node)
    (k : Nat) (m0 : FileTreeModel) (cur : Nat) (c : Node) : Prop where
  frame : Frame m m0
  inv : Inv lt m0 (some cur)
  rank : ∃ rk, RankOK m0 rk ∧ rk cur + k < rk r
  clean : RootClean m0
  node : deref m0 cur = some c
  isDir : c.isDir = true
  dirs : c.dirs = []
  files : c.files = []
  not_tmp : m0.m_tmpdir ≠ some cur
  tmp_eq : m0.m_tmpdir = m.m_tmpdir
  r_old : r < m.nodes.length
  cur_new : m.nodes.length ≤ cur
  old : deref m r = some rn
  keep : ∀ p, p < m.nodes.length → deref m0 p = deref m p

/-- What a call of `insertFile` that put the new file below the node `par` guarantees. -/
structure BranchPost (lt : QString → QString → Bool) (m m1 : FileTreeModel)
    (h : QModelIndex) (par : Nat) (fileName filePath : QString) (data : Nat)
    (displayName : QString) : Prop where
  good : Good lt m1
  grows : m.nodes.length < m1.nodes.length
  handle : ∃ row P, h = .mk row 0 (m1.nodes.length - 1) ∧ parent lt m1 h = some P ∧
    index m1 row 0 P = some h
  node : deref m1 (m1.nodes.length - 1)
    = some (mkFile fileName filePath (some par) data displayName)
  old_sig : ∀ p n, deref m p = some n → ∃ n1, deref m1 p = some n1 ∧
    n1.isDir = n.isDir ∧ n1.fileName = n.fileName ∧ n1.path = n.path ∧ n1.data = n.data ∧
    n1.displayName = n.displayName ∧ n1.editable = n.editable
  old_file : ∀ p n, deref m p = some n → n.isDir = false → deref m1 p = some n
  old_lists : ∀ p n, deref m p = some n → ∃ n1, deref m1 p = some n1 ∧
    (∀ c ∈ n.dirs, c ∈ n1.dirs) ∧ (∀ c ∈ n.files, c ∈ n1.files)
  new_file : ∀ p n, deref m1 p = some n → m.nodes.length ≤ p → n.isDir = false →
    p = m1.nodes.length - 1

/-- The states reached from the empty model by `insertFile` with clean absolute
paths, `removeIndex` and `clear`. -/
inductive Reachable (lt : QString → QString → Bool) (tempPath : QString) :
    FileTreeModel → Prop where
  | init : Reachable lt tempPath empty
  | insert {m m1 : FileTreeModel} {h : QModelIndex} (segs : List QString) (name : QString)
      (data : Nat) (displayName : QString) :
      Reachable lt tempPath m → (∀ s ∈ segs, isSeg s = true) → isSeg name = true →
      insertFile lt tempPath m (filePathOf segs name) data displayName = some (m1, h) →
      Reachable lt tempPath m1
  | remove {m m1 : FileTreeModel} {b : Bool} (h : QModelIndex) :
      Reachable lt tempPath m → removeIndex lt m h = some (m1, b) → Reachable lt tempPath m1
  | clear {m m1 : FileTreeModel} :
      Reachable lt tempPath m → clear m = some m1 → Reachable lt tempPath m1

/-- The indexes a view can hold: obtained from `index`, starting at the top level. -/
inductive ValidIndex (m : FileTreeModel) : QModelIndex → Prop where
  | top (row : Nat) {h : QModelIndex} :
      index m row 0 .invalid = some h → h ≠ .invalid → ValidIndex m h
  | child (row : Nat) {par h : QModelIndex} :
      ValidIndex m par → index m row 0 par = some h → h ≠ .invalid → ValidIndex m h

/-- Node `b` is reached from node `a` by descending through `dirs` along the names `segs`. -/
inductive Descends (m : FileTreeModel) : Nat → List QString → Nat → Prop where
  | here (a : Nat) : Descends m a [] a
  | down {a c b : Nat} {n cn : Node} {s : QString} {segs : List QString} :
      deref m a = some n → c ∈ n.dirs → deref m c = some cn → cn.fileName = s →
      Descends m c segs b → Descends m a (s :: segs) b

/-- The states reached from the empty model by `insertFile` alone, with clean absolute
paths. -/
inductive Inserted (lt : QString → QString → Bool) (tempPath : QString) :
    FileTreeModel → Prop where
  | init : Inserted lt tempPath empty
  | insert {m m1 : FileTreeModel} {h : QModelIndex} (segs : List QString) (name : QString)
      (data : Nat) (displayName : QString) :
      Inserted lt tempPath m → (∀ s ∈ segs, isSeg s = true) → isSeg name = true →
      insertFile lt tempPath m (filePathOf segs name) data displayName = some (m1, h) →
      Inserted lt tempPath m1

/-- Node `a` is the highest of the nodes `p`, parent of `p`, ... such that every node
above `p` up to `a` has exactly one child: either `a` has no parent, or the parent of `a`
has not exactly one child. -/
inductive PruneTop (m : FileTreeModel) : Nat → Nat → Prop where
  | root {p : Nat} {n : Node} : deref m p = some n → n.parent = none → PruneTop m p p
  | many {p q : Nat} {n qn : Node} : deref m p = some n → n.parent = some q →
      deref m q = some qn → qn.childCount ≠ 1 → PruneTop m p p
  | climb {p q a : Nat} {n qn : Node} : deref m p = some n → n.parent = some q →
      deref m q = some qn → qn.childCount = 1 → PruneTop m q a → PruneTop m p a

/-- The nodes of the two trees: the roots, and what is in a child list of such a node. -/
inductive Live (m : FileTreeModel) : Nat → Prop where
  | root {r : Nat} : m.m_root = some r → Live m r
  | tmp {t : Nat} : m.m_tmpdir = some t → Live m t
  | dir {q c : Nat} {n : Node} : Live m q → deref m q = some n → c ∈ n.dirs → Live m c
  | file {q c : Nat} {n : Node} : Live m q → deref m q = some n → c ∈ n.files → Live m c

/-- The index `idx` belongs to the node `p`: it points to `p`, or it is invalid and `p`
is one of the roots. -/
def IdxAt (m : FileTreeModel) (idx : QModelIndex) (p : Nat) : Prop :=
  (∃ r c, idx = .mk r c p) ∨ (idx = .invalid ∧ (m.m_root = some p ∨ m.m_tmpdir = some p))

/-- The model that holds the one file `/a/b/c/x`. -/
def exDeep : FileTreeModel :=
  ((insertFile codeLt exTmp empty "/a/b/c/x".toList 1 []).map Prod.fst).getD empty

/-- The file leaves below node `p`, left to right, each as `(name, path, payload)`;
`fuel` bounds the depth of the descent. -/
def leavesFrom (m : FileTreeModel) : Nat → Nat → List (QString × QString × Nat)
  | 0, _ => []
  | fuel + 1, p =>
    match deref m p with
    | none => []
    | some n =>
      if n.isDir then
        (n.dirs.map (leavesFrom m fuel)).flatten ++ (n.files.map (leavesFrom m fuel)).flatten
      else [(n.fileName, n.path, n.data)]

/-- The file leaves of the main tree, then those of the scratch tree. -/
def leaves (m : FileTreeModel) : List (QString × QString × Nat) :=
  (match m.m_root with
    | none => []
    | some r => leavesFrom m m.nodes.length r) ++
  (match m.m_tmpdir with
    | none => []
    | some t => leavesFrom m m.nodes.length t)

/-- State `m1` is state `m` with a chain of new directories `top`, `top + 1`, ..., `cur`
that hangs in the `dirs` of the old node `P`: each of them but `cur` has the next one as
its only child, `cur` has no child yet, and the other old nodes are as in `m`. -/
structure Hung (lt : QString → QString → Bool) (m m1 : FileTreeModel) (P top cur : Nat) :
    Prop where
  len : m1.nodes.length = cur + 1
  top_eq : top = m.nodes.length
  top_le : top ≤ cur
  root_eq : m1.m_root = m.m_root
  tmp_eq : m1.m_tmpdir = m.m_tmpdir
  keep : ∀ p, p < m.nodes.length → p ≠ P → deref m1 p = deref m p
  hang : ∃ pn tn ns, deref m P = some pn ∧ namesOf m pn.dirs = some ns ∧
    deref m1 top = some tn ∧ tn.parent = some P ∧
    deref m1 P = some { pn with dirs := insertAt top (lowerBound lt tn.fileName ns) pn.dirs }
  chain_parent : ∀ k, top < k → k ≤ cur → ∃ n, deref m1 k = some n ∧ n.parent = some (k - 1)
  chain_sole : ∀ k, top ≤ k → k < cur → ∃ n, deref m1 k = some n ∧ n.childCount = 1
  fresh : ∃ c, deref m1 cur = some c ∧ c.dirs = [] ∧ c.files = []

/-- The cursor of the descent of lines 93-106 while it is at an old node: a directory
that is the main root or has a parent. -/
def CurOK (m : FileTreeModel) (cur : Nat) : Prop :=
  ∃ c, deref m cur = some c ∧ c.isDir = true ∧
    (m.m_root = some cur ∨ ∃ gp, c.parent = some gp)

/-- State `m2` has the roots of `m`, and every node of `m` is unchanged in it. -/
def Restored (m m2 : FileTreeModel) : Prop :=
  m2.m_root = m.m_root ∧ m2.m_tmpdir = m.m_tmpdir ∧
    ∀ p, p < m.nodes.length → deref m2 p = deref m p

/-- Each of the nodes `top`, `top + 1`, ..., `cur - 1` of `m` is a directory whose only
child is the next one. -/
def SoleChain (m : FileTreeModel) (top cur : Nat) : Prop :=
  ∀ k, top ≤ k → k < cur →
    ∃ n, deref m k = some n ∧ n.isDir = true ∧ n.dirs = [k + 1] ∧ n.files = []

/-- State `m2` has a new main root, allocated right after the nodes of `m`, from which a
chain of new directories with one child each leads to the old main root `r` of `m`; the
scratch root is that of `m`, the node of `r` has a new `parent` and every other node of
`m` is unchanged. -/
def Rerooted (m m2 : FileTreeModel) : Prop :=
  ∃ r rn cur1, m.m_root = some r ∧ deref m r = some rn ∧
    m2.m_root = some m.nodes.length ∧ m2.m_tmpdir = m.m_tmpdir ∧
    deref m2 r = some { rn with parent := some cur1 } ∧
    (∀ p, p < m.nodes.length → p ≠ r → deref m2 p = deref m p) ∧
    m.nodes.length ≤ cur1 ∧ SoleChain m2 m.nodes.length cur1 ∧
    ∃ n, deref m2 cur1 = some n ∧ n.isDir = true ∧ n.dirs = [r] ∧ n.files = []

/-- The branch test of `insertFile` for the directory path `fileDir` of the new file: the
call leaves the main root in place or makes the first one, that is, the path is under
the temporary directory, or there is no main root, or the path starts with the path of
the main root. -/
def keepsRoot (tempPath : QString) (m : FileTreeModel) (fileDir : QString) : Bool :=
  startsWith fileDir tempPath ||
    match m.m_root with
    | none => true
    | some r =>
      match deref m r with
      | none => false
      | some rn => startsWith fileDir rn.path

/-- The key of a name for `numLt`: a `0` that starts a run of digits and is followed by
a digit is dropped (`prevDigit` tells whether the character before was a digit). -/
def numKeyAux : Bool → QString → QString
  | _, [] => []
  | prevDigit, c :: cs =>
    if c = '0' ∧ prevDigit = false ∧ (cs.head?.map Char.isDigit) = some true then
      numKeyAux false cs
    else c :: numKeyAux c.isDigit cs

/-- The key of a name for `numLt`. -/
def numKey (s : QString) : QString := numKeyAux false s

/-- A comparator for examples that is not a total order on names: the order of the
character codes after the zeros at the start of a number were dropped, so that `a01` and
`a1` compare as equal, as they do for the collator of lines 353-357 (numeric mode). -/
def numLt (a b : QString) : Bool := codeLt (numKey a) (numKey b)

/-- The model that holds the one file `/r/a1/f`. -/
def exNumOne : FileTreeModel :=
  ((insertFile numLt exTmp empty "/r/a1/f".toList 1 []).map Prod.fst).getD empty

/-- The model that holds `/r/a1/f` and `/r/a01/g`, built with `numLt`: the main root `/r`
(node 2) has the subdirectories `a01` (node 3) and `a1` (node 0), in this order. -/
def exNum : FileTreeModel :=
  ((insertFile numLt exTmp exNumOne "/r/a01/g".toList 2 []).map Prod.fst).getD empty

end FileTreeModel


/-! # Theorems -/

namespace FileTreeModel

/-! ## Scenarios -/

/-- C2, the failing input: with no main root, `insertFile` of `/tmp/x` (under the
temporary directory `/tmp`) returns the index `(0, 0, node 1)`, and `findFile` of
the same path on the resulting model returns the invalid index: line 155 returns
before the scratch lookup of lines 169-173. -/
theorem c2_scratch_without_root :
    ((insertFile codeLt exTmp empty "/tmp/x".toList 1 []).map fun r =>
      (r.2, r.1.m_root, findFile codeLt r.1 "/tmp/x".toList true))
      = some (.mk 0 0 1, none, some .invalid) := by
  decide

/-- C5, the failing input: after `/a/bc/f` and then `/a/b/g` the main root has the
path `/a/b` and its subdirectory (node 0) has the recorded path `/a/bc`, of which
`/a/b` is not an ancestor segment by segment: line 70 compares characters. -/
theorem c5_root_not_ancestor :
    ((insertAll codeLt exTmp empty [("/a/bc/f".toList, 1), ("/a/b/g".toList, 2)]).bind
      fun m => (rootNode m).bind fun n => (n.dirs.head?.bind (deref m)).map fun c =>
        (n.path, c.path, decide (c.parent = m.m_root), segAncestor n.path c.path))
      = some ("/a/b".toList, "/a/bc".toList, true, false) := by
  decide

/-- C8 (as stated) fails: after `/a/b/x` and then `/a/y` the subdirectories of the root
are not `b` and `y`. -/
theorem c8_counterexample :
    ¬ (((insertAll codeLt exTmp empty [("/a/b/x".toList, 1), ("/a/y".toList, 2)]).bind
      fun m => (rootNode m).bind fun n => namesOf m n.dirs)
      = some ["b".toList, "y".toList]) := by
  decide

/-- C8, amended: after `/a/b/x` and then `/a/y` the root has the path `/a`, the one
subdirectory `b`, which holds the file `x` (path `/a/b/x`, payload 1) and nothing
else, and the one file `y` (path `/a/y`, payload 2). -/
theorem c8_tree :
    ((insertAll codeLt exTmp empty [("/a/b/x".toList, 1), ("/a/y".toList, 2)]).bind
      fun m => (rootNode m).map fun n =>
        (n.path, n.dirs.map (dirView m), n.files.map (fileView m)))
      = some ("/a".toList,
          [some ("b".toList, "/a/b".toList, some [],
            [some ("x".toList, "/a/b/x".toList, 1)])],
          [some ("y".toList, "/a/y".toList, 2)]) := by
  rfl

/-- C10 (as stated) fails: in the model holding `/a/b/c/x` the root's path is `/a/b/c`;
after inserting `/a/b/y` and removing the returned index the root's path is `/a/b`. -/
theorem c10_counterexample :
    ((insertAll codeLt exTmp empty [("/a/b/c/x".toList, 1)]).bind fun m =>
      (insertThenRemove codeLt exTmp m "/a/b/y".toList 2 []).map fun m2 =>
        ((rootNode m).map Node.path, (rootNode m2).map Node.path))
      = some (some "/a/b/c".toList, some "/a/b".toList) := by
  decide

end FileTreeModel


namespace FileTreeModel

/-! ## Sorted lists of names -/

theorem StrictWeak.asymm {lt : QString → QString → Bool} (hlt : StrictWeak lt) {a b : QString}
    (h : lt a b = true) : lt b a = false := by
  cases hba : lt b a with
  | false => rfl
  | true =>
    have := hlt.trans a b a h hba
    rw [hlt.irrefl] at this
    exact absurd this (by simp)

theorem lowerBound_le (lt : QString → QString → Bool) (key : QString) (ns : List QString) :
    lowerBound lt key ns ≤ ns.length := by
  induction ns with
  | nil => simp [lowerBound]
  | cons a as ih =>
    simp only [lowerBound]
    split
    · simp; omega
    · simp

theorem lowerBound_before (lt : QString → QString → Bool) (key : QString) (ns : List QString) :
    ∀ a ∈ ns.take (lowerBound lt key ns), lt a key = true := by
  induction ns with
  | nil => simp [lowerBound]
  | cons b bs ih =>
    simp only [lowerBound]
    split
    · rename_i hb
      intro a ha
      simp only [List.take_succ_cons, List.mem_cons] at ha
      rcases ha with rfl | ha
      · exact hb
      · exact ih a ha
    · simp

theorem lowerBound_after {lt : QString → QString → Bool} (hlt : StrictWeak lt) (key : QString)
    (ns : List QString) (hs : SortedLe lt ns) :
    ∀ b ∈ ns.drop (lowerBound lt key ns), lt b key = false := by
  induction ns with
  | nil => simp [lowerBound]
  | cons a as ih =>
    have hs' : SortedLe lt as := (List.pairwise_cons.mp hs).2
    have ha : ∀ b ∈ as, lt b a = false := (List.pairwise_cons.mp hs).1
    simp only [lowerBound]
    split
    · simpa using ih hs'
    · rename_i hak
      intro b hb
      simp only [List.drop_zero, List.mem_cons] at hb
      rcases hb with rfl | hb
      · simpa using hak
      · cases hbk : lt b key with
        | false => rfl
        | true =>
          rcases hlt.negTrans b a key hbk with h | h
          · rw [ha b hb] at h; exact absurd h (by simp)
          · exact absurd h hak

theorem SortedLt.sortedLe {lt : QString → QString → Bool} (hlt : StrictWeak lt)
    {ns : List QString} (hs : SortedLt lt ns) : SortedLe lt ns :=
  List.Pairwise.imp (fun h => hlt.asymm h) hs

theorem insertAt_length {α : Type} (x : α) (pos : Nat) (l : List α) (h : pos ≤ l.length) :
    (insertAt x pos l).length = l.length + 1 := by
  simp [insertAt]; omega

theorem mem_insertAt {α : Type} {x y : α} {pos : Nat} {l : List α} :
    y ∈ insertAt x pos l → y = x ∨ y ∈ l := by
  intro h
  simp only [insertAt, List.mem_append, List.mem_cons] at h
  rcases h with h | h | h
  · exact Or.inr (List.mem_of_mem_take h)
  · exact Or.inl h
  · exact Or.inr (List.mem_of_mem_drop h)

theorem mem_insertAt_self {α : Type} (x : α) (pos : Nat) (l : List α) :
    x ∈ insertAt x pos l := by
  simp [insertAt]

theorem mem_insertAt_of_mem {α : Type} {x y : α} (pos : Nat) {l : List α} (h : y ∈ l) :
    y ∈ insertAt x pos l := by
  rw [← List.take_append_drop pos l] at h
  simp only [insertAt, List.mem_append, List.mem_cons] at h ⊢
  tauto

theorem insertAt_getElem? {α : Type} (x : α) (pos : Nat) (l : List α) (h : pos ≤ l.length) :
    (insertAt x pos l)[pos]? = some x := by
  simp only [insertAt]
  rw [List.getElem?_append_right (by simp)]
  simp [Nat.min_eq_left h]

theorem insertAt_eraseIdx {α : Type} (x : α) (pos : Nat) (l : List α) (h : pos ≤ l.length) :
    (insertAt x pos l).eraseIdx pos = l := by
  simp only [insertAt]
  rw [List.eraseIdx_append_of_length_le (by simp)]
  simp [Nat.min_eq_left h]

theorem map_insertAt {α β : Type} (f : α → β) (x : α) (pos : Nat) (l : List α) :
    (insertAt x pos l).map f = insertAt (f x) pos (l.map f) := by
  simp [insertAt, List.map_take, List.map_drop]

/-- Inserting at the lower bound keeps a list non-decreasing. -/
theorem sortedLe_insert {lt : QString → QString → Bool} (hlt : StrictWeak lt) (x : QString)
    (ns : List QString) (hs : SortedLe lt ns) :
    SortedLe lt (insertAt x (lowerBound lt x ns) ns) := by
  have hsplit : SortedLe lt (ns.take (lowerBound lt x ns) ++ ns.drop (lowerBound lt x ns)) := by
    rw [List.take_append_drop]; exact hs
  unfold SortedLe at hsplit
  rw [List.pairwise_append] at hsplit
  obtain ⟨h1, h2, h3⟩ := hsplit
  unfold SortedLe insertAt
  rw [List.pairwise_append]
  refine ⟨h1, ?_, ?_⟩
  · rw [List.pairwise_cons]
    exact ⟨fun b hb => lowerBound_after hlt x ns hs b hb, h2⟩
  · intro a ha b hb
    rcases List.mem_cons.mp hb with rfl | hb
    · exact hlt.asymm (lowerBound_before lt b ns a ha)
    · exact h3 a ha b hb

theorem sortedLe_eraseIdx {lt : QString → QString → Bool} {ns : List QString}
    (hs : SortedLe lt ns) (i : Nat) : SortedLe lt (ns.eraseIdx i) :=
  List.Pairwise.sublist (List.eraseIdx_sublist ns i) hs

theorem sortedLt_eraseIdx {lt : QString → QString → Bool} {ns : List QString}
    (hs : SortedLt lt ns) (i : Nat) : SortedLt lt (ns.eraseIdx i) :=
  List.Pairwise.sublist (List.eraseIdx_sublist ns i) hs

/-- The lower bound of `x` in a list into which `x` was inserted at its lower bound. -/
theorem lowerBound_insert {lt : QString → QString → Bool} (hirr : ∀ a, lt a a = false)
    (x : QString) (ns : List QString) :
    lowerBound lt x (insertAt x (lowerBound lt x ns) ns) = lowerBound lt x ns := by
  induction ns with
  | nil => simp [lowerBound, insertAt, hirr]
  | cons a as ih =>
    by_cases ha : lt a x = true
    · simp only [lowerBound, ha, if_true, insertAt, List.take_succ_cons, List.drop_succ_cons,
        List.cons_append]
      simp only [insertAt] at ih
      rw [ih]
    · simp [lowerBound, ha, insertAt, hirr]

theorem find_some {lt : QString → QString → Bool} {ns : List QString} {x : QString} {i : Nat}
    (h : find lt ns x = some i) : i = lowerBound lt x ns ∧ ns[i]? = some x := by
  unfold find at h
  simp only at h
  split at h
  · exact absurd h (by simp)
  · rename_i n hn
    split at h
    · rename_i hnx
      simp only [Option.some.injEq] at h
      subst h; subst hnx
      exact ⟨rfl, hn⟩
    · exact absurd h (by simp)

theorem find_insert {lt : QString → QString → Bool} (hirr : ∀ a, lt a a = false)
    (x : QString) (ns : List QString) :
    find lt (insertAt x (lowerBound lt x ns) ns) x = some (lowerBound lt x ns) := by
  unfold find
  simp only [lowerBound_insert hirr, insertAt_getElem? x _ ns (lowerBound_le lt x ns), if_true]

/-- In a strictly increasing list the name at a position has that position as lower bound. -/
theorem lowerBound_of_getElem? {lt : QString → QString → Bool} (hlt : StrictWeak lt)
    {ns : List QString} (hs : SortedLt lt ns) {i : Nat} {x : QString} (hx : ns[i]? = some x) :
    lowerBound lt x ns = i := by
  induction ns generalizing i with
  | nil => simp at hx
  | cons a as ih =>
    have hs' : SortedLt lt as := (List.pairwise_cons.mp hs).2
    have ha : ∀ b ∈ as, lt a b = true := (List.pairwise_cons.mp hs).1
    cases i with
    | zero =>
      simp only [List.getElem?_cons_zero, Option.some.injEq] at hx
      subst hx
      simp [lowerBound, hlt.irrefl]
    | succ j =>
      simp only [List.getElem?_cons_succ] at hx
      have hmem : x ∈ as := List.getElem?_mem hx
      simp [lowerBound, ha x hmem, ih hs' hx]

theorem find_of_getElem? {lt : QString → QString → Bool} (hlt : StrictWeak lt)
    {ns : List QString} (hs : SortedLt lt ns) {i : Nat} {x : QString} (hx : ns[i]? = some x) :
    find lt ns x = some i := by
  unfold find
  simp [lowerBound_of_getElem? hlt hs hx, hx]

theorem find_none_not_mem {lt : QString → QString → Bool} (hlt : StrictWeak lt)
    {ns : List QString} (hs : SortedLt lt ns) {x : QString} (h : find lt ns x = none) :
    x ∉ ns := by
  intro hmem
  obtain ⟨i, hi⟩ := List.getElem?_of_mem hmem
  rw [find_of_getElem? hlt hs hi] at h
  exact absurd h (by simp)

end FileTreeModel


namespace FileTreeModel

/-! ## The arena -/

theorem deref_lt {m : FileTreeModel} {p : Nat} {n : Node} (h : deref m p = some n) :
    p < m.nodes.length := by
  unfold deref at h
  by_contra hlt
  rw [List.getElem?_eq_none (by omega)] at h
  exact absurd h (by simp)

theorem deref_some_of_lt {m : FileTreeModel} {p : Nat} (h : p < m.nodes.length) :
    ∃ n, deref m p = some n := by
  unfold deref
  exact ⟨m.nodes[p], List.getElem?_eq_getElem h⟩

@[simp] theorem deref_emit (m : FileTreeModel) (e : Event) (p : Nat) :
    deref (emit m e) p = deref m p := rfl

@[simp] theorem deref_delete (m : FileTreeModel) (d : Option Nat) (p : Nat) :
    deref (delete m d) p = deref m p := by
  cases d <;> rfl

@[simp] theorem deref_set_root (m : FileTreeModel) (r : Option Nat) (p : Nat) :
    deref { m with m_root := r } p = deref m p := rfl

@[simp] theorem deref_set_tmpdir (m : FileTreeModel) (r : Option Nat) (p : Nat) :
    deref { m with m_tmpdir := r } p = deref m p := rfl

theorem deref_alloc (m : FileTreeModel) (x : Node) (p : Nat) :
    deref (alloc m x).1 p = if p = m.nodes.length then some x else deref m p := by
  unfold deref alloc
  simp only
  split
  · rename_i h; subst h; simp
  · rename_i h
    by_cases hlt : p < m.nodes.length
    · rw [List.getElem?_append_left hlt]
    · rw [List.getElem?_eq_none (by simp; omega), List.getElem?_eq_none (by omega)]

@[simp] theorem alloc_snd (m : FileTreeModel) (x : Node) : (alloc m x).2 = m.nodes.length := rfl

@[simp] theorem alloc_length (m : FileTreeModel) (x : Node) :
    (alloc m x).1.nodes.length = m.nodes.length + 1 := by
  simp [alloc]

@[simp] theorem store_length (m : FileTreeModel) (q : Nat) (x : Node) :
    (store m q x).nodes.length = m.nodes.length := by
  simp [store]

@[simp] theorem emit_length (m : FileTreeModel) (e : Event) :
    (emit m e).nodes.length = m.nodes.length := rfl

theorem deref_store (m : FileTreeModel) (q : Nat) (x : Node) (p : Nat) :
    deref (store m q x) p =
      if p = q then (if q < m.nodes.length then some x else none) else deref m p := by
  unfold deref store
  simp only [List.getElem?_set]
  by_cases h : q = p
  · subst h; simp
  · have h' : ¬ p = q := fun e => h e.symm
    simp [h, h']

@[simp] theorem alloc_m_root (m : FileTreeModel) (x : Node) : (alloc m x).1.m_root = m.m_root := rfl
@[simp] theorem alloc_m_tmpdir (m : FileTreeModel) (x : Node) :
    (alloc m x).1.m_tmpdir = m.m_tmpdir := rfl
@[simp] theorem store_m_root (m : FileTreeModel) (q : Nat) (x : Node) :
    (store m q x).m_root = m.m_root := rfl
@[simp] theorem store_m_tmpdir (m : FileTreeModel) (q : Nat) (x : Node) :
    (store m q x).m_tmpdir = m.m_tmpdir := rfl
@[simp] theorem emit_m_root (m : FileTreeModel) (e : Event) : (emit m e).m_root = m.m_root := rfl
@[simp] theorem emit_m_tmpdir (m : FileTreeModel) (e : Event) :
    (emit m e).m_tmpdir = m.m_tmpdir := rfl
@[simp] theorem delete_m_root (m : FileTreeModel) (d : Option Nat) :
    (delete m d).m_root = m.m_root := by cases d <;> rfl
@[simp] theorem delete_m_tmpdir (m : FileTreeModel) (d : Option Nat) :
    (delete m d).m_tmpdir = m.m_tmpdir := by cases d <;> rfl
@[simp] theorem delete_nodes (m : FileTreeModel) (d : Option Nat) :
    (delete m d).nodes = m.nodes := by cases d <;> rfl
@[simp] theorem emit_nodes (m : FileTreeModel) (e : Event) : (emit m e).nodes = m.nodes := rfl

/-! ## Names of node lists -/

theorem namesOf_eq_some {m : FileTreeModel} {ids : List Nat} {ns : List QString} :
    namesOf m ids = some ns ↔
      ids.map (fun p => (deref m p).map Node.fileName) = ns.map some := by
  induction ids generalizing ns with
  | nil =>
    cases ns <;> simp [namesOf]
  | cons p ps ih =>
    simp only [namesOf, List.map_cons]
    cases hp : deref m p with
    | none =>
      cases ns <;> simp
    | some n =>
      cases hps : namesOf m ps with
      | none =>
        cases ns with
        | nil => simp
        | cons a as =>
          simp only [Option.map_some', List.map_cons, List.cons.injEq, Option.some.injEq]
          constructor
          · intro h; exact absurd h (by simp)
          · intro h
            exact absurd (ih.mpr h.2) (by simp [hps])
      | some r =>
        have hr := ih.mp hps
        cases ns with
        | nil => simp
        | cons a as =>
          simp only [Option.some.injEq, List.cons.injEq, Option.map_some', List.map_cons, hr]
          constructor
          · rintro ⟨h1, h2⟩; subst h1; subst h2; simp
          · rintro ⟨h1, h2⟩
            exact ⟨h1, (List.map_injective_iff.mpr (Option.some_injective _)) h2⟩

theorem namesOf_congr {m m1 : FileTreeModel} {ids : List Nat}
    (h : ∀ p ∈ ids, (deref m1 p).map Node.fileName = (deref m p).map Node.fileName) :
    namesOf m1 ids = namesOf m ids := by
  have hmap : ids.map (fun p => (deref m1 p).map Node.fileName)
      = ids.map (fun p => (deref m p).map Node.fileName) :=
    List.map_congr_left h
  cases h1 : namesOf m ids with
  | some ns =>
    rw [namesOf_eq_some] at h1 ⊢
    rw [hmap]; exact h1
  | none =>
    cases h2 : namesOf m1 ids with
    | none => rfl
    | some ns =>
      rw [namesOf_eq_some, hmap, ← namesOf_eq_some] at h2
      rw [h1] at h2
      exact absurd h2 (by simp)

theorem namesOf_exists {m : FileTreeModel} {ids : List Nat}
    (h : ∀ p ∈ ids, ∃ n, deref m p = some n) : ∃ ns, namesOf m ids = some ns := by
  induction ids with
  | nil => exact ⟨[], rfl⟩
  | cons p ps ih =>
    obtain ⟨n, hn⟩ := h p (List.mem_cons_self _ _)
    obtain ⟨r, hr⟩ := ih (fun q hq => h q (List.mem_cons_of_mem _ hq))
    exact ⟨n.fileName :: r, by simp [namesOf, hn, hr]⟩

theorem namesOf_length {m : FileTreeModel} {ids : List Nat} {ns : List QString}
    (h : namesOf m ids = some ns) : ns.length = ids.length := by
  have := congrArg List.length (namesOf_eq_some.mp h)
  simpa using this.symm

theorem namesOf_insertAt {m : FileTreeModel} {ids : List Nat} {ns : List QString} {d : Nat}
    {dn : Node} (pos : Nat) (h : namesOf m ids = some ns) (hd : deref m d = some dn) :
    namesOf m (insertAt d pos ids) = some (insertAt dn.fileName pos ns) := by
  rw [namesOf_eq_some] at h ⊢
  rw [map_insertAt, map_insertAt, h, hd]
  rfl

theorem map_eraseIdx_eq {α β : Type} (f : α → β) (l : List α) (i : Nat) :
    (l.eraseIdx i).map f = (l.map f).eraseIdx i := by
  induction l generalizing i with
  | nil => simp
  | cons a as ih =>
    cases i with
    | zero => simp
    | succ j => simp [ih]

theorem namesOf_eraseIdx {m : FileTreeModel} {ids : List Nat} {ns : List QString} (i : Nat)
    (h : namesOf m ids = some ns) : namesOf m (ids.eraseIdx i) = some (ns.eraseIdx i) := by
  rw [namesOf_eq_some] at h ⊢
  rw [map_eraseIdx_eq, map_eraseIdx_eq, h]

theorem namesOf_getElem? {m : FileTreeModel} {ids : List Nat} {ns : List QString} {i p : Nat}
    (h : namesOf m ids = some ns) (hp : ids[i]? = some p) :
    ∃ n, deref m p = some n ∧ ns[i]? = some n.fileName := by
  rw [namesOf_eq_some] at h
  have := congrArg (fun l => l[i]?) h
  simp only [List.getElem?_map, hp, Option.map_some'] at this
  cases hn : deref m p with
  | none =>
    rw [hn] at this
    cases hi : ns[i]? with
    | none => rw [hi] at this; simp at this
    | some a => rw [hi] at this; simp at this
  | some n =>
    refine ⟨n, rfl, ?_⟩
    rw [hn] at this
    cases hi : ns[i]? with
    | none => rw [hi] at this; simp at this
    | some a =>
      rw [hi] at this
      simp only [Option.map_some', Option.some.injEq] at this
      rw [this]

theorem namesOf_getElem?_inv {m : FileTreeModel} {ids : List Nat} {ns : List QString} {i : Nat}
    {x : QString} (h : namesOf m ids = some ns) (hx : ns[i]? = some x) :
    ∃ p n, ids[i]? = some p ∧ deref m p = some n ∧ n.fileName = x := by
  have hlen := namesOf_length h
  have hi : i < ids.length := by
    have := (List.getElem?_eq_some.mp hx).1
    omega
  obtain ⟨n, hn, hn2⟩ := namesOf_getElem? h (List.getElem?_eq_getElem hi)
  refine ⟨ids[i], n, List.getElem?_eq_getElem hi, hn, ?_⟩
  rw [hx] at hn2
  exact (Option.some.inj hn2).symm

end FileTreeModel


namespace FileTreeModel

/-! ## Attaching a new node to a directory -/

theorem deref_attach (m : FileTreeModel) (cur : Nat) (c1 x : Node)
    (hcur : cur < m.nodes.length) (p : Nat) :
    deref (store (alloc m x).1 cur c1) p =
      if p = cur then some c1 else if p = m.nodes.length then some x else deref m p := by
  rw [deref_store, deref_alloc]
  simp only [alloc_length]
  split
  · rw [if_pos (by omega)]
  · rfl

/-- What `deref` gives after a new node `x` was allocated and `cur` was overwritten. -/
theorem deref_attach_cases {m : FileTreeModel} {cur : Nat} {c1 x : Node}
    (hcur : cur < m.nodes.length) {p : Nat} {n : Node}
    (h : deref (store (alloc m x).1 cur c1) p = some n) :
    (p = cur ∧ n = c1) ∨ (p = m.nodes.length ∧ n = x) ∨
      (p ≠ cur ∧ p ≠ m.nodes.length ∧ deref m p = some n) := by
  rw [deref_attach m cur c1 x hcur] at h
  split at h
  · rename_i hp; exact Or.inl ⟨hp, (Option.some.inj h).symm⟩
  · split at h
    · rename_i hp; exact Or.inr (Or.inl ⟨hp, (Option.some.inj h).symm⟩)
    · rename_i hp1 hp2; exact Or.inr (Or.inr ⟨hp1, hp2, h⟩)

/-- Old nodes keep their kind, parent and name when `cur` keeps them. -/
theorem deref_attach_sig {m : FileTreeModel} {cur : Nat} {c x : Node} (c1 : Node)
    (hc : deref m cur = some c) (h1 : c1.isDir = c.isDir) (h2 : c1.parent = c.parent)
    (h3 : c1.fileName = c.fileName) {q : Nat} {qn : Node} (hq : deref m q = some qn) :
    ∃ qn1, deref (store (alloc m x).1 cur c1) q = some qn1 ∧ qn1.isDir = qn.isDir ∧
      qn1.parent = qn.parent ∧ qn1.fileName = qn.fileName := by
  rw [deref_attach m cur c1 x (deref_lt hc)]
  by_cases hqc : q = cur
  · subst hqc
    rw [hc] at hq
    cases hq
    exact ⟨c1, by simp, h1, h2, h3⟩
  · have hql := deref_lt hq
    rw [if_neg hqc, if_neg (by omega)]
    exact ⟨qn, hq, rfl, rfl, rfl⟩

theorem namesOf_attach {m : FileTreeModel} {cur : Nat} {c x : Node} (c1 : Node)
    (hc : deref m cur = some c) (h3 : c1.fileName = c.fileName) {ids : List Nat}
    (hids : ∀ p ∈ ids, ∃ n, deref m p = some n) :
    namesOf (store (alloc m x).1 cur c1) ids = namesOf m ids := by
  apply namesOf_congr
  intro p hp
  obtain ⟨n, hn⟩ := hids p hp
  rw [deref_attach m cur c1 x (deref_lt hc)]
  by_cases hpc : p = cur
  · subst hpc; simp [hc, h3]
  · have := deref_lt hn
    rw [if_neg hpc, if_neg (by omega)]

theorem Inv.attachDir {lt : QString → QString → Bool} (hlt : StrictWeak lt)
    {m : FileTreeModel} {hole : Option Nat} {cur : Nat} {c : Node}
    {ns : List QString} (name path : QString) {pos : Nat}
    (inv : Inv lt m hole) (hh : hole = none ∨ hole = some cur)
    (hc : deref m cur = some c) (hdir : c.isDir = true) (hnt : m.m_tmpdir ≠ some cur)
    (hns : namesOf m c.dirs = some ns) (hpos : pos = lowerBound lt name ns) :
    Inv lt (store (alloc m (mkDir name path (some cur))).1 cur
      { c with dirs := insertAt m.nodes.length pos c.dirs }) (some m.nodes.length) := by
  have hcl := deref_lt hc
  have hsig : ∀ {q : Nat} {qn : Node}, deref m q = some qn → ∃ qn1,
      deref (store (alloc m (mkDir name path (some cur))).1 cur
        { c with dirs := insertAt m.nodes.length pos c.dirs }) q = some qn1 ∧
      qn1.isDir = qn.isDir ∧ qn1.parent = qn.parent ∧ qn1.fileName = qn.fileName :=
    fun hq => deref_attach_sig { c with dirs := insertAt m.nodes.length pos c.dirs }
      hc rfl rfl rfl hq
  have hnew_deref : deref (store (alloc m (mkDir name path (some cur))).1 cur
        { c with dirs := insertAt m.nodes.length pos c.dirs }) m.nodes.length
        = some (mkDir name path (some cur)) := by
    rw [deref_attach m cur _ _ hcl, if_neg (by omega), if_pos rfl]
  have hnames : ∀ {ids : List Nat}, (∀ p ∈ ids, ∃ n, deref m p = some n) →
      namesOf (store (alloc m (mkDir name path (some cur))).1 cur
        { c with dirs := insertAt m.nodes.length pos c.dirs }) ids = namesOf m ids :=
    fun h => namesOf_attach { c with dirs := insertAt m.nodes.length pos c.dirs }
      hc rfl h
  constructor
  · -- root_ok
    intro r hr
    obtain ⟨n, hn, h1, h2⟩ := inv.root_ok r hr
    obtain ⟨n1, hn1, e1, e2, _⟩ := hsig hn
    exact ⟨n1, hn1, e1 ▸ h1, e2 ▸ h2⟩
  · -- tmp_ok
    intro t ht
    obtain ⟨n, hn, h1, h2, h3⟩ := inv.tmp_ok t ht
    have htc : t ≠ cur := fun e => hnt (e ▸ ht)
    have htl := deref_lt hn
    refine ⟨n, ?_, h1, h2, h3⟩
    rw [deref_attach m cur _ _ hcl, if_neg htc, if_neg (by omega)]
    exact hn
  · exact inv.root_ne_tmp
  · -- dirs_ok
    intro p n ch hp hch
    rcases deref_attach_cases hcl hp with ⟨rfl, rfl⟩ | ⟨rfl, rfl⟩ | ⟨_, _, hp0⟩
    · rcases mem_insertAt hch with rfl | hch
      · exact ⟨_, hnew_deref, rfl, rfl⟩
      · obtain ⟨cn, hcn1, h1, h2⟩ := inv.dirs_ok p c ch hc hch
        obtain ⟨n1, hn1, e1, e2, _⟩ := hsig hcn1
        exact ⟨n1, hn1, e1 ▸ h1, e2 ▸ h2⟩
    · simp [mkDir] at hch
    · obtain ⟨cn, hcn1, h1, h2⟩ := inv.dirs_ok p n ch hp0 hch
      obtain ⟨n1, hn1, e1, e2, _⟩ := hsig hcn1
      exact ⟨n1, hn1, e1 ▸ h1, e2 ▸ h2⟩
  · -- files_ok
    intro p n ch hp hch
    rcases deref_attach_cases hcl hp with ⟨rfl, rfl⟩ | ⟨rfl, rfl⟩ | ⟨_, _, hp0⟩
    · obtain ⟨cn, hcn1, h1, h2⟩ := inv.files_ok p c ch hc hch
      obtain ⟨n1, hn1, e1, e2, _⟩ := hsig hcn1
      exact ⟨n1, hn1, e1 ▸ h1, e2 ▸ h2⟩
    · simp [mkDir] at hch
    · obtain ⟨cn, hcn1, h1, h2⟩ := inv.files_ok p n ch hp0 hch
      obtain ⟨n1, hn1, e1, e2, _⟩ := hsig hcn1
      exact ⟨n1, hn1, e1 ▸ h1, e2 ▸ h2⟩
  · -- leaf
    intro p n hp hf
    rcases deref_attach_cases hcl hp with ⟨rfl, rfl⟩ | ⟨rfl, rfl⟩ | ⟨_, _, hp0⟩
    · simp only at hf; rw [hdir] at hf; exact absurd hf (by simp)
    · simp [mkDir]
    · exact inv.leaf p n hp0 hf
  · -- parent_ok
    intro p n q hp hq
    rcases deref_attach_cases hcl hp with ⟨rfl, rfl⟩ | ⟨rfl, rfl⟩ | ⟨_, _, hp0⟩
    · obtain ⟨qn, hqn, h1⟩ := inv.parent_ok p c q hc hq
      obtain ⟨n1, hn1, e1, _, _⟩ := hsig hqn
      exact ⟨n1, hn1, e1 ▸ h1⟩
    · simp only [mkDir, Option.some.injEq] at hq
      subst hq
      obtain ⟨n1, hn1, e1, _, _⟩ := hsig hc
      exact ⟨n1, hn1, e1 ▸ hdir⟩
    · obtain ⟨qn, hqn, h1⟩ := inv.parent_ok p n q hp0 hq
      obtain ⟨n1, hn1, e1, _, _⟩ := hsig hqn
      exact ⟨n1, hn1, e1 ▸ h1⟩
  · -- nonempty
    intro p n hp hd hne
    rcases deref_attach_cases hcl hp with ⟨rfl, rfl⟩ | ⟨rfl, rfl⟩ | ⟨hpc, _, hp0⟩
    · have hl := namesOf_length hns
      have : pos ≤ c.dirs.length := by rw [hpos, ← hl]; exact lowerBound_le lt name ns
      simp only [Node.childCount, insertAt_length _ _ _ this]
      omega
    · exact absurd rfl hne
    · apply inv.nonempty p n hp0 hd
      rcases hh with rfl | rfl
      · simp
      · simpa using hpc
  · -- sorted_dirs
    intro p n ns1 hp hns1
    rcases deref_attach_cases hcl hp with ⟨rfl, rfl⟩ | ⟨rfl, rfl⟩ | ⟨_, _, hp0⟩
    · simp only at hns1
      have hold : namesOf (store (alloc m (mkDir name path (some p))).1 p
          { c with dirs := insertAt m.nodes.length pos c.dirs }) c.dirs = some ns := by
        rw [hnames (fun q hq => by
          obtain ⟨cn, h, _⟩ := inv.dirs_ok p c q hc hq; exact ⟨cn, h⟩)]
        exact hns
      rw [namesOf_insertAt pos hold hnew_deref] at hns1
      cases hns1
      rw [hpos]
      exact sortedLe_insert hlt name ns (inv.sorted_dirs p c ns hc hns)
    · simp only [mkDir, namesOf, Option.some.injEq] at hns1
      subst hns1
      exact List.Pairwise.nil
    · rw [hnames (fun q hq => by
          obtain ⟨cn, h, _⟩ := inv.dirs_ok p n q hp0 hq; exact ⟨cn, h⟩)] at hns1
      exact inv.sorted_dirs p n ns1 hp0 hns1
  · -- sorted_files
    intro p n ns1 hp hns1
    rcases deref_attach_cases hcl hp with ⟨rfl, rfl⟩ | ⟨rfl, rfl⟩ | ⟨_, _, hp0⟩
    · simp only at hns1
      rw [hnames (fun q hq => by
          obtain ⟨cn, h, _⟩ := inv.files_ok p c q hc hq; exact ⟨cn, h⟩)] at hns1
      exact inv.sorted_files p c ns1 hc hns1
    · simp only [mkDir, namesOf, Option.some.injEq] at hns1
      subst hns1
      exact List.Pairwise.nil
    · rw [hnames (fun q hq => by
          obtain ⟨cn, h, _⟩ := inv.files_ok p n q hp0 hq; exact ⟨cn, h⟩)] at hns1
      exact inv.sorted_files p n ns1 hp0 hns1

end FileTreeModel


namespace FileTreeModel

/-! ## `index` -/

theorem bind_some_eq_map {α β : Type} (x : Option α) (f : α → β) :
    (x.bind fun c => some (f c)) = x.map f := by
  cases x <;> rfl

/-- The child at position `i` of the combined list: subdirectories, then files. -/
theorem index_child {m : FileTreeModel} {cur : Nat} {c : Node} (row r0 c0 : Nat)
    (hc : deref m cur = some c) (hd : c.isDir = true) (hnt : m.m_tmpdir ≠ some cur) :
    index m row 0 (.mk r0 c0 cur) =
      (if row ≥ c.dirs.length then c.files[row - c.dirs.length]? else c.dirs[row]?).map
        (QModelIndex.mk row 0) := by
  have hnt' : ¬ (some cur = m.m_tmpdir) := fun e => hnt e.symm
  simp only [index, Option.bind_eq_bind, Option.some_bind, hc, hd, if_true, hnt', false_and,
    if_false, Nat.not_lt_zero, Nat.sub_zero]
  split <;> exact bind_some_eq_map _ _

theorem index_top_root {m : FileTreeModel} {r : Nat} {rn : Node} (row : Nat)
    (hr : m.m_root = some r) (hrn : deref m r = some rn) (hd : rn.isDir = true)
    (hnt : m.m_tmpdir ≠ some r) (hrow : row < rn.childCount) :
    index m row 0 .invalid =
      (if row ≥ rn.dirs.length then rn.files[row - rn.dirs.length]? else rn.dirs[row]?).map
        (QModelIndex.mk row 0) := by
  have hnt' : ¬ (some r = m.m_tmpdir) := fun e => hnt e.symm
  simp only [index, Option.bind_eq_bind, Option.some_bind, hr, hrn, hrow, if_true, hd, hnt',
    false_and, if_false, Nat.not_lt_zero, Nat.sub_zero]
  split <;> exact bind_some_eq_map _ _

theorem index_top_tmp {m : FileTreeModel} {t rc : Nat} {tn : Node} (row : Nat)
    (ht : m.m_tmpdir = some t) (htn : deref m t = some tn) (hd : tn.isDir = true)
    (hrc : rootChildCount m = some rc) (hrow : rc ≤ row) :
    index m row 0 .invalid =
      (if row - rc ≥ tn.dirs.length then tn.files[row - rc - tn.dirs.length]?
        else tn.dirs[row - rc]?).map (QModelIndex.mk row 0) := by
  cases hroot : m.m_root with
  | none =>
    have hrc0 : rc = 0 := by
      simp [rootChildCount, hroot] at hrc; exact hrc.symm
    subst hrc0
    simp only [index, Option.bind_eq_bind, Option.some_bind, hroot, ht, htn, hd, if_true,
      Option.isSome_none, Bool.false_eq_true, and_false, if_false, Nat.not_lt_zero, Nat.sub_zero]
    split <;> exact bind_some_eq_map _ _
  | some r =>
    have hrn : (deref m r).map Node.childCount = some rc := by
      simpa [rootChildCount, hroot] using hrc
    cases hr : deref m r with
    | none => simp [hr] at hrn
    | some rn =>
      simp only [hr, Option.map_some', Option.some.injEq] at hrn
      have hnlt : ¬ row < rn.childCount := by omega
      have hnlt2 : ¬ row < rc := by omega
      simp only [index, Option.bind_eq_bind, Option.some_bind, hroot, hr, hnlt, if_false, ht,
        htn, hd, if_true, Option.isSome_some, and_self, hrc, hnlt2]
      split <;> exact bind_some_eq_map _ _

end FileTreeModel


namespace FileTreeModel

theorem Inv.attachFile {lt : QString → QString → Bool} (hlt : StrictWeak lt)
    {m : FileTreeModel} {hole : Option Nat} {cur : Nat} {c : Node}
    {ns : List QString} (name path : QString) (data : Nat) (displayName : QString) {pos : Nat}
    (inv : Inv lt m hole) (hh : hole = none ∨ hole = some cur)
    (hc : deref m cur = some c) (hdir : c.isDir = true)
    (hns : namesOf m c.files = some ns) (hpos : pos = lowerBound lt name ns) :
    Inv lt (store (alloc m (mkFile name path (some cur) data displayName)).1 cur
      { c with files := insertAt m.nodes.length pos c.files }) none := by
  have hcl := deref_lt hc
  have hsig : ∀ {q : Nat} {qn : Node}, deref m q = some qn → ∃ qn1,
      deref (store (alloc m (mkFile name path (some cur) data displayName)).1 cur
        { c with files := insertAt m.nodes.length pos c.files }) q = some qn1 ∧
      qn1.isDir = qn.isDir ∧ qn1.parent = qn.parent ∧ qn1.fileName = qn.fileName :=
    fun hq => deref_attach_sig { c with files := insertAt m.nodes.length pos c.files }
      hc rfl rfl rfl hq
  have hnew_deref : deref (store (alloc m (mkFile name path (some cur) data displayName)).1 cur
        { c with files := insertAt m.nodes.length pos c.files }) m.nodes.length
        = some (mkFile name path (some cur) data displayName) := by
    rw [deref_attach m cur _ _ hcl, if_neg (by omega), if_pos rfl]
  have hnames : ∀ {ids : List Nat}, (∀ p ∈ ids, ∃ n, deref m p = some n) →
      namesOf (store (alloc m (mkFile name path (some cur) data displayName)).1 cur
        { c with files := insertAt m.nodes.length pos c.files }) ids = namesOf m ids :=
    fun h => namesOf_attach { c with files := insertAt m.nodes.length pos c.files }
      hc rfl h
  constructor
  · -- root_ok
    intro r hr
    obtain ⟨n, hn, h1, h2⟩ := inv.root_ok r hr
    obtain ⟨n1, hn1, e1, e2, _⟩ := hsig hn
    exact ⟨n1, hn1, e1 ▸ h1, e2 ▸ h2⟩
  · -- tmp_ok
    intro t ht
    obtain ⟨n, hn, h1, h2, h3⟩ := inv.tmp_ok t ht
    have htl := deref_lt hn
    by_cases htc : t = cur
    · subst htc
      rw [hc] at hn
      cases hn
      exact ⟨{ c with files := insertAt m.nodes.length pos c.files },
        by rw [deref_attach m t _ _ hcl, if_pos rfl], h1, h2, h3⟩
    · refine ⟨n, ?_, h1, h2, h3⟩
      rw [deref_attach m cur _ _ hcl, if_neg htc, if_neg (by omega)]
      exact hn
  · exact inv.root_ne_tmp
  · -- dirs_ok
    intro p n ch hp hch
    rcases deref_attach_cases hcl hp with ⟨rfl, rfl⟩ | ⟨rfl, rfl⟩ | ⟨_, _, hp0⟩
    · obtain ⟨cn, hcn1, h1, h2⟩ := inv.dirs_ok p c ch hc hch
      obtain ⟨n1, hn1, e1, e2, _⟩ := hsig hcn1
      exact ⟨n1, hn1, e1 ▸ h1, e2 ▸ h2⟩
    · simp [mkFile] at hch
    · obtain ⟨cn, hcn1, h1, h2⟩ := inv.dirs_ok p n ch hp0 hch
      obtain ⟨n1, hn1, e1, e2, _⟩ := hsig hcn1
      exact ⟨n1, hn1, e1 ▸ h1, e2 ▸ h2⟩
  · -- files_ok
    intro p n ch hp hch
    rcases deref_attach_cases hcl hp with ⟨rfl, rfl⟩ | ⟨rfl, rfl⟩ | ⟨_, _, hp0⟩
    · rcases mem_insertAt hch with rfl | hch
      · exact ⟨_, hnew_deref, rfl, rfl⟩
      · obtain ⟨cn, hcn1, h1, h2⟩ := inv.files_ok p c ch hc hch
        obtain ⟨n1, hn1, e1, e2, _⟩ := hsig hcn1
        exact ⟨n1, hn1, e1 ▸ h1, e2 ▸ h2⟩
    · simp [mkFile] at hch
    · obtain ⟨cn, hcn1, h1, h2⟩ := inv.files_ok p n ch hp0 hch
      obtain ⟨n1, hn1, e1, e2, _⟩ := hsig hcn1
      exact ⟨n1, hn1, e1 ▸ h1, e2 ▸ h2⟩
  · -- leaf
    intro p n hp hf
    rcases deref_attach_cases hcl hp with ⟨rfl, rfl⟩ | ⟨rfl, rfl⟩ | ⟨_, _, hp0⟩
    · simp only at hf; rw [hdir] at hf; exact absurd hf (by simp)
    · simp [mkFile]
    · exact inv.leaf p n hp0 hf
  · -- parent_ok
    intro p n q hp hq
    rcases deref_attach_cases hcl hp with ⟨rfl, rfl⟩ | ⟨rfl, rfl⟩ | ⟨_, _, hp0⟩
    · obtain ⟨qn, hqn, h1⟩ := inv.parent_ok p c q hc hq
      obtain ⟨n1, hn1, e1, _, _⟩ := hsig hqn
      exact ⟨n1, hn1, e1 ▸ h1⟩
    · simp only [mkFile, Option.some.injEq] at hq
      subst hq
      obtain ⟨n1, hn1, e1, _, _⟩ := hsig hc
      exact ⟨n1, hn1, e1 ▸ hdir⟩
    · obtain ⟨qn, hqn, h1⟩ := inv.parent_ok p n q hp0 hq
      obtain ⟨n1, hn1, e1, _, _⟩ := hsig hqn
      exact ⟨n1, hn1, e1 ▸ h1⟩
  · -- nonempty
    intro p n hp hd _
    rcases deref_attach_cases hcl hp with ⟨rfl, rfl⟩ | ⟨rfl, rfl⟩ | ⟨hpc, _, hp0⟩
    · have hl := namesOf_length hns
      have : pos ≤ c.files.length := by rw [hpos, ← hl]; exact lowerBound_le lt name ns
      simp only [Node.childCount, insertAt_length _ _ _ this]
      omega
    · simp [mkFile] at hd
    · apply inv.nonempty p n hp0 hd
      rcases hh with rfl | rfl
      · simp
      · simpa using hpc
  · -- sorted_dirs
    intro p n ns1 hp hns1
    rcases deref_attach_cases hcl hp with ⟨rfl, rfl⟩ | ⟨rfl, rfl⟩ | ⟨_, _, hp0⟩
    · simp only at hns1
      rw [hnames (fun q hq => by
          obtain ⟨cn, h, _⟩ := inv.dirs_ok p c q hc hq; exact ⟨cn, h⟩)] at hns1
      exact inv.sorted_dirs p c ns1 hc hns1
    · simp only [mkFile, namesOf, Option.some.injEq] at hns1
      subst hns1
      exact List.Pairwise.nil
    · rw [hnames (fun q hq => by
          obtain ⟨cn, h, _⟩ := inv.dirs_ok p n q hp0 hq; exact ⟨cn, h⟩)] at hns1
      exact inv.sorted_dirs p n ns1 hp0 hns1
  · -- sorted_files
    intro p n ns1 hp hns1
    rcases deref_attach_cases hcl hp with ⟨rfl, rfl⟩ | ⟨rfl, rfl⟩ | ⟨_, _, hp0⟩
    · simp only at hns1
      have hold : namesOf (store (alloc m (mkFile name path (some p) data displayName)).1 p
          { c with files := insertAt m.nodes.length pos c.files }) c.files = some ns := by
        rw [hnames (fun q hq => by
          obtain ⟨cn, h, _⟩ := inv.files_ok p c q hc hq; exact ⟨cn, h⟩)]
        exact hns
      rw [namesOf_insertAt pos hold hnew_deref] at hns1
      cases hns1
      rw [hpos]
      exact sortedLe_insert hlt name ns (inv.sorted_files p c ns hc hns)
    · simp only [mkFile, namesOf, Option.some.injEq] at hns1
      subst hns1
      exact List.Pairwise.nil
    · rw [hnames (fun q hq => by
          obtain ⟨cn, h, _⟩ := inv.files_ok p n q hp0 hq; exact ⟨cn, h⟩)] at hns1
      exact inv.sorted_files p n ns1 hp0 hns1

/-- A new node below `cur` gets the rank of `cur` plus one. -/
theorem RankOK.attach {m : FileTreeModel} {rk : Nat → Nat} {cur : Nat} {c c1 x : Node}
    (hrk : RankOK m rk) (hc : deref m cur = some c) (h2 : c1.parent = c.parent)
    (hx : x.parent = some cur)
    (hpar : ∀ p n q, deref m p = some n → n.parent = some q → q < m.nodes.length) :
    RankOK (store (alloc m x).1 cur c1)
      (fun p => if p = m.nodes.length then rk cur + 1 else rk p) := by
  have hcl := deref_lt hc
  intro p n q hp hq
  rcases deref_attach_cases hcl hp with ⟨rfl, rfl⟩ | ⟨rfl, rfl⟩ | ⟨_, hpl, hp0⟩
  · rw [h2] at hq
    have := hpar p c q hc hq
    simp only
    rw [if_neg (by omega), if_neg (by omega)]
    exact hrk p c q hc hq
  · rw [hx] at hq
    cases hq
    have hne : ¬ cur = m.nodes.length := by omega
    simp [hne]
  · have := hpar p n q hp0 hq
    simp only
    rw [if_neg (by omega), if_neg hpl]
    exact hrk p n q hp0 hq

theorem Inv.parent_lt {lt : QString → QString → Bool} {m : FileTreeModel} {hole : Option Nat}
    (inv : Inv lt m hole) :
    ∀ p n q, deref m p = some n → n.parent = some q → q < m.nodes.length := by
  intro p n q hp hq
  obtain ⟨qn, hqn, _⟩ := inv.parent_ok p n q hp hq
  exact deref_lt hqn

/-- The invariant only reads the arena and the two roots. -/
theorem Inv.congr {lt : QString → QString → Bool} (m m1 : FileTreeModel)
    {hole : Option Nat}
    (h1 : m1.nodes = m.nodes) (h2 : m1.m_root = m.m_root) (h3 : m1.m_tmpdir = m.m_tmpdir)
    (inv : Inv lt m hole) : Inv lt m1 hole := by
  have hd : ∀ p, deref m1 p = deref m p := fun p => by unfold deref; rw [h1]
  have hn : ∀ ids, namesOf m1 ids = namesOf m ids := fun ids =>
    namesOf_congr (fun p _ => by rw [hd])
  constructor
  · intro r hr; rw [hd]; exact inv.root_ok r (h2 ▸ hr)
  · intro t ht; rw [hd]; exact inv.tmp_ok t (h3 ▸ ht)
  · intro r hr; rw [h3]; exact inv.root_ne_tmp r (h2 ▸ hr)
  · intro p n c hp hc; rw [hd] at hp; rw [hd]; exact inv.dirs_ok p n c hp hc
  · intro p n c hp hc; rw [hd] at hp; rw [hd]; exact inv.files_ok p n c hp hc
  · intro p n hp; rw [hd] at hp; exact inv.leaf p n hp
  · intro p n q hp hq; rw [hd] at hp; rw [hd]; exact inv.parent_ok p n q hp hq
  · intro p n hp; rw [hd] at hp; exact inv.nonempty p n hp
  · intro p n ns hp hns; rw [hd] at hp; rw [hn] at hns; exact inv.sorted_dirs p n ns hp hns
  · intro p n ns hp hns; rw [hd] at hp; rw [hn] at hns; exact inv.sorted_files p n ns hp hns

theorem RankOK.rank_congr (m m1 : FileTreeModel) {rk : Nat → Nat}
    (h1 : m1.nodes = m.nodes)
    (hrk : RankOK m rk) : RankOK m1 rk := by
  intro p n q hp hq
  have : deref m1 p = deref m p := by unfold deref; rw [h1]
  rw [this] at hp
  exact hrk p n q hp hq

theorem Inv.emit {lt : QString → QString → Bool} {m : FileTreeModel} {hole : Option Nat}
    (e : Event) (inv : Inv lt m hole) : Inv lt (emit m e) hole :=
  Inv.congr m (FileTreeModel.emit m e) rfl rfl rfl inv

theorem namesOf_same (m m1 : FileTreeModel) (h1 : m1.nodes = m.nodes) (ids : List Nat) :
    namesOf m1 ids = namesOf m ids :=
  namesOf_congr (fun p _ => by unfold deref; rw [h1])

@[simp] theorem namesOf_emit (m : FileTreeModel) (e : Event) (ids : List Nat) :
    namesOf (emit m e) ids = namesOf m ids :=
  namesOf_same m (FileTreeModel.emit m e) rfl ids

@[simp] theorem rootChildCount_emit (m : FileTreeModel) (e : Event) :
    rootChildCount (emit m e) = rootChildCount m := rfl

/-- Dropping a root pointer keeps the invariant. -/
theorem Inv.dropRoot {lt : QString → QString → Bool} {m : FileTreeModel} {hole : Option Nat}
    (inv : Inv lt m hole) : Inv lt { m with m_root := none } hole := by
  have hn : ∀ ids, namesOf { m with m_root := none } ids = namesOf m ids :=
    fun ids => namesOf_same m { m with m_root := none } rfl ids
  constructor
  · intro r hr; simp at hr
  · exact inv.tmp_ok
  · intro r hr; simp at hr
  · exact inv.dirs_ok
  · exact inv.files_ok
  · exact inv.leaf
  · exact inv.parent_ok
  · exact inv.nonempty
  · intro p n ns hp hns
    exact inv.sorted_dirs p n ns hp (by rw [← hns, hn])
  · intro p n ns hp hns
    exact inv.sorted_files p n ns hp (by rw [← hns, hn])

theorem Inv.dropTmp {lt : QString → QString → Bool} {m : FileTreeModel} {hole : Option Nat}
    (inv : Inv lt m hole) : Inv lt { m with m_tmpdir := none } hole := by
  have hn : ∀ ids, namesOf { m with m_tmpdir := none } ids = namesOf m ids :=
    fun ids => namesOf_same m { m with m_tmpdir := none } rfl ids
  constructor
  · exact inv.root_ok
  · intro r hr; simp at hr
  · intro r _ h; simp at h
  · exact inv.dirs_ok
  · exact inv.files_ok
  · exact inv.leaf
  · exact inv.parent_ok
  · exact inv.nonempty
  · intro p n ns hp hns
    exact inv.sorted_dirs p n ns hp (by rw [← hns, hn])
  · intro p n ns hp hns
    exact inv.sorted_files p n ns hp (by rw [← hns, hn])

end FileTreeModel


namespace FileTreeModel

/-! ## Paths -/

theorem isSeg_iff {s : QString} : isSeg s = true ↔ s ≠ [] ∧ '/' ∉ s := by
  cases s <;> simp [isSeg]

theorem slashCat_append (a b : List QString) : slashCat (a ++ b) = slashCat a ++ slashCat b := by
  induction a with
  | nil => rfl
  | cons s ss ih => simp [slashCat, ih]

theorem slashCat_eq_nil {a : List QString} : slashCat a = [] ↔ a = [] := by
  cases a <;> simp [slashCat]

theorem fileNameOf_append (pre name : QString) (h : '/' ∉ name) :
    fileNameOf (pre ++ '/' :: name) = name := by
  induction pre with
  | nil =>
    simp [fileNameOf, h]
  | cons c cs ih =>
    simp [fileNameOf, ih]

theorem dirPart_append (pre name : QString) (h : '/' ∉ name) :
    dirPart (pre ++ '/' :: name) = pre := by
  induction pre with
  | nil =>
    simp [dirPart, h]
  | cons c cs ih =>
    simp [dirPart, ih]

theorem filePathOf_eq (segs : List QString) (name : QString) :
    filePathOf segs name = slashCat segs ++ '/' :: name := by
  simp [filePathOf, slashCat_append, slashCat]

theorem fileNameOf_filePathOf (segs : List QString) (name : QString) (h : isSeg name = true) :
    fileNameOf (filePathOf segs name) = name := by
  rw [filePathOf_eq]
  exact fileNameOf_append _ _ (isSeg_iff.mp h).2

theorem absolutePath_filePathOf (segs : List QString) (name : QString)
    (h : isSeg name = true) : absolutePath (filePathOf segs name) = dirPath segs := by
  have hd : dirPart (filePathOf segs name) = slashCat segs := by
    rw [filePathOf_eq]; exact dirPart_append _ _ (isSeg_iff.mp h).2
  have hne : filePathOf segs name ≠ [] := by rw [filePathOf_eq]; simp
  unfold absolutePath dirPath
  rw [if_neg hne, hd]
  by_cases hs : segs = []
  · subst hs; simp [slashCat]
  · rw [if_neg (by rwa [slashCat_eq_nil]), if_neg hs]

theorem splitSlash_slash (t : QString) : splitSlash ('/' :: t) = splitSlash t := by
  simp [splitSlash]

/-- A segment followed by nothing or by a `'/'` is split off. -/
theorem splitSlash_seg (seg t : QString) (hs : isSeg seg = true)
    (ht : t = [] ∨ ∃ u, t = '/' :: u) : splitSlash (seg ++ t) = seg :: splitSlash t := by
  obtain ⟨hne, hsl⟩ := isSeg_iff.mp hs
  induction seg with
  | nil => exact absurd rfl hne
  | cons c cs ih =>
    have hc : c ≠ '/' := fun e => hsl (by simp [e])
    cases cs with
    | nil =>
      rcases ht with rfl | ⟨u, rfl⟩
      · simp [splitSlash, hc]
      · simp [splitSlash, hc]
    | cons c2 cs2 =>
      have hc2 : c2 ≠ '/' := fun e => hsl (by simp [e])
      have hs2 : isSeg (c2 :: cs2) = true := by
        rw [isSeg_iff]
        exact ⟨by simp, fun h => hsl (List.mem_cons_of_mem _ h)⟩
      have ih2 := ih hs2 (by simp) (fun h => hsl (List.mem_cons_of_mem _ h))
      show splitSlash (c :: (c2 :: (cs2 ++ t))) = _
      rw [splitSlash]
      simp only [hc, if_false, hc2]
      have e : c2 :: (cs2 ++ t) = (c2 :: cs2) ++ t := rfl
      rw [e, ih2]

theorem slashCat_shape (a : List QString) : slashCat a = [] ∨ ∃ u, slashCat a = '/' :: u := by
  cases a with
  | nil => exact Or.inl rfl
  | cons s ss => exact Or.inr ⟨_, rfl⟩

theorem splitSlash_slashCat (segs : List QString) (h : ∀ s ∈ segs, isSeg s = true) :
    splitSlash (slashCat segs) = segs := by
  induction segs with
  | nil => rfl
  | cons s ss ih =>
    rw [slashCat, splitSlash_slash,
      splitSlash_seg s _ (h s (List.mem_cons_self _ _)) (slashCat_shape ss),
      ih (fun x hx => h x (List.mem_cons_of_mem _ hx))]

theorem splitSlash_dirPath (segs : List QString) (h : ∀ s ∈ segs, isSeg s = true) :
    splitSlash (dirPath segs) = segs := by
  unfold dirPath
  split
  · rename_i hs; subst hs; rfl
  · exact splitSlash_slashCat segs h

theorem dirPath_inj {a b : List QString} (ha : ∀ s ∈ a, isSeg s = true)
    (hb : ∀ s ∈ b, isSeg s = true) (h : dirPath a = dirPath b) : a = b := by
  rw [← splitSlash_dirPath a ha, ← splitSlash_dirPath b hb, h]

theorem joinSlash_dirPath (segs : List QString) : '/' :: joinSlash segs = dirPath segs := by
  induction segs with
  | nil => rfl
  | cons s t ih =>
    cases t with
    | nil => simp [joinSlash, dirPath, slashCat]
    | cons t1 u =>
      have ih2 : '/' :: joinSlash (t1 :: u) = slashCat (t1 :: u) := by
        rw [ih]; simp [dirPath]
      simp only [joinSlash, dirPath, List.cons_ne_nil, if_false]
      rw [slashCat, ih2]

theorem fileNameOf_dirPath_snoc (segs : List QString) (s : QString) (h : isSeg s = true) :
    fileNameOf (dirPath (segs ++ [s])) = s := by
  have : dirPath (segs ++ [s]) = filePathOf segs s := by
    simp [dirPath, filePathOf]
  rw [this, fileNameOf_filePathOf segs s h]

theorem startsWith_append (a b : QString) : startsWith (a ++ b) a = true := by
  simp [startsWith]

theorem startsWith_iff {s p : QString} : startsWith s p = true ↔ ∃ t, s = p ++ t := by
  unfold startsWith
  rw [List.isPrefixOf_iff_prefix]
  constructor
  · rintro ⟨t, rfl⟩; exact ⟨t, rfl⟩
  · rintro ⟨t, rfl⟩; exact ⟨t, rfl⟩

/-- A segment-wise ancestor is a character-wise prefix. -/
theorem startsWith_dirPath (ds es : List QString) :
    startsWith (dirPath (ds ++ es)) (dirPath ds) = true := by
  rw [startsWith_iff]
  by_cases hd : ds = []
  · subst hd
    by_cases he : es = []
    · subst he; exact ⟨[], by simp⟩
    · cases es with
      | nil => exact absurd rfl he
      | cons e es1 => exact ⟨e ++ slashCat es1, by simp [dirPath, slashCat]⟩
  · refine ⟨slashCat es, ?_⟩
    simp [dirPath, hd, slashCat_append]

theorem dirPath_ne_nil (segs : List QString) : dirPath segs ≠ [] := by
  unfold dirPath
  split
  · simp
  · rename_i h; rwa [Ne, slashCat_eq_nil]

theorem commonLen_le_left (a b : List QString) : commonLen a b ≤ a.length := by
  induction a generalizing b with
  | nil => simp [commonLen]
  | cons x xs ih =>
    cases b with
    | nil => simp [commonLen]
    | cons y ys =>
      simp only [commonLen]
      split
      · simp
      · have := ih ys; simp; omega

theorem commonLen_le_right (a b : List QString) : commonLen a b ≤ b.length := by
  induction a generalizing b with
  | nil => simp [commonLen]
  | cons x xs ih =>
    cases b with
    | nil => simp [commonLen]
    | cons y ys =>
      simp only [commonLen]
      split
      · simp
      · have := ih ys; simp; omega

theorem commonLen_take (a b : List QString) :
    a.take (commonLen a b) = b.take (commonLen a b) := by
  induction a generalizing b with
  | nil => simp [commonLen]
  | cons x xs ih =>
    cases b with
    | nil => simp [commonLen]
    | cons y ys =>
      simp only [commonLen]
      split
      · simp
      · rename_i h
        have hxy : x = y := by simpa using h
        simp [hxy, ih ys]

/-- At the common length the two lists differ, when both go on. -/
theorem commonLen_differ (a b : List QString) (x y : QString)
    (hx : a[commonLen a b]? = some x) (hy : b[commonLen a b]? = some y) : x ≠ y := by
  induction a generalizing b with
  | nil => simp at hx
  | cons a0 as ih =>
    cases b with
    | nil => simp at hy
    | cons b0 bs =>
      simp only [commonLen] at hx hy
      split at hx
      · rename_i h
        rw [if_pos h] at hy
        simp only [List.getElem?_cons_zero, Option.some.injEq] at hx hy
        subst hx; subst hy; exact h
      · rename_i h
        rw [if_neg h] at hy
        simp only [List.getElem?_cons_succ] at hx hy
        exact ih bs hx hy

/-- Neither path a prefix of the other: the segment lists part before either ends. -/
theorem commonLen_lt_of_unrelated (rs ds : List QString)
    (h1 : startsWith (dirPath rs) (dirPath ds) = false)
    (h2 : startsWith (dirPath ds) (dirPath rs) = false) :
    commonLen rs ds < rs.length ∧ commonLen rs ds < ds.length := by
  have hl := commonLen_le_left rs ds
  have hr := commonLen_le_right rs ds
  have ht := commonLen_take rs ds
  constructor
  · by_contra hcon
    have he : commonLen rs ds = rs.length := by omega
    rw [he, List.take_length] at ht
    have : ds = rs ++ ds.drop rs.length := by
      conv_lhs => rw [← List.take_append_drop rs.length ds, ← ht]
    rw [this, startsWith_dirPath] at h2
    exact absurd h2 (by simp)
  · by_contra hcon
    have he : commonLen rs ds = ds.length := by omega
    rw [he, List.take_length] at ht
    have : rs = ds ++ rs.drop ds.length := by
      conv_lhs => rw [← List.take_append_drop ds.length rs, ht]
    rw [this, startsWith_dirPath] at h1
    exact absurd h1 (by simp)

end FileTreeModel


namespace FileTreeModel

/-! ## Steps of `insertFile` -/

theorem deref_alloc_of_some {m : FileTreeModel} {p : Nat} {n : Node} (x : Node)
    (h : deref m p = some n) : deref (alloc m x).1 p = some n := by
  rw [deref_alloc, if_neg (by have := deref_lt h; omega)]
  exact h

theorem deref_alloc_new (m : FileTreeModel) (x : Node) :
    deref (alloc m x).1 m.nodes.length = some x := by
  rw [deref_alloc, if_pos rfl]

theorem namesOf_alloc {m : FileTreeModel} {ids : List Nat} {ns : List QString} (x : Node)
    (h : namesOf m ids = some ns) : namesOf (alloc m x).1 ids = some ns := by
  rw [← h]
  apply namesOf_congr
  intro p hp
  obtain ⟨i, hi⟩ := List.getElem?_of_mem hp
  obtain ⟨n, hn, _⟩ := namesOf_getElem? h hi
  rw [deref_alloc_of_some x hn, hn]

theorem filesAddAt_alloc {m : FileTreeModel} {cur : Nat} {c : Node} (x : Node) {pos : Nat}
    (hc : deref m cur = some c) (hpos : pos ≤ c.files.length) :
    filesAddAt (alloc m x).1 cur m.nodes.length pos = some (attachedFile m cur c x pos) := by
  simp [filesAddAt, deref_alloc_of_some x hc, hpos, attachedFile]

theorem dirsAddAt_alloc {m : FileTreeModel} {cur : Nat} {c : Node} (x : Node) {pos : Nat}
    (hc : deref m cur = some c) (hpos : pos ≤ c.dirs.length) :
    dirsAddAt (alloc m x).1 cur m.nodes.length pos = some (attachedDir m cur c x pos) := by
  simp [dirsAddAt, deref_alloc_of_some x hc, hpos, attachedDir]

theorem filesAdd_alloc (lt : QString → QString → Bool) {m : FileTreeModel} {cur : Nat}
    {c : Node} {ns : List QString} (x : Node)
    (hc : deref m cur = some c) (hns : namesOf m c.files = some ns) :
    filesAdd lt (alloc m x).1 cur m.nodes.length
      = some (attachedFile m cur c x (lowerBound lt x.fileName ns)) := by
  simp [filesAdd, deref_alloc_of_some x hc, deref_alloc_new, namesOf_alloc x hns, attachedFile]

theorem dirsAdd_alloc (lt : QString → QString → Bool) {m : FileTreeModel} {cur : Nat}
    {c : Node} {ns : List QString} (x : Node)
    (hc : deref m cur = some c) (hns : namesOf m c.dirs = some ns) :
    dirsAdd lt (alloc m x).1 cur m.nodes.length
      = some (attachedDir m cur c x (lowerBound lt x.fileName ns)) := by
  simp [dirsAdd, deref_alloc_of_some x hc, deref_alloc_new, namesOf_alloc x hns, attachedDir]

theorem deref_attachedFile (m : FileTreeModel) (cur : Nat) (c x : Node) (pos : Nat)
    (hcur : cur < m.nodes.length) (p : Nat) :
    deref (attachedFile m cur c x pos) p =
      if p = cur then some { c with files := insertAt m.nodes.length pos c.files }
      else if p = m.nodes.length then some x else deref m p :=
  deref_attach m cur _ x hcur p

theorem deref_attachedDir (m : FileTreeModel) (cur : Nat) (c x : Node) (pos : Nat)
    (hcur : cur < m.nodes.length) (p : Nat) :
    deref (attachedDir m cur c x pos) p =
      if p = cur then some { c with dirs := insertAt m.nodes.length pos c.dirs }
      else if p = m.nodes.length then some x else deref m p :=
  deref_attach m cur _ x hcur p

@[simp] theorem attachedFile_m_root (m : FileTreeModel) (cur : Nat) (c x : Node) (pos : Nat) :
    (attachedFile m cur c x pos).m_root = m.m_root := rfl
@[simp] theorem attachedFile_m_tmpdir (m : FileTreeModel) (cur : Nat) (c x : Node) (pos : Nat) :
    (attachedFile m cur c x pos).m_tmpdir = m.m_tmpdir := rfl
@[simp] theorem attachedDir_m_root (m : FileTreeModel) (cur : Nat) (c x : Node) (pos : Nat) :
    (attachedDir m cur c x pos).m_root = m.m_root := rfl
@[simp] theorem attachedDir_m_tmpdir (m : FileTreeModel) (cur : Nat) (c x : Node) (pos : Nat) :
    (attachedDir m cur c x pos).m_tmpdir = m.m_tmpdir := rfl
@[simp] theorem attachedFile_length (m : FileTreeModel) (cur : Nat) (c x : Node) (pos : Nat) :
    (attachedFile m cur c x pos).nodes.length = m.nodes.length + 1 := by
  simp [attachedFile]
@[simp] theorem attachedDir_length (m : FileTreeModel) (cur : Nat) (c x : Node) (pos : Nat) :
    (attachedDir m cur c x pos).nodes.length = m.nodes.length + 1 := by
  simp [attachedDir]

/-- Line 62-69 evaluated. -/
theorem insertAtRoot_eq {lt : QString → QString → Bool} {m : FileTreeModel} {r : Nat}
    {rn : Node} {ns : List QString} (filePath fileName : QString) (data : Nat)
    (displayName : QString)
    (hroot : m.m_root = some r) (hrn : deref m r = some rn) (hrd : rn.isDir = true)
    (hnt : m.m_tmpdir ≠ some r) (hns : namesOf m rn.files = some ns) :
    insertAtRoot lt m r filePath fileName data displayName =
      some (emit (attachedFile
          (emit m (.beginInsertRows .invalid
            ((rn.dirs.length + lowerBound lt fileName ns : Nat) : Int)
            ((rn.dirs.length + lowerBound lt fileName ns : Nat) : Int)))
          r rn (mkFile fileName filePath (some r) data displayName)
          (lowerBound lt fileName ns)) .endInsertRows,
        .mk (rn.dirs.length + lowerBound lt fileName ns) 0 m.nodes.length) := by
  have hpos : lowerBound lt fileName ns ≤ rn.files.length := by
    rw [← namesOf_length hns]; exact lowerBound_le _ _ _
  have hrl := deref_lt hrn
  unfold insertAtRoot
  simp only [Option.bind_eq_bind, Option.some_bind, hrn, hns, insIndex]
  have hrn1 : deref (emit m (.beginInsertRows .invalid
      ((rn.dirs.length + lowerBound lt fileName ns : Nat) : Int)
      ((rn.dirs.length + lowerBound lt fileName ns : Nat) : Int))) r = some rn := by
    simpa using hrn
  have e1 := filesAddAt_alloc (mkFile fileName filePath (some r) data displayName) hrn1 hpos
  simp only [alloc_snd, emit_nodes] at e1 ⊢
  rw [e1]
  simp only [Option.some_bind]
  have hd := deref_attachedFile (emit m (.beginInsertRows .invalid
      ((rn.dirs.length + lowerBound lt fileName ns : Nat) : Int)
      ((rn.dirs.length + lowerBound lt fileName ns : Nat) : Int))) r rn
    (mkFile fileName filePath (some r) data displayName) (lowerBound lt fileName ns)
    (by simpa using hrl) r
  rw [if_pos rfl] at hd
  rw [index_top_root _ (by simpa using hroot) (by rw [deref_emit]; exact hd)
    (by exact hrd) (by simpa using hnt)
    (by simp only [Node.childCount, emit_nodes, insertAt_length _ _ _ hpos]; omega)]
  simp only [ge_iff_le, Nat.le_add_right, if_true, Nat.add_sub_cancel_left, emit_nodes]
  rw [insertAt_getElem? _ _ _ hpos]
  rfl

end FileTreeModel


namespace FileTreeModel

/-! ## Frames -/

theorem Frame.refl (m : FileTreeModel) : Frame m m where
  len := Nat.le_refl _
  old_sig := fun _ n hp => ⟨n, hp, rfl, rfl, rfl, rfl, rfl, rfl⟩
  old_file := fun _ _ hp _ => hp
  old_lists := fun _ n hp => ⟨n, hp, fun _ h => h, fun _ h => h⟩
  new_dir := fun _ _ hp hl => absurd (deref_lt hp) (by omega)

theorem Frame.trans {a b c : FileTreeModel} (h1 : Frame a b) (h2 : Frame b c) : Frame a c where
  len := Nat.le_trans h1.len h2.len
  old_sig := fun p n hp => by
    obtain ⟨n1, hn1, e1, e2, e3, e4, e5, e6⟩ := h1.old_sig p n hp
    obtain ⟨n2, hn2, f1, f2, f3, f4, f5, f6⟩ := h2.old_sig p n1 hn1
    exact ⟨n2, hn2, f1.trans e1, f2.trans e2, f3.trans e3, f4.trans e4, f5.trans e5,
      f6.trans e6⟩
  old_file := fun p n hp hf => h2.old_file p n (h1.old_file p n hp hf) hf
  old_lists := fun p n hp => by
    obtain ⟨n1, hn1, a1, a2⟩ := h1.old_lists p n hp
    obtain ⟨n2, hn2, b1, b2⟩ := h2.old_lists p n1 hn1
    exact ⟨n2, hn2, fun c hc => b1 c (a1 c hc), fun c hc => b2 c (a2 c hc)⟩
  new_dir := fun p n hp hl => by
    by_cases hb : b.nodes.length ≤ p
    · exact h2.new_dir p n hp hb
    · obtain ⟨n0, hn0⟩ := deref_some_of_lt (m := b) (p := p) (by omega)
      obtain ⟨n2, hn2, f1, _⟩ := h2.old_sig p n0 hn0
      rw [hp] at hn2
      cases hn2
      rw [f1]
      exact h1.new_dir p n0 hn0 hl

/-- States with the same arena. -/
theorem Frame.of_nodes_eq (m m1 : FileTreeModel) (h : m1.nodes = m.nodes) : Frame m m1 := by
  have hd : ∀ p, deref m1 p = deref m p := fun p => by unfold deref; rw [h]
  exact {
    len := by rw [h]
    old_sig := fun p n hp => ⟨n, by rw [hd]; exact hp, rfl, rfl, rfl, rfl, rfl, rfl⟩
    old_file := fun p n hp _ => by rw [hd]; exact hp
    old_lists := fun p n hp => ⟨n, by rw [hd]; exact hp, fun _ h => h, fun _ h => h⟩
    new_dir := fun p n hp hl => by
      rw [hd] at hp
      exact absurd (deref_lt hp) (by omega) }

theorem Frame.frame_emit (m : FileTreeModel) (e : Event) : Frame m (FileTreeModel.emit m e) :=
  Frame.of_nodes_eq m _ rfl

theorem Frame.attachedDir {m : FileTreeModel} {cur : Nat} {c : Node} (x : Node) (pos : Nat)
    (hc : deref m cur = some c) (hcd : c.isDir = true) (hx : x.isDir = true) :
    Frame m (FileTreeModel.attachedDir m cur c x pos) := by
  have hcl := deref_lt hc
  constructor
  · simp
  · intro p n hp
    rw [deref_attachedDir m cur c x pos hcl]
    by_cases hpc : p = cur
    · subst hpc
      rw [hc] at hp; cases hp
      exact ⟨{ c with dirs := insertAt m.nodes.length pos c.dirs }, by rw [if_pos rfl],
        rfl, rfl, rfl, rfl, rfl, rfl⟩
    · have := deref_lt hp
      rw [if_neg hpc, if_neg (by omega)]
      exact ⟨n, hp, rfl, rfl, rfl, rfl, rfl, rfl⟩
  · intro p n hp hf
    rw [deref_attachedDir m cur c x pos hcl]
    by_cases hpc : p = cur
    · subst hpc
      rw [hc] at hp; cases hp
      rw [hcd] at hf; exact absurd hf (by simp)
    · have := deref_lt hp
      rw [if_neg hpc, if_neg (by omega)]
      exact hp
  · intro p n hp
    rw [deref_attachedDir m cur c x pos hcl]
    by_cases hpc : p = cur
    · subst hpc
      rw [hc] at hp; cases hp
      exact ⟨{ c with dirs := insertAt m.nodes.length pos c.dirs }, by rw [if_pos rfl],
        fun d hd => mem_insertAt_of_mem pos hd, fun _ h => h⟩
    · have := deref_lt hp
      rw [if_neg hpc, if_neg (by omega)]
      exact ⟨n, hp, fun _ h => h, fun _ h => h⟩
  · intro p n hp hl
    rw [deref_attachedDir m cur c x pos hcl, if_neg (by omega)] at hp
    split at hp
    · cases hp; exact hx
    · exact absurd (deref_lt hp) (by omega)

theorem RootClean.of_sig (m m1 : FileTreeModel) (hr : m1.m_root = m.m_root)
    (hsig : ∀ p n, deref m p = some n → ∃ n1, deref m1 p = some n1 ∧
      n1.isDir = n.isDir ∧ n1.fileName = n.fileName ∧ n1.path = n.path ∧ n1.data = n.data ∧
      n1.displayName = n.displayName ∧ n1.editable = n.editable)
    (hrv : ∀ r, m.m_root = some r → ∃ n, deref m r = some n)
    (h : RootClean m) : RootClean m1 := by
  intro r n1 hr1 hn1
  rw [hr] at hr1
  obtain ⟨n, hn⟩ := hrv r hr1
  obtain ⟨n2, hn2, _, e2, e3, _⟩ := hsig r n hn
  rw [hn1] at hn2
  cases hn2
  obtain ⟨segs, h1, h2, h3⟩ := h r n hr1 hn
  exact ⟨segs, h1, by rw [e3, h2], by rw [e2, e3, h3]⟩

end FileTreeModel


namespace FileTreeModel

/-! ## The index of the parent of a node -/

theorem Inv.namesOf_dirs {lt : QString → QString → Bool} {m : FileTreeModel}
    {hole : Option Nat} (inv : Inv lt m hole) {p : Nat} {n : Node} (hp : deref m p = some n) :
    ∃ ns, namesOf m n.dirs = some ns :=
  namesOf_exists (fun q hq => by
    obtain ⟨cn, h, _⟩ := inv.dirs_ok p n q hp hq; exact ⟨cn, h⟩)

theorem Inv.namesOf_files {lt : QString → QString → Bool} {m : FileTreeModel}
    {hole : Option Nat} (inv : Inv lt m hole) {p : Nat} {n : Node} (hp : deref m p = some n) :
    ∃ ns, namesOf m n.files = some ns :=
  namesOf_exists (fun q hq => by
    obtain ⟨cn, h, _⟩ := inv.files_ok p n q hp hq; exact ⟨cn, h⟩)

/-- `parent` of an index of a child of `cur`: invalid for a child of a root, and an index
of `cur` otherwise. -/
theorem parent_of_child {lt : QString → QString → Bool} {m : FileTreeModel}
    {hole : Option Nat} (inv : Inv lt m hole) {f cur : Nat} {fn c : Node} (row col : Nat)
    (hf : deref m f = some fn) (hfp : fn.parent = some cur) (hc : deref m cur = some c)
    (hpar : m.m_root ≠ some cur → m.m_tmpdir ≠ some cur → ∃ gp, c.parent = some gp) :
    ∃ P, parent lt m (.mk row col f) = some P ∧
      ((P = .invalid ∧ (m.m_root = some cur ∨ m.m_tmpdir = some cur)) ∨
       (∃ r0, P = .mk r0 0 cur ∧ m.m_root ≠ some cur ∧ m.m_tmpdir ≠ some cur)) := by
  by_cases h1 : m.m_root = some cur
  · refine ⟨.invalid, ?_, Or.inl ⟨rfl, Or.inl h1⟩⟩
    simp [parent, hf, hfp, h1]
  · by_cases h2 : m.m_tmpdir = some cur
    · refine ⟨.invalid, ?_, Or.inl ⟨rfl, Or.inr h2⟩⟩
      simp [parent, hf, hfp, h2]
    · obtain ⟨gp, hgp⟩ := hpar h1 h2
      obtain ⟨g, hg, _⟩ := inv.parent_ok cur c gp hc hgp
      obtain ⟨ns, hns⟩ := inv.namesOf_dirs hg
      have h1' : ¬ (some cur = m.m_root) := fun e => h1 e.symm
      have h2' : ¬ (some cur = m.m_tmpdir) := fun e => h2 e.symm
      refine ⟨.mk (lowerBound lt c.fileName ns + 0) 0 cur, ?_, Or.inr ⟨_, rfl, h1, h2⟩⟩
      simp [parent, hf, hfp, h1', h2', hc, hgp, hg, hns]

/-! ## The last step of `insertFile` in the main tree -/

theorem deref_finish (m0 : FileTreeModel) (e1 e2 : Event) (cur : Nat) (c x : Node) (pos : Nat)
    (hcur : cur < m0.nodes.length) (p : Nat) :
    deref (emit (attachedFile (emit m0 e1) cur c x pos) e2) p =
      if p = cur then some { c with files := insertAt m0.nodes.length pos c.files }
      else if p = m0.nodes.length then some x else deref m0 p := by
  rw [deref_emit, deref_attachedFile _ _ _ _ _ (by simpa using hcur)]
  rfl

theorem finish_frame {m0 : FileTreeModel} (e1 e2 : Event) {cur : Nat} {c : Node} (x : Node)
    (pos : Nat) (hc : deref m0 cur = some c) (hcd : c.isDir = true) :
    (∀ p n, deref m0 p = some n →
      ∃ n1, deref (emit (attachedFile (emit m0 e1) cur c x pos) e2) p = some n1 ∧
      n1.isDir = n.isDir ∧ n1.fileName = n.fileName ∧ n1.path = n.path ∧ n1.data = n.data ∧
      n1.displayName = n.displayName ∧ n1.editable = n.editable ∧ n1.parent = n.parent ∧
      n1.dirs = n.dirs) ∧
    (∀ p n, deref m0 p = some n → n.isDir = false →
      deref (emit (attachedFile (emit m0 e1) cur c x pos) e2) p = some n) ∧
    (∀ p n, deref m0 p = some n →
      ∃ n1, deref (emit (attachedFile (emit m0 e1) cur c x pos) e2) p = some n1 ∧
      (∀ d ∈ n.dirs, d ∈ n1.dirs) ∧ (∀ d ∈ n.files, d ∈ n1.files)) := by
  have hcl := deref_lt hc
  refine ⟨?_, ?_, ?_⟩
  · intro p n hp
    rw [deref_finish m0 e1 e2 cur c x pos hcl]
    by_cases hpc : p = cur
    · subst hpc
      rw [hc] at hp; cases hp
      exact ⟨{ c with files := insertAt m0.nodes.length pos c.files }, by rw [if_pos rfl],
        rfl, rfl, rfl, rfl, rfl, rfl, rfl, rfl⟩
    · have := deref_lt hp
      rw [if_neg hpc, if_neg (by omega)]
      exact ⟨n, hp, rfl, rfl, rfl, rfl, rfl, rfl, rfl, rfl⟩
  · intro p n hp hf
    rw [deref_finish m0 e1 e2 cur c x pos hcl]
    by_cases hpc : p = cur
    · subst hpc
      rw [hc] at hp; cases hp
      rw [hcd] at hf; exact absurd hf (by simp)
    · have := deref_lt hp
      rw [if_neg hpc, if_neg (by omega)]
      exact hp
  · intro p n hp
    rw [deref_finish m0 e1 e2 cur c x pos hcl]
    by_cases hpc : p = cur
    · subst hpc
      rw [hc] at hp; cases hp
      exact ⟨{ c with files := insertAt m0.nodes.length pos c.files }, by rw [if_pos rfl],
        fun _ h => h, fun d hd => mem_insertAt_of_mem pos hd⟩
    · have := deref_lt hp
      rw [if_neg hpc, if_neg (by omega)]
      exact ⟨n, hp, fun _ h => h, fun _ h => h⟩

/-- The last step of every branch: the file node is allocated and inserted at its lower
bound into the `files` of `cur`.  `hhandle` is what the caller knows about the returned
index. -/
theorem finish_core {lt : QString → QString → Bool} (hlt : StrictWeak lt)
    {m m0 : FileTreeModel} {hole : Option Nat} {cur : Nat} {c : Node} {ns : List QString}
    {rk : Nat → Nat} (e1 : Event) (h : QModelIndex)
    (fileName filePath : QString) (data : Nat) (displayName : QString)
    (fr : Frame m m0) (inv : Inv lt m0 hole) (hh : hole = none ∨ hole = some cur)
    (hrk : RankOK m0 rk) (hclean : RootClean m0)
    (hc : deref m0 cur = some c) (hcd : c.isDir = true)
    (hns : namesOf m0 c.files = some ns)
    (hhandle : Inv lt (emit (attachedFile (emit m0 e1) cur c
        (mkFile fileName filePath (some cur) data displayName) (lowerBound lt fileName ns))
        .endInsertRows) none →
      ∃ row P, h = .mk row 0 m0.nodes.length ∧
        parent lt (emit (attachedFile (emit m0 e1) cur c
          (mkFile fileName filePath (some cur) data displayName) (lowerBound lt fileName ns))
          .endInsertRows) h = some P ∧
        index (emit (attachedFile (emit m0 e1) cur c
          (mkFile fileName filePath (some cur) data displayName) (lowerBound lt fileName ns))
          .endInsertRows) row 0 P = some h) :
    BranchPost lt m (emit (attachedFile (emit m0 e1) cur c
        (mkFile fileName filePath (some cur) data displayName) (lowerBound lt fileName ns))
        .endInsertRows) h cur fileName filePath data displayName := by
  have hcl := deref_lt hc
  have hd := deref_finish m0 e1 .endInsertRows cur c
    (mkFile fileName filePath (some cur) data displayName) (lowerBound lt fileName ns) hcl
  have hdf := hd m0.nodes.length
  rw [if_neg (by omega), if_pos rfl] at hdf
  obtain ⟨hsig, hfile, hlists⟩ := finish_frame e1 .endInsertRows
    (mkFile fileName filePath (some cur) data displayName) (lowerBound lt fileName ns) hc hcd
  have inv1 : Inv lt (emit (attachedFile (emit m0 e1) cur c
        (mkFile fileName filePath (some cur) data displayName) (lowerBound lt fileName ns))
        .endInsertRows) none :=
    Inv.emit _ (Inv.attachFile hlt fileName filePath data displayName (Inv.emit e1 inv) hh
      (by simpa using hc) hcd (by simpa using hns) rfl)
  have hlen : (emit (attachedFile (emit m0 e1) cur c
        (mkFile fileName filePath (some cur) data displayName) (lowerBound lt fileName ns))
        .endInsertRows).nodes.length - 1 = m0.nodes.length := by
    simp
  constructor
  · -- good
    have hrk1 : RankOK (attachedFile (emit m0 e1) cur c
        (mkFile fileName filePath (some cur) data displayName) (lowerBound lt fileName ns))
        (fun p => if p = m0.nodes.length then rk cur + 1 else rk p) :=
      RankOK.attach (RankOK.rank_congr m0 (emit m0 e1) rfl hrk)
        (show deref (emit m0 e1) cur = some c from hc) rfl rfl
        (fun p n q hp hq => inv.parent_lt p n q hp hq)
    refine ⟨inv1, ⟨_, RankOK.rank_congr _ _ rfl hrk1⟩, ?_⟩
    exact RootClean.of_sig m0 _ rfl
      (fun p n hp => by
        obtain ⟨n1, h1, h2, h3, h4, h5, h6, h7, _⟩ := hsig p n hp
        exact ⟨n1, h1, h2, h3, h4, h5, h6, h7⟩)
      (fun r hr => by obtain ⟨n, hn, _⟩ := inv.root_ok r hr; exact ⟨n, hn⟩) hclean
  · -- grows
    have := fr.len
    simp; omega
  · -- handle
    rw [hlen]
    exact hhandle inv1
  · -- node
    rw [hlen]; exact hdf
  · -- old_sig
    intro p n hp
    obtain ⟨n0, hn0, a1, a2, a3, a4, a5, a6⟩ := fr.old_sig p n hp
    obtain ⟨n1, h1, h2, h3, h4, h5, h6, h7, _⟩ := hsig p n0 hn0
    exact ⟨n1, h1, h2.trans a1, h3.trans a2, h4.trans a3, h5.trans a4, h6.trans a5,
      h7.trans a6⟩
  · -- old_file
    intro p n hp hf
    exact hfile p n (fr.old_file p n hp hf) hf
  · -- old_lists
    intro p n hp
    obtain ⟨n0, hn0, a1, a2⟩ := fr.old_lists p n hp
    obtain ⟨n1, hn1, b1, b2⟩ := hlists p n0 hn0
    exact ⟨n1, hn1, fun c hc => b1 c (a1 c hc), fun c hc => b2 c (a2 c hc)⟩
  · -- new_file
    intro p n hp hl hf
    rw [hlen]
    rw [hd] at hp
    split at hp
    · cases hp; rw [hcd] at hf; exact absurd hf (by simp)
    · split at hp
      · assumption
      · have := fr.new_dir p n hp hl
        rw [this] at hf; exact absurd hf (by simp)

/-- The last step of the branches that add the file to a directory of the main tree. -/
theorem finish_main {lt : QString → QString → Bool} (hlt : StrictWeak lt)
    {m m0 : FileTreeModel} {hole : Option Nat} {cur : Nat} {c : Node} {ns : List QString}
    {rk : Nat → Nat} {idx : QModelIndex} (e1 : Event)
    (fileName filePath : QString) (data : Nat) (displayName : QString)
    (fr : Frame m m0) (inv : Inv lt m0 hole) (hh : hole = none ∨ hole = some cur)
    (hrk : RankOK m0 rk) (hclean : RootClean m0)
    (hc : deref m0 cur = some c) (hcd : c.isDir = true) (hnt : m0.m_tmpdir ≠ some cur)
    (hidx : IdxFor m0 idx cur)
    (hpar : m0.m_root ≠ some cur → ∃ gp, c.parent = some gp)
    (hns : namesOf m0 c.files = some ns) :
    index (emit (attachedFile (emit m0 e1) cur c
        (mkFile fileName filePath (some cur) data displayName) (lowerBound lt fileName ns))
        .endInsertRows) (c.dirs.length + lowerBound lt fileName ns) 0 idx
      = some (.mk (c.dirs.length + lowerBound lt fileName ns) 0 m0.nodes.length) ∧
    BranchPost lt m (emit (attachedFile (emit m0 e1) cur c
        (mkFile fileName filePath (some cur) data displayName) (lowerBound lt fileName ns))
        .endInsertRows)
      (.mk (c.dirs.length + lowerBound lt fileName ns) 0 m0.nodes.length) cur
      fileName filePath data displayName := by
  have hcl := deref_lt hc
  have hpos : lowerBound lt fileName ns ≤ c.files.length := by
    rw [← namesOf_length hns]; exact lowerBound_le _ _ _
  have hd := deref_finish m0 e1 .endInsertRows cur c
    (mkFile fileName filePath (some cur) data displayName) (lowerBound lt fileName ns) hcl
  have hdc := hd cur
  rw [if_pos rfl] at hdc
  have hdf := hd m0.nodes.length
  rw [if_neg (by omega), if_pos rfl] at hdf
  have hrow : ∀ r0 c0, index (emit (attachedFile (emit m0 e1) cur c
        (mkFile fileName filePath (some cur) data displayName) (lowerBound lt fileName ns))
        .endInsertRows) (c.dirs.length + lowerBound lt fileName ns) 0 (.mk r0 c0 cur)
      = some (.mk (c.dirs.length + lowerBound lt fileName ns) 0 m0.nodes.length) := by
    intro r0 c0
    rw [index_child _ r0 c0 hdc (by exact hcd) (by simpa using hnt)]
    simp only [ge_iff_le, Nat.le_add_right, if_true, Nat.add_sub_cancel_left]
    rw [insertAt_getElem? _ _ _ hpos]
    rfl
  have hrowtop : m0.m_root = some cur → index (emit (attachedFile (emit m0 e1) cur c
        (mkFile fileName filePath (some cur) data displayName) (lowerBound lt fileName ns))
        .endInsertRows) (c.dirs.length + lowerBound lt fileName ns) 0 .invalid
      = some (.mk (c.dirs.length + lowerBound lt fileName ns) 0 m0.nodes.length) := by
    intro hroot
    rw [index_top_root _ (by simpa using hroot) hdc (by exact hcd) (by simpa using hnt)
      (by simp only [Node.childCount, insertAt_length _ _ _ hpos]; omega)]
    simp only [ge_iff_le, Nat.le_add_right, if_true, Nat.add_sub_cancel_left]
    rw [insertAt_getElem? _ _ _ hpos]
    rfl
  constructor
  · rcases hidx with ⟨rfl, hroot⟩ | ⟨r0, c0, rfl⟩
    · exact hrowtop hroot
    · exact hrow r0 c0
  · apply finish_core hlt e1 _ fileName filePath data displayName fr inv hh hrk hclean hc hcd
      hns
    intro inv1
    obtain ⟨P, hP, hcase⟩ := parent_of_child inv1
      (c.dirs.length + lowerBound lt fileName ns) 0 hdf rfl hdc
      (fun h1 _ => hpar (by simpa using h1))
    refine ⟨_, P, rfl, hP, ?_⟩
    rcases hcase with ⟨rfl, h | h⟩ | ⟨r0, rfl, _, _⟩
    · exact hrowtop (by simpa using h)
    · exact absurd (by simpa using h) hnt
    · exact hrow r0 0

end FileTreeModel


namespace FileTreeModel

/-! ## The descent of lines 93-106 -/

theorem Cursor.inv {lt : QString → QString → Bool} {m m0 : FileTreeModel} {cur : Nat}
    {idx : QModelIndex} (h : Cursor lt m m0 cur idx) :
    ∃ hole, Inv lt m0 hole ∧ (hole = none ∨ hole = some cur) := by
  obtain ⟨c, _, _, _, h1 | ⟨h1, _⟩⟩ := h.node
  · exact ⟨none, h1, Or.inl rfl⟩
  · exact ⟨some cur, h1, Or.inr rfl⟩

/-- `index` of a subdirectory row below the cursor. -/
theorem index_of_cursor_dir {m0 : FileTreeModel} {cur : Nat} {c : Node} {idx : QModelIndex}
    {row d : Nat} (hc : deref m0 cur = some c) (hcd : c.isDir = true)
    (hnt : m0.m_tmpdir ≠ some cur) (hidx : IdxFor m0 idx cur) (hd : c.dirs[row]? = some d) :
    index m0 row 0 idx = some (.mk row 0 d) := by
  have hrow : row < c.dirs.length := (List.getElem?_eq_some.mp hd).1
  rcases hidx with ⟨rfl, hroot⟩ | ⟨r0, c0, rfl⟩
  · rw [index_top_root _ hroot hc hcd hnt (by simp only [Node.childCount]; omega),
      if_neg (by omega), hd]
    rfl
  · rw [index_child _ r0 c0 hc hcd hnt, if_neg (by omega), hd]
    rfl

/-- The cursor after a new directory was attached to it. -/
theorem Cursor.step_new {lt : QString → QString → Bool} (hlt : StrictWeak lt)
    {m m0 : FileTreeModel} {cur : Nat} {idx : QModelIndex} {c : Node}
    {ns : List QString} (e1 e2 : Event) (part path : QString)
    (hcur : Cursor lt m m0 cur idx) (hc : deref m0 cur = some c)
    (hns : namesOf m0 c.dirs = some ns) :
    index (emit (attachedDir (emit m0 e1) cur c (mkDir part path (some cur))
        (lowerBound lt part ns)) e2) (lowerBound lt part ns) 0 idx
      = some (.mk (lowerBound lt part ns) 0 m0.nodes.length) ∧
    Cursor lt m (emit (attachedDir (emit m0 e1) cur c (mkDir part path (some cur))
        (lowerBound lt part ns)) e2) m0.nodes.length
      (.mk (lowerBound lt part ns) 0 m0.nodes.length) := by
  obtain ⟨c0, hc0, hcd, hpar, hinv⟩ := hcur.node
  rw [hc] at hc0; cases hc0
  obtain ⟨hole, inv, hh⟩ := hcur.inv
  obtain ⟨rk, hrk⟩ := hcur.ranked
  have hcl := deref_lt hc
  have hpos : lowerBound lt part ns ≤ c.dirs.length := by
    rw [← namesOf_length hns]; exact lowerBound_le _ _ _
  have hd : ∀ p, deref (emit (attachedDir (emit m0 e1) cur c (mkDir part path (some cur))
        (lowerBound lt part ns)) e2) p =
      if p = cur then some { c with dirs := insertAt m0.nodes.length (lowerBound lt part ns) c.dirs }
      else if p = m0.nodes.length then some (mkDir part path (some cur)) else deref m0 p := by
    intro p
    rw [deref_emit, deref_attachedDir _ _ _ _ _ (by simpa using hcl)]
    rfl
  have hdc := hd cur
  rw [if_pos rfl] at hdc
  have hdx := hd m0.nodes.length
  rw [if_neg (by omega), if_pos rfl] at hdx
  have inv1 : Inv lt (emit (attachedDir (emit m0 e1) cur c (mkDir part path (some cur))
        (lowerBound lt part ns)) e2) (some m0.nodes.length) :=
    Inv.emit _ (Inv.attachDir hlt part path (Inv.emit e1 inv) hh
      (show deref (emit m0 e1) cur = some c from hc) hcd (by simpa using hcur.not_tmp)
      (by simpa using hns) rfl)
  have fr1 : Frame m0 (emit (attachedDir (emit m0 e1) cur c (mkDir part path (some cur))
        (lowerBound lt part ns)) e2) :=
    (Frame.frame_emit m0 e1).trans ((Frame.attachedDir (mkDir part path (some cur)) _
      (show deref (emit m0 e1) cur = some c from hc) hcd rfl).trans (Frame.frame_emit _ e2))
  constructor
  · have hidx1 : IdxFor (emit (attachedDir (emit m0 e1) cur c (mkDir part path (some cur))
        (lowerBound lt part ns)) e2) idx cur := by
      rcases hcur.idx_ok with ⟨h1, h2⟩ | h
      · exact Or.inl ⟨h1, by simpa using h2⟩
      · exact Or.inr h
    exact index_of_cursor_dir hdc (by exact hcd) (by simpa using hcur.not_tmp) hidx1
      (by simpa using insertAt_getElem? _ _ _ hpos)
  · refine ⟨hcur.frame.trans fr1, ?_, ?_, ?_, ?_, Or.inr ⟨_, _, rfl⟩, by simpa using hcur.tmp_eq⟩
    · have hrk1 : RankOK (attachedDir (emit m0 e1) cur c (mkDir part path (some cur))
          (lowerBound lt part ns))
          (fun p => if p = m0.nodes.length then rk cur + 1 else rk p) :=
        RankOK.attach (RankOK.rank_congr m0 (emit m0 e1) rfl hrk)
          (show deref (emit m0 e1) cur = some c from hc) rfl rfl
          (fun p n q hp hq => inv.parent_lt p n q hp hq)
      exact ⟨_, RankOK.rank_congr _ _ rfl hrk1⟩
    · exact RootClean.of_sig m0 _ rfl fr1.old_sig
        (fun r hr => by obtain ⟨n, hn, _⟩ := inv.root_ok r hr; exact ⟨n, hn⟩) hcur.clean
    · exact ⟨_, hdx, rfl, fun _ => ⟨cur, rfl⟩, Or.inr ⟨inv1, rfl, rfl⟩⟩
    · intro ht
      have ht0 : m0.m_tmpdir = some m0.nodes.length := by simpa using ht
      obtain ⟨n, hn, _⟩ := inv.tmp_ok _ ht0
      exact absurd (deref_lt hn) (by omega)

/-- The cursor after it moved to an existing subdirectory. -/
theorem Cursor.step_found {lt : QString → QString → Bool}
    {m m0 : FileTreeModel} {cur : Nat} {idx : QModelIndex} {c : Node} {row d : Nat}
    (hcur : Cursor lt m m0 cur idx) (hc : deref m0 cur = some c)
    (hd : c.dirs[row]? = some d) :
    index m0 row 0 idx = some (.mk row 0 d) ∧ Cursor lt m m0 d (.mk row 0 d) := by
  obtain ⟨c0, hc0, hcd, hpar, hinv⟩ := hcur.node
  rw [hc] at hc0; cases hc0
  have hmem : d ∈ c.dirs := List.getElem?_mem hd
  have inv0 : Inv lt m0 none := by
    rcases hinv with h | ⟨_, h, _⟩
    · exact h
    · rw [h] at hmem; simp at hmem
  obtain ⟨dn, hdn, hdd, hdp⟩ := inv0.dirs_ok cur c d hc hmem
  refine ⟨index_of_cursor_dir hc hcd hcur.not_tmp hcur.idx_ok hd, hcur.frame, hcur.ranked,
    hcur.clean, ⟨dn, hdn, hdd, fun _ => ⟨cur, hdp⟩, Or.inl inv0⟩, ?_, Or.inr ⟨_, _, rfl⟩,
    hcur.tmp_eq⟩
  intro ht
  obtain ⟨n, hn, _, hnp, _⟩ := inv0.tmp_ok d ht
  rw [hdn] at hn; cases hn
  rw [hdp] at hnp; simp at hnp

theorem descendLoop_spec {lt : QString → QString → Bool} (hlt : StrictWeak lt)
    (m : FileTreeModel) (parts : List QString) :
    ∀ (m0 : FileTreeModel) (cur : Nat) (idx : QModelIndex), Cursor lt m m0 cur idx →
      ∃ m1 cur1 idx1, descendLoop lt m0 cur idx parts = some (m1, cur1, idx1) ∧
        Cursor lt m m1 cur1 idx1 ∧ m1.m_root = m0.m_root := by
  induction parts with
  | nil =>
    intro m0 cur idx hcur
    exact ⟨m0, cur, idx, rfl, hcur, rfl⟩
  | cons part rest ih =>
    intro m0 cur idx hcur
    obtain ⟨c, hc, hcd, hpar, hinv⟩ := hcur.node
    obtain ⟨hole, inv, hh⟩ := hcur.inv
    obtain ⟨ns, hns⟩ := inv.namesOf_dirs hc
    cases hfind : find lt ns part with
    | none =>
      have hpos : lowerBound lt part ns ≤ c.dirs.length := by
        rw [← namesOf_length hns]; exact lowerBound_le _ _ _
      obtain ⟨hi, hcur1⟩ := Cursor.step_new hlt
        (.beginInsertRows idx ((lowerBound lt part ns : Nat) : Int)
          ((lowerBound lt part ns : Nat) : Int)) .endInsertRows part (c.path ++ '/' :: part)
        hcur hc hns
      obtain ⟨m1, cur1, idx1, h1, h2, h3⟩ := ih _ _ _ hcur1
      refine ⟨m1, cur1, idx1, ?_, h2, by rw [h3]; rfl⟩
      have e1 := dirsAddAt_alloc
        (m := emit m0 (.beginInsertRows idx ((lowerBound lt part ns : Nat) : Int)
          ((lowerBound lt part ns : Nat) : Int)))
        (mkDir part (c.path ++ '/' :: part) (some cur))
        (show deref (emit m0 _) cur = some c from hc) hpos
      simp only [emit_nodes] at e1
      simp only [descendLoop, Option.bind_eq_bind, Option.some_bind, hc, hns, hfind, insIndex,
        alloc_snd, emit_nodes, e1, hi]
      exact h1
    | some it =>
      obtain ⟨_, hit⟩ := find_some hfind
      obtain ⟨d, dn, hd, _, _⟩ := namesOf_getElem?_inv hns hit
      obtain ⟨hi, hcur1⟩ := Cursor.step_found hcur hc hd
      obtain ⟨m1, cur1, idx1, h1, h2, h3⟩ := ih _ _ _ hcur1
      refine ⟨m1, cur1, idx1, ?_, h2, h3⟩
      simp only [descendLoop, Option.bind_eq_bind, Option.some_bind, hc, hns, hfind, hd, hi]
      exact h1

end FileTreeModel


namespace FileTreeModel

/-! ## The example comparator -/

theorem char_eq_of_toNat {a b : Char} (h : a.toNat = b.toNat) : a = b := by
  apply Char.ext
  apply UInt32.ext
  exact h

theorem codeLt_irrefl : ∀ a, codeLt a a = false := by
  intro a
  induction a with
  | nil => rfl
  | cons x xs ih => simp [codeLt, ih]

theorem codeLt_trans : ∀ a b c, codeLt a b = true → codeLt b c = true → codeLt a c = true := by
  intro a
  induction a with
  | nil =>
    intro b c h1 h2
    cases b with
    | nil => simp [codeLt] at h1
    | cons y ys =>
      cases c with
      | nil => simp [codeLt] at h2
      | cons z zs => simp [codeLt]
  | cons x xs ih =>
    intro b c h1 h2
    cases b with
    | nil => simp [codeLt] at h1
    | cons y ys =>
      cases c with
      | nil => simp [codeLt] at h2
      | cons z zs =>
        simp only [codeLt] at h1 h2 ⊢
        by_cases hxy : x.toNat < y.toNat
        · by_cases hyz : y.toNat < z.toNat
          · rw [if_pos (by omega)]
          · rw [if_neg hyz] at h2
            by_cases hzy : z.toNat < y.toNat
            · rw [if_pos hzy] at h2; cases h2
            · rw [if_pos (by omega)]
        · rw [if_neg hxy] at h1
          by_cases hyx : y.toNat < x.toNat
          · rw [if_pos hyx] at h1; cases h1
          · rw [if_neg hyx] at h1
            by_cases hyz : y.toNat < z.toNat
            · rw [if_pos (by omega)]
            · rw [if_neg hyz] at h2
              by_cases hzy : z.toNat < y.toNat
              · rw [if_pos hzy] at h2; cases h2
              · rw [if_neg hzy] at h2
                rw [if_neg (by omega), if_neg (by omega)]
                exact ih ys zs h1 h2

theorem codeLt_negTrans : ∀ a b c, codeLt a c = true →
    codeLt a b = true ∨ codeLt b c = true := by
  intro a
  induction a with
  | nil =>
    intro b c h
    cases c with
    | nil => simp [codeLt] at h
    | cons z zs =>
      cases b with
      | nil => right; simp [codeLt]
      | cons y ys => left; simp [codeLt]
  | cons x xs ih =>
    intro b c h
    cases c with
    | nil => simp [codeLt] at h
    | cons z zs =>
      cases b with
      | nil => right; simp [codeLt]
      | cons y ys =>
        simp only [codeLt] at h ⊢
        by_cases hxy : x.toNat < y.toNat
        · left; rw [if_pos hxy]
        · by_cases hyz : y.toNat < z.toNat
          · right; rw [if_pos hyz]
          · rw [if_neg hxy, if_neg hyz]
            by_cases hxz : x.toNat < z.toNat
            · omega
            · rw [if_neg hxz] at h
              by_cases hzx : z.toNat < x.toNat
              · rw [if_pos hzx] at h; cases h
              · rw [if_neg hzx] at h
                rw [if_neg (by omega), if_neg (by omega)]
                exact ih ys zs h

theorem codeLt_strictWeak : StrictWeak codeLt :=
  ⟨codeLt_irrefl, codeLt_trans, codeLt_negTrans⟩

/-- A comparison by keys under a strict weak order is a strict weak order. -/
theorem StrictWeak.comap {lt : QString → QString → Bool} (h : StrictWeak lt)
    (key : QString → QString) : StrictWeak (fun a b => lt (key a) (key b)) :=
  ⟨fun a => h.irrefl (key a), fun a b c => h.trans (key a) (key b) (key c),
    fun a b c => h.negTrans (key a) (key b) (key c)⟩

theorem numLt_strictWeak : StrictWeak numLt :=
  codeLt_strictWeak.comap numKey

/-- The names `a01` and `a1` are different and compare as equal under `numLt`. -/
theorem numLt_equal_names :
    "a01".toList ≠ "a1".toList ∧ numLt "a01".toList "a1".toList = false ∧
      numLt "a1".toList "a01".toList = false := by
  decide

/-! ## What `index` returns -/

theorem index_tail {n : Node} {row col off : Nat} {h : QModelIndex}
    (hi : (if row < off then none
        else if row - off ≥ n.dirs.length then
          (n.files[row - off - n.dirs.length]?).bind fun c => some (QModelIndex.mk row col c)
        else (n.dirs[row - off]?).bind fun c => some (QModelIndex.mk row col c)) = some h) :
    ∃ c, h = .mk row col c ∧ (c ∈ n.dirs ∨ c ∈ n.files) := by
  split at hi
  · cases hi
  · split at hi
    · rw [Option.bind_eq_some] at hi
      obtain ⟨c, hc, hi⟩ := hi
      simp only [Option.some.injEq] at hi
      exact ⟨c, hi.symm, Or.inr (List.getElem?_mem hc)⟩
    · rw [Option.bind_eq_some] at hi
      obtain ⟨c, hc, hi⟩ := hi
      simp only [Option.some.injEq] at hi
      exact ⟨c, hi.symm, Or.inl (List.getElem?_mem hc)⟩

theorem index_node {m : FileTreeModel} {pn row col : Nat} {h : QModelIndex}
    (hv : h ≠ .invalid)
    (hi : ((deref m pn).bind fun dirNode =>
        if dirNode.isDir = true then
          (if some pn = m.m_tmpdir ∧ m.m_root.isSome = true then rootChildCount m
            else some 0).bind fun off =>
              if row < off then none
              else if row - off ≥ dirNode.dirs.length then
                (dirNode.files[row - off - dirNode.dirs.length]?).bind fun c =>
                  some (QModelIndex.mk row col c)
              else (dirNode.dirs[row - off]?).bind fun c => some (QModelIndex.mk row col c)
        else some QModelIndex.invalid) = some h) :
    ∃ n c, deref m pn = some n ∧ h = .mk row col c ∧ (c ∈ n.dirs ∨ c ∈ n.files) := by
  rw [Option.bind_eq_some] at hi
  obtain ⟨n, hn, hi⟩ := hi
  split at hi
  · rw [Option.bind_eq_some] at hi
    obtain ⟨off, _, hi⟩ := hi
    obtain ⟨c, e1, e2⟩ := index_tail hi
    exact ⟨n, c, hn, e1, e2⟩
  · simp only [Option.some.injEq] at hi; exact absurd hi.symm hv

theorem bind_ite {α β : Type} (c : Prop) [Decidable c] (a b : Option α) (f : α → Option β) :
    (if c then a else b).bind f = if c then a.bind f else b.bind f := by
  split <;> rfl

/-- The two stages of `index`: the node of the parent, then the child in the row. -/
theorem index_eq (m : FileTreeModel) (row col : Nat) (P : QModelIndex) :
    index m row col P =
      (match P with
        | .mk _ _ p => some (some p)
        | .invalid =>
          match m.m_root with
          | none => some m.m_tmpdir
          | some r => (deref m r).bind fun rn =>
            if row < rn.childCount then some (some r) else some m.m_tmpdir).bind
        fun parentNode =>
          match parentNode with
          | none => some .invalid
          | some pn => (deref m pn).bind fun dirNode =>
            if dirNode.isDir = true then
              (if some pn = m.m_tmpdir ∧ m.m_root.isSome = true then rootChildCount m
                else some 0).bind fun off =>
                  if row < off then none
                  else if row - off ≥ dirNode.dirs.length then
                    (dirNode.files[row - off - dirNode.dirs.length]?).bind fun c =>
                      some (QModelIndex.mk row col c)
                  else (dirNode.dirs[row - off]?).bind fun c =>
                    some (QModelIndex.mk row col c)
            else some QModelIndex.invalid := by
  unfold index
  simp only [Option.bind_eq_bind, bind_ite]
  cases P with
  | mk r1 c1 p1 => rfl
  | invalid =>
    simp only
    cases m.m_root with
    | none => rfl
    | some r =>
      simp only
      cases deref m r with
      | none => rfl
      | some rn =>
        simp only [Option.some_bind]
        split <;> rfl

/-- A valid index returned by `index` points to a child of the node of the parent index,
or of one of the roots when the parent index is invalid. -/
theorem index_mem {m : FileTreeModel} {row col : Nat} {P h : QModelIndex}
    (hi : index m row col P = some h) (hv : h ≠ .invalid) :
    ∃ pn n c, h = .mk row col c ∧ deref m pn = some n ∧ (c ∈ n.dirs ∨ c ∈ n.files) ∧
      ((∃ r1 c1, P = .mk r1 c1 pn) ∨
        (P = .invalid ∧ (m.m_root = some pn ∨ m.m_tmpdir = some pn))) := by
  rw [index_eq, Option.bind_eq_some] at hi
  obtain ⟨parentNode, hpn, hi⟩ := hi
  cases parentNode with
  | none => simp only [Option.some.injEq] at hi; exact absurd hi.symm hv
  | some pn =>
    obtain ⟨n, c, hn, e1, e2⟩ := index_node hv hi
    refine ⟨pn, n, c, e1, hn, e2, ?_⟩
    cases P with
    | mk r1 c1 p1 =>
      simp only [Option.some.injEq] at hpn
      exact Or.inl ⟨r1, c1, by rw [hpn]⟩
    | invalid =>
      right
      refine ⟨rfl, ?_⟩
      simp only at hpn
      cases hr : m.m_root with
      | none =>
        rw [hr] at hpn
        simp only [Option.some.injEq] at hpn
        exact Or.inr hpn
      | some r =>
        rw [hr] at hpn
        simp only at hpn
        rw [Option.bind_eq_some] at hpn
        obtain ⟨rn, _, hpn⟩ := hpn
        split at hpn
        · simp only [Option.some.injEq] at hpn
          exact Or.inl (by rw [hpn])
        · simp only [Option.some.injEq] at hpn
          exact Or.inr hpn

/-- The new file node is in the `files` of the node it was put below. -/
theorem BranchPost.attached {lt : QString → QString → Bool} {m m1 : FileTreeModel}
    {h : QModelIndex} {par : Nat} {fileName filePath : QString} {data : Nat}
    {displayName : QString} (hp : BranchPost lt m m1 h par fileName filePath data displayName) :
    ∃ pn, deref m1 par = some pn ∧ (m1.nodes.length - 1) ∈ pn.files := by
  obtain ⟨row, P, e1, e2, e3⟩ := hp.handle
  obtain ⟨q, n, c, hh, hq, hmem, _⟩ := index_mem e3 (by rw [e1]; simp)
  rw [e1] at hh
  simp only [QModelIndex.mk.injEq] at hh
  obtain ⟨_, _, hc⟩ := hh
  subst hc
  rcases hmem with hd | hf
  · obtain ⟨cn, hcn, hdir, _⟩ := hp.good.inv.dirs_ok q n _ hq hd
    rw [hp.node] at hcn; cases hcn
    simp [mkFile] at hdir
  · obtain ⟨cn, hcn, _, hpar⟩ := hp.good.inv.files_ok q n _ hq hf
    rw [hp.node] at hcn; cases hcn
    simp only [mkFile, Option.some.injEq] at hpar
    subst hpar
    exact ⟨n, hq, hf⟩

end FileTreeModel


namespace FileTreeModel

/-! ## The pruning loop of `removeIndex` -/

theorem rootChildCount_exists {lt : QString → QString → Bool} {m : FileTreeModel}
    {hole : Option Nat} (inv : Inv lt m hole) : ∃ rc, rootChildCount m = some rc := by
  unfold rootChildCount
  cases hr : m.m_root with
  | none => exact ⟨0, rfl⟩
  | some r =>
    obtain ⟨n, hn, _⟩ := inv.root_ok r hr
    exact ⟨n.childCount, by simp [hn]⟩

/-- A rank can be chosen below the size of the arena. -/
theorem Ranked.bounded {lt : QString → QString → Bool} {m : FileTreeModel}
    {hole : Option Nat} (inv : Inv lt m hole) (h : Ranked m) :
    ∃ rk, RankOK m rk ∧ ∀ p, p < m.nodes.length → rk p < m.nodes.length := by
  obtain ⟨rk0, hrk0⟩ := h
  refine ⟨fun p => ((Finset.range m.nodes.length).filter (fun q => rk0 q < rk0 p)).card,
    ?_, ?_⟩
  · intro p n q hp hq
    have hlt0 := hrk0 p n q hp hq
    have hql := inv.parent_lt p n q hp hq
    apply Finset.card_lt_card
    rw [Finset.ssubset_iff_of_subset]
    · exact ⟨q, by simp [hql, hlt0], by simp⟩
    · intro x hx
      simp only [Finset.mem_filter, Finset.mem_range] at hx ⊢
      exact ⟨hx.1, by omega⟩
  · intro p hp
    have : ((Finset.range m.nodes.length).filter (fun q => rk0 q < rk0 p)).card
        < (Finset.range m.nodes.length).card := by
      apply Finset.card_lt_card
      rw [Finset.ssubset_iff_of_subset (Finset.filter_subset _ _)]
      exact ⟨p, by simp [hp], by simp⟩
    simpa using this

theorem PruneTop.of_no_parent {m : FileTreeModel} {p a : Nat} {n : Node}
    (h : PruneTop m p a) (hp : deref m p = some n) (hn : n.parent = none) : a = p := by
  cases h with
  | root _ _ => rfl
  | many _ _ _ _ => rfl
  | climb h1 h2 _ _ _ =>
    rw [hp] at h1; cases h1
    rw [hn] at h2; cases h2

theorem PruneTop.rank_le {m : FileTreeModel} {rk : Nat → Nat} (hrk : RankOK m rk)
    {p a : Nat} (h : PruneTop m p a) : rk a ≤ rk p := by
  induction h with
  | root _ _ => exact Nat.le_refl _
  | many _ _ _ _ => exact Nat.le_refl _
  | climb h1 h2 _ _ _ ih =>
    have := hrk _ _ _ h1 h2
    omega

/-- The top of the pruning has a node; if the pruning went up, it has exactly one child. -/
theorem PruneTop.top_node {m : FileTreeModel} {p a : Nat} (h : PruneTop m p a) :
    ∃ an, deref m a = some an ∧ (a = p ∨ an.childCount = 1) := by
  induction h with
  | root h1 _ => exact ⟨_, h1, Or.inl rfl⟩
  | many h1 _ _ _ => exact ⟨_, h1, Or.inl rfl⟩
  | climb _ _ h3 h4 _ ih =>
    obtain ⟨an, han, hor⟩ := ih
    rcases hor with e | e
    · subst e
      rw [h3] at han; cases han
      exact ⟨_, h3, Or.inr h4⟩
    · exact ⟨an, han, Or.inr e⟩

/-- Where the pruning stops. -/
theorem PruneTop.top_stop {m : FileTreeModel} {p a : Nat} (h : PruneTop m p a) :
    ∃ an, deref m a = some an ∧ (an.parent = none ∨
      ∃ q qn, an.parent = some q ∧ deref m q = some qn ∧ qn.childCount ≠ 1) := by
  induction h with
  | root h1 h2 => exact ⟨_, h1, Or.inl h2⟩
  | many h1 h2 h3 h4 => exact ⟨_, h1, Or.inr ⟨_, _, h2, h3, h4⟩⟩
  | climb _ _ _ _ _ ih => exact ih

/-- The pruning has a top, for every node. -/
theorem PruneTop.total {lt : QString → QString → Bool} {m : FileTreeModel}
    {hole : Option Nat} (inv : Inv lt m hole) {rk : Nat → Nat} (hrk : RankOK m rk) :
    ∀ (k p : Nat) (n : Node), rk p ≤ k → deref m p = some n → ∃ a, PruneTop m p a := by
  intro k
  induction k with
  | zero =>
    intro p n hk hp
    cases hq : n.parent with
    | none => exact ⟨p, PruneTop.root hp hq⟩
    | some q =>
      have := hrk p n q hp hq
      omega
  | succ k ih =>
    intro p n hk hp
    cases hq : n.parent with
    | none => exact ⟨p, PruneTop.root hp hq⟩
    | some q =>
      obtain ⟨qn, hqn, _⟩ := inv.parent_ok p n q hp hq
      by_cases h1 : qn.childCount = 1
      · have := hrk p n q hp hq
        obtain ⟨a, ha⟩ := ih q qn (by omega) hqn
        exact ⟨a, PruneTop.climb hp hq hqn h1 ha⟩
      · exact ⟨p, PruneTop.many hp hq hqn h1⟩

/-- The index that `parent` computes for a child of `a`, when `a` is not a root. -/
theorem parent_eq_of_child (lt : QString → QString → Bool) {m : FileTreeModel}
    {c a g : Nat} {cn an gn : Node} {ns : List QString} (r0 c0 : Nat)
    (hc : deref m c = some cn) (hca : cn.parent = some a) (ha : deref m a = some an)
    (hag : an.parent = some g) (hg : deref m g = some gn)
    (hns : namesOf m gn.dirs = some ns)
    (h1 : m.m_root ≠ some a) (h2 : m.m_tmpdir ≠ some a) :
    parent lt m (.mk r0 c0 c) = some (.mk (lowerBound lt an.fileName ns) 0 a) := by
  have h1' : ¬ (some a = m.m_root) := fun e => h1 e.symm
  have h2' : ¬ (some a = m.m_tmpdir) := fun e => h2 e.symm
  simp [parent, hc, hca, h1', h2', ha, hag, hg, hns]

/-- The result of the loop of lines 207-211, given enough fuel: the top of the pruning,
with the index of the start when the loop did not go up, and the index that `parent`
computed from a child of the top otherwise. -/
theorem pruneLoop_top {lt : QString → QString → Bool} {m : FileTreeModel}
    (inv : Inv lt m none) {rk : Nat → Nat} (hrk : RankOK m rk) {p a : Nat}
    (htop : PruneTop m p a) :
    (∀ an, deref m a = some an → an.parent = none →
      m.m_root = some a ∨ m.m_tmpdir = some a) →
    ∀ (fuel : Nat) (idx : QModelIndex) (f : Bool), rk p < fuel → IdxAt m idx p →
      ∃ idxA fA, pruneLoop lt m fuel p idx f = some (a, idxA, fA) ∧ IdxAt m idxA a ∧
        ((a = p ∧ idxA = idx ∧ fA = f) ∨
          (fA = false ∧ ∃ c cn r0 c0, deref m c = some cn ∧ cn.parent = some a ∧
            parent lt m (.mk r0 c0 c) = some idxA)) := by
  induction htop with
  | @root p n h1 h2 =>
    intro _ fuel idx f hf hidx
    cases fuel with
    | zero => omega
    | succ k =>
      refine ⟨idx, f, ?_, hidx, Or.inl ⟨rfl, rfl, rfl⟩⟩
      simp [pruneLoop, h1, h2]
  | @many p q n qn h1 h2 h3 h4 =>
    intro _ fuel idx f hf hidx
    cases fuel with
    | zero => omega
    | succ k =>
      refine ⟨idx, f, ?_, hidx, Or.inl ⟨rfl, rfl, rfl⟩⟩
      simp [pruneLoop, h1, h2, h3, h4]
  | @climb p q a n qn h1 h2 h3 h4 hrest ih =>
    intro hroot fuel idx f hf hidx
    cases fuel with
    | zero => omega
    | succ k =>
      have hrkq := hrk p n q h1 h2
      -- the index points to `p`: a root has no parent
      obtain ⟨r0, c0, rfl⟩ : ∃ r0 c0, idx = .mk r0 c0 p := by
        rcases hidx with e | ⟨_, e | e⟩
        · exact e
        · obtain ⟨n0, hn0, _, hnp⟩ := inv.root_ok p e
          rw [h1] at hn0; cases hn0
          rw [h2] at hnp; cases hnp
        · obtain ⟨n0, hn0, _, hnp, _⟩ := inv.tmp_ok p e
          rw [h1] at hn0; cases hn0
          rw [h2] at hnp; cases hnp
      obtain ⟨P, hP, hPor⟩ := parent_of_child inv r0 c0 h1 h2 h3 (by
        intro hr ht
        cases hqp : qn.parent with
        | some gp => exact ⟨gp, rfl⟩
        | none =>
          have e := hrest.of_no_parent h3 hqp
          subst e
          rcases hroot qn h3 hqp with e | e
          · exact absurd e hr
          · exact absurd e ht)
      have hPidx : IdxAt m P q := by
        rcases hPor with ⟨e1, e2⟩ | ⟨r1, e1, _, _⟩
        · exact Or.inr ⟨e1, e2⟩
        · exact Or.inl ⟨r1, 0, e1⟩
      obtain ⟨idxA, fA, hl, hia, hres⟩ := ih hroot k P false (by omega) hPidx
      refine ⟨idxA, fA, ?_, hia, Or.inr ?_⟩
      · simp only [pruneLoop, Option.bind_eq_bind, h1, Option.some_bind, h2, h3, h4, if_true, hP]
        exact hl
      · rcases hres with ⟨e1, e2, e3⟩ | ⟨e3, hex⟩
        · subst e1; subst e2
          exact ⟨e3, p, n, r0, c0, h1, h2, hP⟩
        · exact ⟨e3, hex⟩

end FileTreeModel


namespace FileTreeModel

/-! ## The three ways `removeIndex` ends -/

theorem removeIndex_root {lt : QString → QString → Bool} {m : FileTreeModel}
    {row col p a : Nat} {node : Node} {idxA : QModelIndex} {fA : Bool}
    (hp : deref m p = some node)
    (hl : pruneLoop lt m m.nodes.length p (.mk row col p) (!node.isDir) = some (a, idxA, fA))
    (ha : m.m_root = some a) :
    removeIndex lt m (.mk row col p)
      = some (emit { delete (emit m (.beginRemoveRows .invalid 0 0)) (some a) with
          m_root := none } .endRemoveRows, true) := by
  simp only [removeIndex, hp, hl, Option.bind_eq_bind, Option.some_bind, ha, if_true,
    emit_m_root]

theorem removeIndex_tmp {lt : QString → QString → Bool} {m : FileTreeModel}
    {row col p a rc : Nat} {node tn : Node} {idxA : QModelIndex} {fA : Bool}
    (hp : deref m p = some node)
    (hl : pruneLoop lt m m.nodes.length p (.mk row col p) (!node.isDir) = some (a, idxA, fA))
    (hr : m.m_root ≠ some a) (ha : m.m_tmpdir = some a) (hrc : rootChildCount m = some rc)
    (htn : deref m a = some tn) :
    removeIndex lt m (.mk row col p)
      = some (emit { delete (emit m (.beginRemoveRows .invalid
            ((rc : Int) + (tn.childCount : Int) - 1) ((rc : Int) + (tn.childCount : Int) - 1)))
          (some a) with m_tmpdir := none } .endRemoveRows, true) := by
  have hr' : ¬ (some a = m.m_root) := fun e => hr e.symm
  simp only [removeIndex, hp, hl, Option.bind_eq_bind, Option.some_bind, hr', if_false, ha,
    if_true, hrc, htn, emit_m_tmpdir]

theorem removeIndex_take_dir {lt : QString → QString → Bool} {m : FileTreeModel}
    {row col p a P i : Nat} {node an pn : Node} {idxA pidx : QModelIndex}
    {ns : List QString} (hp : deref m p = some node)
    (hl : pruneLoop lt m m.nodes.length p (.mk row col p) (!node.isDir)
      = some (a, idxA, false))
    (hr : m.m_root ≠ some a) (ht : m.m_tmpdir ≠ some a) (han : deref m a = some an)
    (haP : an.parent = some P) (hpn : deref m P = some pn)
    (hns : namesOf m pn.dirs = some ns) (hfind : find lt ns an.fileName = some i)
    (hpar : parent lt m idxA = some pidx) :
    removeIndex lt m (.mk row col p)
      = some (emit (delete (store (emit m (.beginRemoveRows pidx idxA.row idxA.row)) P
          { pn with dirs := pn.dirs.eraseIdx i }) (some a)) .endRemoveRows, true) := by
  have hr' : ¬ (some a = m.m_root) := fun e => hr e.symm
  have ht' : ¬ (some a = m.m_tmpdir) := fun e => ht e.symm
  simp only [removeIndex, hp, hl, Option.bind_eq_bind, Option.some_bind, hr', ht', if_false,
    hpar, deref_emit, han, haP, Bool.false_eq_true, dirsTake, hpn, namesOf_emit, hns, hfind]

theorem removeIndex_take_file {lt : QString → QString → Bool} {m : FileTreeModel}
    {row col p a P i : Nat} {node an pn : Node} {idxA pidx : QModelIndex}
    {ns : List QString} (hp : deref m p = some node)
    (hl : pruneLoop lt m m.nodes.length p (.mk row col p) (!node.isDir)
      = some (a, idxA, true))
    (hr : m.m_root ≠ some a) (ht : m.m_tmpdir ≠ some a) (han : deref m a = some an)
    (haP : an.parent = some P) (hpn : deref m P = some pn)
    (hns : namesOf m pn.files = some ns) (hfind : find lt ns an.fileName = some i)
    (hpar : parent lt m idxA = some pidx) :
    removeIndex lt m (.mk row col p)
      = some (emit (delete (store (emit m (.beginRemoveRows pidx idxA.row idxA.row)) P
          { pn with files := pn.files.eraseIdx i }) (some a)) .endRemoveRows, true) := by
  have hr' : ¬ (some a = m.m_root) := fun e => hr e.symm
  have ht' : ¬ (some a = m.m_tmpdir) := fun e => ht e.symm
  simp only [removeIndex, hp, hl, Option.bind_eq_bind, Option.some_bind, hr', ht', if_false,
    hpar, deref_emit, han, haP, if_true, filesTake, hpn, namesOf_emit, hns, hfind]

end FileTreeModel


namespace FileTreeModel

/-! ## Nodes of the trees and valid indexes -/

/-- A node of the trees without parent is a root; one with a parent is in a child list of
that parent, which is a node of the trees. -/
theorem Live.up {lt : QString → QString → Bool} {m : FileTreeModel} {hole : Option Nat}
    (inv : Inv lt m hole) {p : Nat} {n : Node} (h : Live m p) (hp : deref m p = some n) :
    (n.parent = none → m.m_root = some p ∨ m.m_tmpdir = some p) ∧
    (∀ q, n.parent = some q → Live m q ∧
      ∃ qn, deref m q = some qn ∧ (p ∈ qn.dirs ∨ p ∈ qn.files)) := by
  cases h with
  | root hr =>
    obtain ⟨n0, hn0, _, hnp⟩ := inv.root_ok p hr
    rw [hp] at hn0; cases hn0
    exact ⟨fun _ => Or.inl hr, fun q hq => by rw [hnp] at hq; cases hq⟩
  | tmp ht =>
    obtain ⟨n0, hn0, _, hnp, _⟩ := inv.tmp_ok p ht
    rw [hp] at hn0; cases hn0
    exact ⟨fun _ => Or.inr ht, fun q hq => by rw [hnp] at hq; cases hq⟩
  | @dir q0 _ qn hq hqn hc =>
    obtain ⟨cn, hcn, _, hcp⟩ := inv.dirs_ok q0 qn p hqn hc
    rw [hp] at hcn; cases hcn
    refine ⟨fun e => (by rw [hcp] at e; cases e), fun q hq1 => ?_⟩
    rw [hcp] at hq1; cases hq1
    exact ⟨hq, qn, hqn, Or.inl hc⟩
  | @file q0 _ qn hq hqn hc =>
    obtain ⟨cn, hcn, _, hcp⟩ := inv.files_ok q0 qn p hqn hc
    rw [hp] at hcn; cases hcn
    refine ⟨fun e => (by rw [hcp] at e; cases e), fun q hq1 => ?_⟩
    rw [hcp] at hq1; cases hq1
    exact ⟨hq, qn, hqn, Or.inr hc⟩

theorem PruneTop.top_live {lt : QString → QString → Bool} {m : FileTreeModel}
    {hole : Option Nat} (inv : Inv lt m hole) {p a : Nat} (h : PruneTop m p a)
    (hl : Live m p) : Live m a := by
  induction h with
  | root _ _ => exact hl
  | many _ _ _ _ => exact hl
  | climb h1 h2 _ _ _ ih => exact ih ((hl.up inv h1).2 _ h2).1

/-- A valid index points to a node in a child list of a node of the trees. -/
theorem ValidIndex.parent_live {m : FileTreeModel} {h : QModelIndex} (hv : ValidIndex m h) :
    ∃ r c p q qn, h = .mk r c p ∧ Live m q ∧ deref m q = some qn ∧
      (p ∈ qn.dirs ∨ p ∈ qn.files) := by
  induction hv with
  | top row hi hne =>
    obtain ⟨pn, n, c, e, hn, hmem, hP⟩ := index_mem hi hne
    refine ⟨row, 0, c, pn, n, e, ?_, hn, hmem⟩
    rcases hP with ⟨_, _, e1⟩ | ⟨_, e1 | e1⟩
    · cases e1
    · exact Live.root e1
    · exact Live.tmp e1
  | child row _ hi hne ih =>
    obtain ⟨pn, n, c, e, hn, hmem, hP⟩ := index_mem hi hne
    refine ⟨row, 0, c, pn, n, e, ?_, hn, hmem⟩
    rcases hP with ⟨r1, c1, e1⟩ | ⟨_, e1 | e1⟩
    · obtain ⟨r2, c2, p2, q2, qn2, e2, hq2, hqn2, hmem2⟩ := ih
      rw [e1] at e2
      simp only [QModelIndex.mk.injEq] at e2
      obtain ⟨_, _, e3⟩ := e2
      subst e3
      rcases hmem2 with h2 | h2
      · exact Live.dir hq2 hqn2 h2
      · exact Live.file hq2 hqn2 h2
    · exact Live.root e1
    · exact Live.tmp e1

theorem ValidIndex.node_live {m : FileTreeModel} {r c p : Nat}
    (hv : ValidIndex m (.mk r c p)) : Live m p := by
  obtain ⟨r1, c1, p1, q, qn, e, hq, hqn, hmem⟩ := hv.parent_live
  simp only [QModelIndex.mk.injEq] at e
  obtain ⟨_, _, e3⟩ := e
  subst e3
  rcases hmem with h2 | h2
  · exact Live.dir hq hqn h2
  · exact Live.file hq hqn h2

end FileTreeModel


namespace FileTreeModel

/-! ## The chain of new directories that an insertion hangs into the tree -/

/-- The chain starts: a new directory `x` is put into the `dirs` of the old node `P`. -/
theorem Hung.hung_start (lt : QString → QString → Bool) {m M : FileTreeModel} {P : Nat}
    {pn x : Node} {ns : List QString} (hP : deref m P = some pn)
    (hns : namesOf m pn.dirs = some ns) (hxp : x.parent = some P) (hxd : x.dirs = [])
    (hxf : x.files = [])
    (hd : ∀ p, deref M p =
      if p = P then
        some { pn with dirs := insertAt m.nodes.length (lowerBound lt x.fileName ns) pn.dirs }
      else if p = m.nodes.length then some x else deref m p)
    (hlen : M.nodes.length = m.nodes.length + 1) (hroot : M.m_root = m.m_root)
    (htmp : M.m_tmpdir = m.m_tmpdir) : Hung lt m M P m.nodes.length m.nodes.length := by
  have hPl := deref_lt hP
  have hx : deref M m.nodes.length = some x := by
    rw [hd, if_neg (by omega), if_pos rfl]
  exact {
    len := hlen
    top_eq := rfl
    top_le := Nat.le_refl _
    root_eq := hroot
    tmp_eq := htmp
    keep := fun p hp hpP => by rw [hd, if_neg hpP, if_neg (by omega)]
    hang := ⟨pn, x, ns, hP, hns, hx, hxp, by rw [hd, if_pos rfl]⟩
    chain_parent := fun k h1 h2 => by omega
    chain_sole := fun k h1 h2 => by omega
    fresh := ⟨x, hx, hxd, hxf⟩ }

/-- The chain grows: a new directory `x` becomes the only child of `cur`. -/
theorem Hung.hung_step {lt : QString → QString → Bool} {m mA M : FileTreeModel} {P top cur : Nat}
    {c x : Node} (h : Hung lt m mA P top cur) (hc : deref mA cur = some c)
    (hxp : x.parent = some cur) (hxd : x.dirs = []) (hxf : x.files = [])
    (hd : ∀ p, deref M p =
      if p = cur then some { c with dirs := [mA.nodes.length] }
      else if p = mA.nodes.length then some x else deref mA p)
    (hlen : M.nodes.length = mA.nodes.length + 1) (hroot : M.m_root = mA.m_root)
    (htmp : M.m_tmpdir = mA.m_tmpdir) : Hung lt m M P top mA.nodes.length := by
  obtain ⟨c0, hc0, hcd, hcf⟩ := h.fresh
  rw [hc] at hc0; cases hc0
  obtain ⟨pn, tn, ns, hP, hns, htn, htp, hPM⟩ := h.hang
  have hPl := deref_lt hP
  have hlenA := h.len
  have htop := h.top_eq
  have htl := h.top_le
  have hx : deref M mA.nodes.length = some x := by
    rw [hd, if_neg (by omega), if_pos rfl]
  have hcur : deref M cur = some { c with dirs := [mA.nodes.length] } := by
    rw [hd, if_pos rfl]
  exact {
    len := hlen
    top_eq := htop
    top_le := by omega
    root_eq := by rw [hroot, h.root_eq]
    tmp_eq := by rw [htmp, h.tmp_eq]
    keep := fun p hp hpP => by
      rw [hd, if_neg (by omega), if_neg (by omega)]
      exact h.keep p hp hpP
    hang := by
      by_cases e : top = cur
      · refine ⟨pn, { c with dirs := [mA.nodes.length] }, ns, hP, hns, by rw [e]; exact hcur,
          ?_, ?_⟩
        · rw [e, hc] at htn; cases htn; exact htp
        · rw [hd, if_neg (by omega), if_neg (by omega)]
          rw [e, hc] at htn; cases htn
          exact hPM
      · refine ⟨pn, tn, ns, hP, hns, ?_, htp, ?_⟩
        · rw [hd, if_neg e, if_neg (by omega)]; exact htn
        · rw [hd, if_neg (by omega), if_neg (by omega)]; exact hPM
    chain_parent := fun k h1 h2 => by
      by_cases e : k = mA.nodes.length
      · refine ⟨x, by rw [e]; exact hx, ?_⟩
        rw [hxp, e]
        congr 1
        omega
      · by_cases e2 : k = cur
        · obtain ⟨n, hn, hnp⟩ := h.chain_parent k h1 (by omega)
          rw [e2, hc] at hn; cases hn
          exact ⟨{ c with dirs := [mA.nodes.length] }, by rw [e2]; exact hcur, hnp⟩
        · obtain ⟨n, hn, hnp⟩ := h.chain_parent k h1 (by omega)
          exact ⟨n, by rw [hd, if_neg e2, if_neg e]; exact hn, hnp⟩
    chain_sole := fun k h1 h2 => by
      by_cases e2 : k = cur
      · exact ⟨{ c with dirs := [mA.nodes.length] }, by rw [e2]; exact hcur,
          by simp [Node.childCount, hcf]⟩
      · obtain ⟨n, hn, hns1⟩ := h.chain_sole k h1 (by omega)
        exact ⟨n, by rw [hd, if_neg e2, if_neg (by omega)]; exact hn, hns1⟩
    fresh := ⟨x, hx, hxd, hxf⟩ }

end FileTreeModel


namespace FileTreeModel

/-! ## What the loops of `insertFile` add -/

theorem find_nil (lt : QString → QString → Bool) (x : QString) : find lt [] x = none := by
  simp [find, lowerBound]

/-- The loop of lines 93-106 from a new directory: it extends the chain. -/
theorem descendLoop_hung {lt : QString → QString → Bool} {m : FileTreeModel} {P top : Nat}
    (parts : List QString) :
    ∀ (mA : FileTreeModel) (cur : Nat) (idx : QModelIndex) (m1 : FileTreeModel) (cur1 : Nat)
      (idx1 : QModelIndex), Hung lt m mA P top cur →
      descendLoop lt mA cur idx parts = some (m1, cur1, idx1) → Hung lt m m1 P top cur1 := by
  induction parts with
  | nil =>
    intro mA cur idx m1 cur1 idx1 h he
    simp only [descendLoop, Option.some.injEq, Prod.mk.injEq] at he
    obtain ⟨rfl, rfl, _⟩ := he
    exact h
  | cons part rest ih =>
    intro mA cur idx m1 cur1 idx1 h he
    obtain ⟨c, hc, hcd, hcf⟩ := h.fresh
    have hcl := deref_lt hc
    have hns : namesOf mA c.dirs = some [] := by rw [hcd]; rfl
    have hpos : lowerBound lt part [] ≤ c.dirs.length := by simp [lowerBound]
    have e1 := dirsAddAt_alloc
      (m := emit mA (.beginInsertRows idx ((lowerBound lt part [] : Nat) : Int)
        ((lowerBound lt part [] : Nat) : Int)))
      (mkDir part (c.path ++ '/' :: part) (some cur))
      (show deref (emit mA _) cur = some c from hc) hpos
    simp only [emit_nodes] at e1
    simp only [descendLoop, Option.bind_eq_bind, Option.some_bind, hc, hns, find_nil, insIndex,
      alloc_snd, emit_nodes, e1] at he
    rw [Option.bind_eq_some] at he
    obtain ⟨idx2, _, he⟩ := he
    refine ih _ _ _ _ _ _ ?_ he
    have hstep := Hung.hung_step (M := emit (attachedDir (emit mA (.beginInsertRows idx
        ((lowerBound lt part [] : Nat) : Int) ((lowerBound lt part [] : Nat) : Int))) cur c
        (mkDir part (c.path ++ '/' :: part) (some cur)) (lowerBound lt part []))
        .endInsertRows) h hc (x := mkDir part (c.path ++ '/' :: part) (some cur)) rfl rfl rfl
      (by
        intro p
        rw [deref_emit, deref_attachedDir _ _ _ _ _ (by simpa using hcl)]
        simp [hcd, insertAt, lowerBound])
      (by simp) rfl rfl
    exact hstep

/-- The loop of lines 143-147 from a new directory: it extends the chain. -/
theorem branchLoop_hung {lt : QString → QString → Bool} {m : FileTreeModel} {P top : Nat}
    (parts : List QString) :
    ∀ (mA : FileTreeModel) (cur : Nat) (idx : QModelIndex) (m1 : FileTreeModel) (cur1 : Nat)
      (idx1 : QModelIndex), Hung lt m mA P top cur →
      branchLoop lt mA cur idx parts = some (m1, cur1, idx1) → Hung lt m m1 P top cur1 := by
  induction parts with
  | nil =>
    intro mA cur idx m1 cur1 idx1 h he
    simp only [branchLoop, Option.some.injEq, Prod.mk.injEq] at he
    obtain ⟨rfl, rfl, _⟩ := he
    exact h
  | cons part rest ih =>
    intro mA cur idx m1 cur1 idx1 h he
    obtain ⟨c, hc, hcd, hcf⟩ := h.fresh
    have hcl := deref_lt hc
    have hns : namesOf mA c.dirs = some [] := by rw [hcd]; rfl
    have hpos : lowerBound lt part [] ≤ c.dirs.length := by simp [lowerBound]
    have e1 := dirsAddAt_alloc (mkDir part (c.path ++ '/' :: part) (some cur)) hc hpos
    simp only [branchLoop, Option.bind_eq_bind, Option.some_bind, hc, hns, insIndex,
      alloc_snd, e1] at he
    rw [Option.bind_eq_some] at he
    obtain ⟨idx2, _, he⟩ := he
    refine ih _ _ _ _ _ _ ?_ he
    exact Hung.hung_step (M := attachedDir mA cur c
        (mkDir part (c.path ++ '/' :: part) (some cur)) (lowerBound lt part []))
      h hc (x := mkDir part (c.path ++ '/' :: part) (some cur)) rfl rfl rfl
      (by
        intro p
        rw [deref_attachedDir _ _ _ _ _ hcl]
        simp [hcd, insertAt, lowerBound])
      (by simp) rfl rfl

/-- The loop of lines 143-147 from an old directory, with at least one part: it hangs a
chain into that directory. -/
theorem branchLoop_delta {lt : QString → QString → Bool} {m : FileTreeModel} {P : Nat}
    {pn : Node} (part : QString) (rest : List QString) (idx : QModelIndex)
    {m1 : FileTreeModel} {cur1 : Nat} {idx1 : QModelIndex} (hP : deref m P = some pn)
    (he : branchLoop lt m P idx (part :: rest) = some (m1, cur1, idx1)) :
    Hung lt m m1 P m.nodes.length cur1 := by
  have hPl := deref_lt hP
  simp only [branchLoop, Option.bind_eq_bind, Option.some_bind, hP, insIndex, alloc_snd] at he
  rw [Option.bind_eq_some] at he
  obtain ⟨ns, hns, he⟩ := he
  have hpos : lowerBound lt part ns ≤ pn.dirs.length := by
    rw [← namesOf_length hns]; exact lowerBound_le _ _ _
  have e1 := dirsAddAt_alloc (mkDir part (pn.path ++ '/' :: part) (some P)) hP hpos
  simp only [e1, Option.some_bind] at he
  rw [Option.bind_eq_some] at he
  obtain ⟨idx2, _, he⟩ := he
  refine branchLoop_hung rest _ _ _ _ _ _ ?_ he
  have := Hung.hung_start lt (M := attachedDir m P pn
      (mkDir part (pn.path ++ '/' :: part) (some P)) (lowerBound lt part ns))
    hP hns (x := mkDir part (pn.path ++ '/' :: part) (some P)) rfl rfl rfl
    (by intro p; rw [deref_attachedDir _ _ _ _ _ hPl]; rfl) (by simp) rfl rfl
  simpa using this

/-- The loop of lines 93-106 from an old directory: either nothing is added and the
cursor ends at an old directory, or a chain is hung into an old directory. -/
theorem descendLoop_delta {lt : QString → QString → Bool} {m : FileTreeModel}
    (inv : Inv lt m none) (parts : List QString) :
    ∀ (cur : Nat) (idx : QModelIndex) (m1 : FileTreeModel) (cur1 : Nat) (idx1 : QModelIndex),
      CurOK m cur → descendLoop lt m cur idx parts = some (m1, cur1, idx1) →
      (m1 = m ∧ CurOK m cur1) ∨ ∃ P, CurOK m P ∧ Hung lt m m1 P m.nodes.length cur1 := by
  induction parts with
  | nil =>
    intro cur idx m1 cur1 idx1 hcur he
    simp only [descendLoop, Option.some.injEq, Prod.mk.injEq] at he
    obtain ⟨rfl, rfl, _⟩ := he
    exact Or.inl ⟨rfl, hcur⟩
  | cons part rest ih =>
    intro cur idx m1 cur1 idx1 hcur he
    obtain ⟨c, hc, hcd, hcp⟩ := hcur
    have hcl := deref_lt hc
    obtain ⟨ns, hns⟩ := inv.namesOf_dirs hc
    cases hfind : find lt ns part with
    | none =>
      right
      refine ⟨cur, ⟨c, hc, hcd, hcp⟩, ?_⟩
      have hpos : lowerBound lt part ns ≤ c.dirs.length := by
        rw [← namesOf_length hns]; exact lowerBound_le _ _ _
      have e1 := dirsAddAt_alloc
        (m := emit m (.beginInsertRows idx ((lowerBound lt part ns : Nat) : Int)
          ((lowerBound lt part ns : Nat) : Int)))
        (mkDir part (c.path ++ '/' :: part) (some cur))
        (show deref (emit m _) cur = some c from hc) hpos
      simp only [emit_nodes] at e1
      simp only [descendLoop, Option.bind_eq_bind, Option.some_bind, hc, hns, hfind, insIndex,
        alloc_snd, emit_nodes, e1] at he
      rw [Option.bind_eq_some] at he
      obtain ⟨idx2, _, he⟩ := he
      refine descendLoop_hung rest _ _ _ _ _ _ ?_ he
      have := Hung.hung_start lt (M := emit (attachedDir (emit m (.beginInsertRows idx
          ((lowerBound lt part ns : Nat) : Int) ((lowerBound lt part ns : Nat) : Int))) cur c
          (mkDir part (c.path ++ '/' :: part) (some cur)) (lowerBound lt part ns))
          .endInsertRows)
        hc hns (x := mkDir part (c.path ++ '/' :: part) (some cur)) rfl rfl rfl
        (by
          intro p
          rw [deref_emit, deref_attachedDir _ _ _ _ _ (by simpa using hcl)]
          rfl)
        (by simp) rfl rfl
      simpa using this
    | some it =>
      obtain ⟨_, hit⟩ := find_some hfind
      obtain ⟨d, dn, hd, hdn, _⟩ := namesOf_getElem?_inv hns hit
      obtain ⟨dn1, hdn1, hdd, hdp⟩ := inv.dirs_ok cur c d hc (List.getElem?_mem hd)
      simp only [descendLoop, Option.bind_eq_bind, Option.some_bind, hc, hns, hfind, hd] at he
      rw [Option.bind_eq_some] at he
      obtain ⟨idx2, _, he⟩ := he
      exact ih d idx2 m1 cur1 idx1 ⟨dn1, hdn1, hdd, Or.inr ⟨cur, hdp⟩⟩ he

/-- The loops of lines 80-82 and 134-136 from a new directory without children that is
the last node of the arena: the new directories are a chain of only children. -/
theorem chainLoop_chain {lt : QString → QString → Bool} (parts : List QString) :
    ∀ (m : FileTreeModel) (cur : Nat) (c : Node) (m1 : FileTreeModel) (cur1 : Nat),
      deref m cur = some c → c.isDir = true → c.dirs = [] → c.files = [] →
      m.nodes.length = cur + 1 → chainLoop lt m cur parts = some (m1, cur1) →
      cur ≤ cur1 ∧ (∀ p, p < cur → deref m1 p = deref m p) ∧ SoleChain m1 cur cur1 := by
  induction parts with
  | nil =>
    intro m cur c m1 cur1 hc _ _ _ _ he
    simp only [chainLoop, Option.some.injEq, Prod.mk.injEq] at he
    obtain ⟨rfl, rfl⟩ := he
    exact ⟨Nat.le_refl _, fun _ _ => rfl, fun k h1 h2 => absurd h1 (by omega)⟩
  | cons part rest ih =>
    intro m cur c m1 cur1 hc hcdir hcd hcf hlen he
    have hcl := deref_lt hc
    have hns : namesOf m c.dirs = some [] := by rw [hcd]; rfl
    have e1 := dirsAdd_alloc lt (mkDir part (c.path ++ '/' :: part) (some cur)) hc hns
    simp only [chainLoop, Option.bind_eq_bind, Option.some_bind, hc, alloc_snd] at he
    erw [e1] at he
    simp only [Option.some_bind] at he
    have hd := deref_attachedDir m cur c (mkDir part (c.path ++ '/' :: part) (some cur))
      (lowerBound lt part []) hcl
    have hnew := hd m.nodes.length
    rw [if_neg (by omega), if_pos rfl] at hnew
    obtain ⟨h1, h2, h3⟩ := ih _ _ _ _ _ hnew rfl rfl rfl (by simp) he
    refine ⟨by omega, fun p hp => ?_, fun k hk1 hk2 => ?_⟩
    · rw [h2 p (by omega), hd p, if_neg (by omega), if_neg (by omega)]
    · by_cases hk : k = cur
      · subst hk
        rw [h2 k (by omega), hd k, if_pos rfl]
        exact ⟨_, rfl, hcdir, by simp [hcd, insertAt, lowerBound, hlen], hcf⟩
      · obtain ⟨n, hn, hn1, hn2, hn3⟩ := h3 k (by omega) hk2
        exact ⟨n, hn, hn1, hn2, hn3⟩

end FileTreeModel


namespace FileTreeModel

/-! ## `removeIndex` of the index that `insertFile` has just returned -/

theorem node_eta (c : Node) :
    ({ c with files := c.files } : Node) = c ∧ ({ c with dirs := c.dirs } : Node) = c := by
  cases c; exact ⟨rfl, rfl⟩

/-- The new file went into a directory that had a child already: `removeIndex` takes it
out of `files` again, and every node is as it was before the file was attached. -/
theorem undo_file {lt : QString → QString → Bool} (hlt : StrictWeak lt)
    {m0 M : FileTreeModel} {cur row col : Nat} {c x : Node} {ns : List QString}
    {pidx : QModelIndex} (good : Good lt M) (hc : deref m0 cur = some c)
    (hcount : 1 ≤ c.childCount) (hns : namesOf m0 c.files = some ns)
    (hx : x.isDir = false) (hxp : x.parent = some cur)
    (hd : ∀ p, deref M p =
      if p = cur then
        some { c with files := insertAt m0.nodes.length (lowerBound lt x.fileName ns) c.files }
      else if p = m0.nodes.length then some x else deref m0 p)
    (hpar : parent lt M (.mk row col m0.nodes.length) = some pidx) :
    ∃ m2, removeIndex lt M (.mk row col m0.nodes.length) = some (m2, true) ∧
      m2.m_root = M.m_root ∧ m2.m_tmpdir = M.m_tmpdir ∧
      ∀ p, p < m0.nodes.length → deref m2 p = deref m0 p := by
  have inv := good.inv
  have hcl := deref_lt hc
  have hf : deref M m0.nodes.length = some x := by
    rw [hd, if_neg (by omega), if_pos rfl]
  have hpos : lowerBound lt x.fileName ns ≤ c.files.length := by
    rw [← namesOf_length hns]; exact lowerBound_le _ _ _
  have hcurM : deref M cur = some
      { c with files := insertAt m0.nodes.length (lowerBound lt x.fileName ns) c.files } := by
    rw [hd, if_pos rfl]
  have hMl := deref_lt hcurM
  have htop : PruneTop M m0.nodes.length m0.nodes.length :=
    PruneTop.many hf hxp hcurM (by
      simp only [Node.childCount, insertAt_length _ _ _ hpos] at hcount ⊢
      omega)
  obtain ⟨rk, hrk, hbound⟩ := good.ranked.bounded inv
  obtain ⟨idxA, fA, hl, _, hres⟩ :=
    pruneLoop_top inv hrk htop (fun an h0 hnone => by
      rw [hf] at h0; cases h0; rw [hxp] at hnone; cases hnone)
      M.nodes.length (.mk row col m0.nodes.length) (!x.isDir) (hbound _ (deref_lt hf))
      (Or.inl ⟨row, col, rfl⟩)
  obtain ⟨hidx, hfA⟩ : idxA = .mk row col m0.nodes.length ∧ fA = true := by
    rcases hres with ⟨_, e2, e3⟩ | ⟨_, c1, cn, _, _, hc1, hc1p, _⟩
    · exact ⟨e2, by rw [e3, hx]; rfl⟩
    · obtain ⟨y, hy, hyd⟩ := inv.parent_ok c1 cn _ hc1 hc1p
      rw [hf] at hy; cases hy
      rw [hx] at hyd; cases hyd
  subst hidx; subst hfA
  have hnr : M.m_root ≠ some m0.nodes.length := by
    intro e
    obtain ⟨y, hy, hyd, _⟩ := inv.root_ok _ e
    rw [hf] at hy; cases hy
    rw [hx] at hyd; cases hyd
  have hnt : M.m_tmpdir ≠ some m0.nodes.length := by
    intro e
    obtain ⟨y, hy, hyd, _⟩ := inv.tmp_ok _ e
    rw [hf] at hy; cases hy
    rw [hx] at hyd; cases hyd
  have hnames0 : namesOf M c.files = some ns := by
    rw [← hns]
    apply namesOf_congr
    intro q hq
    have hqs : ∃ qn, deref m0 q = some qn := by
      have h1 := namesOf_eq_some.mp hns
      obtain ⟨i, hi⟩ := List.getElem?_of_mem hq
      obtain ⟨qn, h2, _⟩ := namesOf_getElem? hns hi
      exact ⟨qn, h2⟩
    obtain ⟨qn, hqn⟩ := hqs
    have hql := deref_lt hqn
    rw [hd]
    by_cases e : q = cur
    · subst e
      rw [if_pos rfl, hc]; rfl
    · rw [if_neg e, if_neg (by omega)]
  have hnsM : namesOf M ({ c with files := (insertAt m0.nodes.length
      (lowerBound lt x.fileName ns) c.files) } : Node).files
      = some (insertAt x.fileName (lowerBound lt x.fileName ns) ns) :=
    namesOf_insertAt _ hnames0 hf
  have hfind := find_insert hlt.irrefl x.fileName ns
  refine ⟨_, removeIndex_take_file hf hl hnr hnt hf hxp hcurM hnsM hfind hpar, rfl, rfl, ?_⟩
  intro p hp
  rw [deref_emit, deref_delete, deref_store]
  by_cases e : p = cur
  · subst e
    rw [if_pos rfl]
    simp only [emit_length, hMl, if_true, insertAt_eraseIdx _ _ _ hpos]
    rw [hc, (node_eta c).1]
  · rw [if_neg e, deref_emit, hd, if_neg e, if_neg (by omega)]

/-- The new file went into the last directory of a chain of new directories:
`removeIndex` takes the top of the chain out of the `dirs` of the old node it hangs in,
and every old node is as it was before the chain was made. -/
theorem undo_chain {lt : QString → QString → Bool} (hlt : StrictWeak lt)
    {m m0 M : FileTreeModel} {P top cur row col : Nat} {c x : Node}
    (good : Good lt M) (hung : Hung lt m m0 P top cur) (hc : deref m0 cur = some c)
    (hPok : ∀ pn, deref m P = some pn →
      1 ≤ pn.childCount ∧ (M.m_root = some P ∨ ∃ gp, pn.parent = some gp))
    (hxp : x.parent = some cur)
    (hd : ∀ p, deref M p =
      if p = cur then some { c with files := [m0.nodes.length] }
      else if p = m0.nodes.length then some x else deref m0 p) :
    ∃ m2, removeIndex lt M (.mk row col m0.nodes.length) = some (m2, true) ∧
      m2.m_root = M.m_root ∧ m2.m_tmpdir = M.m_tmpdir ∧
      ∀ p, p < m.nodes.length → deref m2 p = deref m p := by
  have inv := good.inv
  obtain ⟨c0, hc0, hcd, hcf⟩ := hung.fresh
  rw [hc] at hc0; cases hc0
  obtain ⟨pn, tn, ns, hP, hns, htn, htp, hPm0⟩ := hung.hang
  obtain ⟨hpcount, hppar⟩ := hPok pn hP
  have hPl := deref_lt hP
  have hlen := hung.len
  have htop_eq := hung.top_eq
  have htl := hung.top_le
  have hf : deref M m0.nodes.length = some x := by
    rw [hd, if_neg (by omega), if_pos rfl]
  have hcurM : deref M cur = some { c with files := [m0.nodes.length] } := by
    rw [hd, if_pos rfl]
  have hother : ∀ p, p < cur → deref M p = deref m0 p := by
    intro p hp
    rw [hd, if_neg (by omega), if_neg (by omega)]
  have hpos : lowerBound lt tn.fileName ns ≤ pn.dirs.length := by
    rw [← namesOf_length hns]; exact lowerBound_le _ _ _
  have hPM : deref M P = some
      { pn with dirs := insertAt top (lowerBound lt tn.fileName ns) pn.dirs } := by
    rw [hother P (by omega)]; exact hPm0
  -- the node of `top` in `M`
  obtain ⟨tnM, htnM, htnMp, htnMn⟩ : ∃ tnM, deref M top = some tnM ∧
      tnM.parent = some P ∧ tnM.fileName = tn.fileName := by
    by_cases e : top = cur
    · rw [e, hc] at htn; cases htn
      exact ⟨{ c with files := [m0.nodes.length] }, by rw [e]; exact hcurM, htp, rfl⟩
    · exact ⟨tn, by rw [hother top (by omega)]; exact htn, htp, rfl⟩
  have hstop : PruneTop M top top :=
    PruneTop.many htnM htnMp hPM (by
      simp only [Node.childCount, insertAt_length _ _ _ hpos] at hpcount ⊢
      omega)
  have hchain : ∀ j, top + j ≤ cur → PruneTop M (top + j) top := by
    intro j
    induction j with
    | zero => intro _; exact hstop
    | succ j ih =>
      intro hj
      obtain ⟨n, hn, hnp⟩ := hung.chain_parent (top + (j + 1)) (by omega) hj
      obtain ⟨q, hq, hqc⟩ := hung.chain_sole (top + j) (by omega) (by omega)
      have hnM : ∃ nM, deref M (top + (j + 1)) = some nM ∧ nM.parent = some (top + j) := by
        by_cases e : top + (j + 1) = cur
        · rw [e, hc] at hn; cases hn
          refine ⟨_, by rw [e]; exact hcurM, ?_⟩
          rw [e] at hnp
          simp only [hnp]
          congr 1
          omega
        · refine ⟨n, by rw [hother _ (by omega)]; exact hn, ?_⟩
          rw [hnp]; congr 1
      obtain ⟨nM, hnM1, hnM2⟩ := hnM
      exact PruneTop.climb hnM1 hnM2 (by rw [hother _ (by omega)]; exact hq) hqc
        (ih (by omega))
  have hcurtop : PruneTop M cur top := by
    have := hchain (cur - top) (by omega)
    rwa [show top + (cur - top) = cur by omega] at this
  have htop : PruneTop M m0.nodes.length top :=
    PruneTop.climb hf hxp hcurM (by simp [Node.childCount, hcd]) hcurtop
  obtain ⟨rk, hrk, hbound⟩ := good.ranked.bounded inv
  obtain ⟨idxA, fA, hl, hidxA, hres⟩ :=
    pruneLoop_top inv hrk htop (fun an h0 hnone => by
      rw [htnM] at h0; cases h0; rw [htnMp] at hnone; cases hnone)
      M.nodes.length (.mk row col m0.nodes.length) (!x.isDir) (hbound _ (deref_lt hf))
      (Or.inl ⟨row, col, rfl⟩)
  have hfA : fA = false := by
    rcases hres with ⟨e, _, _⟩ | ⟨e, _⟩
    · omega
    · exact e
  subst hfA
  have hnr : M.m_root ≠ some top := by
    intro e
    obtain ⟨y, hy, _, hyp⟩ := inv.root_ok _ e
    rw [htnM] at hy; cases hy
    rw [htnMp] at hyp; cases hyp
  have hnt : M.m_tmpdir ≠ some top := by
    intro e
    obtain ⟨y, hy, _, hyp, _⟩ := inv.tmp_ok _ e
    rw [htnM] at hy; cases hy
    rw [htnMp] at hyp; cases hyp
  obtain ⟨rA, cA, hidx⟩ : ∃ rA cA, idxA = .mk rA cA top := by
    rcases hidxA with e | ⟨_, e | e⟩
    · exact e
    · exact absurd e hnr
    · exact absurd e hnt
  subst hidx
  have hnames0 : namesOf M pn.dirs = some ns := by
    rw [← hns]
    apply namesOf_congr
    intro q hq
    obtain ⟨i, hi⟩ := List.getElem?_of_mem hq
    obtain ⟨qn, hqn, _⟩ := namesOf_getElem? hns hi
    have hql := deref_lt hqn
    by_cases e : q = P
    · subst e
      rw [hPM, hP]; rfl
    · rw [hother q (by omega), hung.keep q hql e]
  have hnsM : namesOf M ({ pn with
      dirs := (insertAt top (lowerBound lt tn.fileName ns) pn.dirs) } : Node).dirs
      = some (insertAt tnM.fileName (lowerBound lt tn.fileName ns) ns) :=
    namesOf_insertAt _ hnames0 htnM
  have hfind : find lt (insertAt tnM.fileName (lowerBound lt tn.fileName ns) ns)
      tnM.fileName = some (lowerBound lt tn.fileName ns) := by
    rw [htnMn]; exact find_insert hlt.irrefl tn.fileName ns
  obtain ⟨pidx, hpidx, _⟩ := parent_of_child inv rA cA htnM htnMp hPM (by
    intro h1 _
    rcases hppar with e | e
    · exact absurd e h1
    · exact e)
  refine ⟨_, removeIndex_take_dir hf hl hnr hnt htnM htnMp hPM hnsM hfind hpidx, rfl, rfl, ?_⟩
  intro p hp
  rw [deref_emit, deref_delete, deref_store]
  by_cases e : p = P
  · subst e
    rw [if_pos rfl]
    simp only [emit_length, deref_lt hPM, if_true, insertAt_eraseIdx _ _ _ hpos]
    rw [hP, (node_eta pn).2]
  · rw [if_neg e, deref_emit, hother p (by omega)]
    exact hung.keep p hp e

/-- The new file is the only child of a new main root: `removeIndex` drops the root. -/
theorem undo_new_root {lt : QString → QString → Bool} {M : FileTreeModel}
    {cur f row col : Nat} {c x : Node} (good : Good lt M) (hroot : M.m_root = some cur)
    (hcur : deref M cur = some c) (hcc : c.childCount = 1) (hf : deref M f = some x)
    (hxp : x.parent = some cur) :
    ∃ m2, removeIndex lt M (.mk row col f) = some (m2, true) ∧
      m2.m_root = none ∧ m2.m_tmpdir = M.m_tmpdir ∧ ∀ p, deref m2 p = deref M p := by
  have inv := good.inv
  obtain ⟨y, hy, _, hyp⟩ := inv.root_ok _ hroot
  rw [hcur] at hy; cases hy
  have htop : PruneTop M f cur :=
    PruneTop.climb hf hxp hcur hcc (PruneTop.root hcur hyp)
  obtain ⟨rk, hrk, hbound⟩ := good.ranked.bounded inv
  obtain ⟨idxA, fA, hl, _, _⟩ :=
    pruneLoop_top inv hrk htop (fun _ _ _ => Or.inl hroot)
      M.nodes.length (.mk row col f) (!x.isDir) (hbound _ (deref_lt hf))
      (Or.inl ⟨row, col, rfl⟩)
  exact ⟨_, removeIndex_root hf hl hroot, rfl, rfl, fun p => rfl⟩

/-- The new file is the only child of a new scratch root: `removeIndex` drops it. -/
theorem undo_new_tmp {lt : QString → QString → Bool} {M : FileTreeModel}
    {cur f row col : Nat} {c x : Node} (good : Good lt M) (htmp : M.m_tmpdir = some cur)
    (hcur : deref M cur = some c) (hcc : c.childCount = 1) (hf : deref M f = some x)
    (hxp : x.parent = some cur) :
    ∃ m2, removeIndex lt M (.mk row col f) = some (m2, true) ∧
      m2.m_root = M.m_root ∧ m2.m_tmpdir = none ∧ ∀ p, deref m2 p = deref M p := by
  have inv := good.inv
  obtain ⟨y, hy, _, hyp, _⟩ := inv.tmp_ok _ htmp
  rw [hcur] at hy; cases hy
  have hnr : M.m_root ≠ some cur := fun e => inv.root_ne_tmp cur e htmp
  have htop : PruneTop M f cur :=
    PruneTop.climb hf hxp hcur hcc (PruneTop.root hcur hyp)
  obtain ⟨rk, hrk, hbound⟩ := good.ranked.bounded inv
  obtain ⟨idxA, fA, hl, _, _⟩ :=
    pruneLoop_top inv hrk htop (fun _ _ _ => Or.inr htmp)
      M.nodes.length (.mk row col f) (!x.isDir) (hbound _ (deref_lt hf))
      (Or.inl ⟨row, col, rfl⟩)
  obtain ⟨rc, hrc⟩ := rootChildCount_exists inv
  exact ⟨_, removeIndex_tmp hf hl hnr htmp hrc hcur, rfl, rfl, fun p => rfl⟩

theorem Descends.to_live {m : FileTreeModel} {a b : Nat} {segs : List QString}
    (h : Descends m a segs b) (ha : Live m a) : Live m b := by
  induction h with
  | here a => exact ha
  | down hn hc _ _ _ ih => exact ih (Live.dir ha hn hc)

/-- `undo_file` for the state that the last lines of `insertFile` build. -/
theorem undo_post_file {lt : QString → QString → Bool} (hlt : StrictWeak lt)
    {m m0 : FileTreeModel} {cur row : Nat} {c : Node} {ns : List QString} (e1 e2 : Event)
    (fileName filePath : QString) (data : Nat) (displayName : QString)
    (hpost : BranchPost lt m (emit (attachedFile (emit m0 e1) cur c
        (mkFile fileName filePath (some cur) data displayName) (lowerBound lt fileName ns))
        e2) (.mk row 0 m0.nodes.length) cur fileName filePath data displayName)
    (hc : deref m0 cur = some c) (hcount : 1 ≤ c.childCount)
    (hns : namesOf m0 c.files = some ns) :
    ∃ m2, removeIndex lt (emit (attachedFile (emit m0 e1) cur c
        (mkFile fileName filePath (some cur) data displayName) (lowerBound lt fileName ns))
        e2) (.mk row 0 m0.nodes.length) = some (m2, true) ∧
      m2.m_root = m0.m_root ∧ m2.m_tmpdir = m0.m_tmpdir ∧
      ∀ p, p < m0.nodes.length → deref m2 p = deref m0 p := by
  obtain ⟨row1, P, e, hpar, _⟩ := hpost.handle
  exact undo_file hlt hpost.good hc hcount hns
    (x := mkFile fileName filePath (some cur) data displayName) rfl rfl
    (fun p => deref_finish m0 e1 e2 cur c _ _ (deref_lt hc) p) hpar

/-- `undo_chain` for the state that the last lines of `insertFile` build. -/
theorem undo_post_chain {lt : QString → QString → Bool} (hlt : StrictWeak lt)
    {m mB m0 : FileTreeModel} {P top cur row : Nat} {c : Node} (e1 e2 : Event)
    (fileName filePath : QString) (data : Nat) (displayName : QString)
    (hpost : BranchPost lt m (emit (attachedFile (emit m0 e1) cur c
        (mkFile fileName filePath (some cur) data displayName) (lowerBound lt fileName []))
        e2) (.mk row 0 m0.nodes.length) cur fileName filePath data displayName)
    (hung : Hung lt mB m0 P top cur) (hc : deref m0 cur = some c)
    (hPok : ∀ pn, deref mB P = some pn →
      1 ≤ pn.childCount ∧ (m0.m_root = some P ∨ ∃ gp, pn.parent = some gp)) :
    ∃ m2, removeIndex lt (emit (attachedFile (emit m0 e1) cur c
        (mkFile fileName filePath (some cur) data displayName) (lowerBound lt fileName []))
        e2) (.mk row 0 m0.nodes.length) = some (m2, true) ∧
      m2.m_root = m0.m_root ∧ m2.m_tmpdir = m0.m_tmpdir ∧
      ∀ p, p < mB.nodes.length → deref m2 p = deref mB p := by
  obtain ⟨c0, hc0, _, hcf⟩ := hung.fresh
  rw [hc] at hc0; cases hc0
  exact undo_chain hlt hpost.good hung hc hPok
    (x := mkFile fileName filePath (some cur) data displayName) rfl
    (fun p => by
      rw [deref_finish m0 e1 e2 cur c _ _ (deref_lt hc) p]
      simp [hcf, insertAt, lowerBound])

end FileTreeModel


namespace FileTreeModel

/-! ## Branches "equal to the root" and "below the root" -/

theorem Cursor.of_good_root {lt : QString → QString → Bool} {m : FileTreeModel} {r : Nat}
    (good : Good lt m) (hr : m.m_root = some r) : Cursor lt m m r .invalid := by
  obtain ⟨rn, hrn, hrd, _⟩ := good.inv.root_ok r hr
  exact {
    frame := Frame.refl m
    ranked := good.ranked
    clean := good.rootClean
    node := ⟨rn, hrn, hrd, fun h => absurd hr h, Or.inl good.inv⟩
    not_tmp := good.inv.root_ne_tmp r hr
    idx_ok := Or.inl ⟨rfl, hr⟩
    tmp_eq := rfl }

theorem finish_cursor {lt : QString → QString → Bool} (hlt : StrictWeak lt)
    {m m0 : FileTreeModel} {cur : Nat} {c : Node} {ns : List QString}
    {idx : QModelIndex} (e1 : Event)
    (fileName filePath : QString) (data : Nat) (displayName : QString)
    (hcur : Cursor lt m m0 cur idx) (hc : deref m0 cur = some c)
    (hns : namesOf m0 c.files = some ns) :
    index (emit (attachedFile (emit m0 e1) cur c
        (mkFile fileName filePath (some cur) data displayName) (lowerBound lt fileName ns))
        .endInsertRows) (c.dirs.length + lowerBound lt fileName ns) 0 idx
      = some (.mk (c.dirs.length + lowerBound lt fileName ns) 0 m0.nodes.length) ∧
    BranchPost lt m (emit (attachedFile (emit m0 e1) cur c
        (mkFile fileName filePath (some cur) data displayName) (lowerBound lt fileName ns))
        .endInsertRows)
      (.mk (c.dirs.length + lowerBound lt fileName ns) 0 m0.nodes.length) cur
      fileName filePath data displayName := by
  obtain ⟨c0, hc0, hcd, hpar, _⟩ := hcur.node
  rw [hc] at hc0; cases hc0
  obtain ⟨hole, inv, hh⟩ := hcur.inv
  obtain ⟨rk, hrk⟩ := hcur.ranked
  exact finish_main hlt e1 fileName filePath data displayName hcur.frame inv hh hrk hcur.clean
    hc hcd hcur.not_tmp hcur.idx_ok hpar hns

/-- Lines 62-69. -/
theorem insertAtRoot_post {lt : QString → QString → Bool} (hlt : StrictWeak lt)
    {m : FileTreeModel} {r : Nat} (filePath fileName : QString) (data : Nat)
    (displayName : QString) (good : Good lt m) (hr : m.m_root = some r) :
    ∃ m1 h, insertAtRoot lt m r filePath fileName data displayName = some (m1, h) ∧
      BranchPost lt m m1 h r fileName filePath data displayName ∧
      m1.m_root = m.m_root ∧ m1.m_tmpdir = m.m_tmpdir ∧
      ∃ m2, removeIndex lt m1 h = some (m2, true) ∧ Restored m m2 := by
  obtain ⟨rn, hrn, hrd, _⟩ := good.inv.root_ok r hr
  obtain ⟨ns, hns⟩ := good.inv.namesOf_files hrn
  have hcur := Cursor.of_good_root good hr
  obtain ⟨_, hpost⟩ := finish_cursor hlt
    (.beginInsertRows .invalid ((rn.dirs.length + lowerBound lt fileName ns : Nat) : Int)
      ((rn.dirs.length + lowerBound lt fileName ns : Nat) : Int))
    fileName filePath data displayName hcur hrn hns
  obtain ⟨m2, hm2, u1, u2, u3⟩ := undo_post_file hlt _ _ fileName filePath data displayName
    hpost hrn (good.inv.nonempty r rn hrn hrd (by simp)) hns
  exact ⟨_, _, insertAtRoot_eq filePath fileName data displayName hr hrn hrd
    (good.inv.root_ne_tmp r hr) hns, hpost, rfl, rfl, m2, hm2, u1, u2, u3⟩

/-- Lines 88-112. -/
theorem insertBelow_post {lt : QString → QString → Bool} (hlt : StrictWeak lt)
    {m : FileTreeModel} {r : Nat} (fileDir filePath fileName : QString)
    (data : Nat) (displayName : QString) (good : Good lt m) (hr : m.m_root = some r) :
    ∃ m1 h par, insertBelow lt m r fileDir filePath fileName data displayName = some (m1, h) ∧
      BranchPost lt m m1 h par fileName filePath data displayName ∧
      m1.m_root = m.m_root ∧ m1.m_tmpdir = m.m_tmpdir ∧ m1.m_tmpdir ≠ some par ∧
      ∃ m2, removeIndex lt m1 h = some (m2, true) ∧ Restored m m2 := by
  obtain ⟨rn, hrn, hrd, _⟩ := good.inv.root_ok r hr
  have hcur := Cursor.of_good_root good hr
  obtain ⟨m1, cur1, idx1, hloop, hcur1, hroot1⟩ :=
    descendLoop_spec hlt m (splitSlash (mid fileDir rn.path.length)) m r .invalid hcur
  obtain ⟨c, hc, hcd, _, _⟩ := hcur1.node
  obtain ⟨hole, inv, _⟩ := hcur1.inv
  obtain ⟨ns, hns⟩ := inv.namesOf_files hc
  have hpos : lowerBound lt fileName ns ≤ c.files.length := by
    rw [← namesOf_length hns]; exact lowerBound_le _ _ _
  obtain ⟨hi, hpost⟩ := finish_cursor hlt
    (.beginInsertRows idx1 ((c.dirs.length + lowerBound lt fileName ns : Nat) : Int)
      ((c.dirs.length + lowerBound lt fileName ns : Nat) : Int))
    fileName filePath data displayName hcur1 hc hns
  have hundo : ∃ m2, removeIndex lt (emit (attachedFile (emit m1 (.beginInsertRows idx1
      ((c.dirs.length + lowerBound lt fileName ns : Nat) : Int)
      ((c.dirs.length + lowerBound lt fileName ns : Nat) : Int))) cur1 c
      (mkFile fileName filePath (some cur1) data displayName) (lowerBound lt fileName ns))
      .endInsertRows) (.mk (c.dirs.length + lowerBound lt fileName ns) 0 m1.nodes.length)
      = some (m2, true) ∧ Restored m m2 := by
    rcases descendLoop_delta good.inv _ _ _ _ _ _ ⟨rn, hrn, hrd, Or.inl hr⟩ hloop with
      ⟨e, _⟩ | ⟨P, ⟨pn, hP, hPd, hPp⟩, hung⟩
    · subst e
      obtain ⟨m2, hm2, u1, u2, u3⟩ := undo_post_file hlt _ _ fileName filePath data
        displayName hpost hc (good.inv.nonempty cur1 c hc hcd (by simp)) hns
      exact ⟨m2, hm2, u1, u2, u3⟩
    · obtain ⟨c0, hc0, _, hcf⟩ := hung.fresh
      rw [hc] at hc0; cases hc0
      have hns0 : ns = [] := by
        rw [hcf] at hns
        simpa [namesOf] using hns.symm
      subst hns0
      obtain ⟨m2, hm2, u1, u2, u3⟩ := undo_post_chain hlt _ _ fileName filePath data
        displayName hpost hung hc (fun pn0 hpn0 => by
          rw [hP] at hpn0; cases hpn0
          refine ⟨good.inv.nonempty P pn hP hPd (by simp), ?_⟩
          rcases hPp with e | e
          · exact Or.inl (by rw [hroot1]; exact e)
          · exact Or.inr e)
      exact ⟨m2, hm2, by rw [u1, hroot1], by rw [u2]; exact hcur1.tmp_eq, u3⟩
  obtain ⟨m2, hm2, hres⟩ := hundo
  refine ⟨_, _, cur1, ?_, hpost, by simpa using hroot1, by simpa using hcur1.tmp_eq,
    by simpa using hcur1.not_tmp, m2, hm2, hres⟩
  have e1 := filesAddAt_alloc
    (m := emit m1 (.beginInsertRows idx1
      ((c.dirs.length + lowerBound lt fileName ns : Nat) : Int)
      ((c.dirs.length + lowerBound lt fileName ns : Nat) : Int)))
    (mkFile fileName filePath (some cur1) data displayName)
    (show deref (emit m1 _) cur1 = some c from hc) hpos
  simp only [emit_nodes] at e1
  simp only [insertBelow, Option.bind_eq_bind, Option.some_bind, hrn, hloop, hc, hns, insIndex,
    alloc_snd, emit_nodes, e1, hi]

end FileTreeModel


namespace FileTreeModel

/-! ## New roots -/

theorem namesOf_alloc_eq {m : FileTreeModel} {ids : List Nat} (x : Node)
    (h : ∀ p ∈ ids, ∃ n, deref m p = some n) :
    namesOf (alloc m x).1 ids = namesOf m ids := by
  obtain ⟨ns, hns⟩ := namesOf_exists h
  rw [hns, namesOf_alloc x hns]

theorem Inv.allocDir {lt : QString → QString → Bool} {m : FileTreeModel}
    (name path : QString) (inv : Inv lt m none) :
    Inv lt (alloc m (mkDir name path none)).1 (some m.nodes.length) := by
  have hcases : ∀ {p : Nat} {n : Node}, deref (alloc m (mkDir name path none)).1 p = some n →
      (p = m.nodes.length ∧ n = mkDir name path none) ∨
      (p ≠ m.nodes.length ∧ deref m p = some n) := by
    intro p n h
    rw [deref_alloc] at h
    split at h
    · rename_i hp; exact Or.inl ⟨hp, (Option.some.inj h).symm⟩
    · rename_i hp; exact Or.inr ⟨hp, h⟩
  have hold : ∀ {p : Nat} {n : Node}, deref m p = some n →
      deref (alloc m (mkDir name path none)).1 p = some n :=
    fun h => deref_alloc_of_some _ h
  constructor
  · intro r hr
    obtain ⟨n, hn, h1, h2⟩ := inv.root_ok r hr
    exact ⟨n, hold hn, h1, h2⟩
  · intro t ht
    obtain ⟨n, hn, h1, h2, h3⟩ := inv.tmp_ok t ht
    exact ⟨n, hold hn, h1, h2, h3⟩
  · exact inv.root_ne_tmp
  · intro p n c hp hc
    rcases hcases hp with ⟨rfl, rfl⟩ | ⟨_, hp0⟩
    · simp [mkDir] at hc
    · obtain ⟨cn, h1, h2, h3⟩ := inv.dirs_ok p n c hp0 hc
      exact ⟨cn, hold h1, h2, h3⟩
  · intro p n c hp hc
    rcases hcases hp with ⟨rfl, rfl⟩ | ⟨_, hp0⟩
    · simp [mkDir] at hc
    · obtain ⟨cn, h1, h2, h3⟩ := inv.files_ok p n c hp0 hc
      exact ⟨cn, hold h1, h2, h3⟩
  · intro p n hp hf
    rcases hcases hp with ⟨rfl, rfl⟩ | ⟨_, hp0⟩
    · simp [mkDir]
    · exact inv.leaf p n hp0 hf
  · intro p n q hp hq
    rcases hcases hp with ⟨rfl, rfl⟩ | ⟨_, hp0⟩
    · simp [mkDir] at hq
    · obtain ⟨qn, h1, h2⟩ := inv.parent_ok p n q hp0 hq
      exact ⟨qn, hold h1, h2⟩
  · intro p n hp hd hne
    rcases hcases hp with ⟨rfl, rfl⟩ | ⟨_, hp0⟩
    · exact absurd rfl hne
    · exact inv.nonempty p n hp0 hd (by simp)
  · intro p n ns hp hns
    rcases hcases hp with ⟨rfl, rfl⟩ | ⟨_, hp0⟩
    · simp only [mkDir, namesOf, Option.some.injEq] at hns
      subst hns; exact List.Pairwise.nil
    · rw [namesOf_alloc_eq _ (fun q hq => by
        obtain ⟨cn, h, _⟩ := inv.dirs_ok p n q hp0 hq; exact ⟨cn, h⟩)] at hns
      exact inv.sorted_dirs p n ns hp0 hns
  · intro p n ns hp hns
    rcases hcases hp with ⟨rfl, rfl⟩ | ⟨_, hp0⟩
    · simp only [mkDir, namesOf, Option.some.injEq] at hns
      subst hns; exact List.Pairwise.nil
    · rw [namesOf_alloc_eq _ (fun q hq => by
        obtain ⟨cn, h, _⟩ := inv.files_ok p n q hp0 hq; exact ⟨cn, h⟩)] at hns
      exact inv.sorted_files p n ns hp0 hns

theorem Inv.setRoot {lt : QString → QString → Bool} {m : FileTreeModel} {hole : Option Nat}
    {r : Nat} {n : Node} (inv : Inv lt m hole) (hn : deref m r = some n)
    (hd : n.isDir = true) (hp : n.parent = none) (ht : m.m_tmpdir ≠ some r) :
    Inv lt { m with m_root := some r } hole := by
  have hnm : ∀ ids, namesOf { m with m_root := some r } ids = namesOf m ids :=
    fun ids => namesOf_same m { m with m_root := some r } rfl ids
  constructor
  · intro r1 hr1
    simp only [Option.some.injEq] at hr1
    subst hr1
    exact ⟨n, hn, hd, hp⟩
  · exact inv.tmp_ok
  · intro r1 hr1
    simp only [Option.some.injEq] at hr1
    subst hr1
    exact ht
  · exact inv.dirs_ok
  · exact inv.files_ok
  · exact inv.leaf
  · exact inv.parent_ok
  · exact inv.nonempty
  · intro p n ns hp hns
    exact inv.sorted_dirs p n ns hp (by rw [← hns, hnm])
  · intro p n ns hp hns
    exact inv.sorted_files p n ns hp (by rw [← hns, hnm])

theorem Inv.setTmp {lt : QString → QString → Bool} {m : FileTreeModel} {hole : Option Nat}
    {t : Nat} {n : Node} (inv : Inv lt m hole) (hn : deref m t = some n)
    (hd : n.isDir = true) (hp : n.parent = none) (he : n.dirs = [])
    (hr : m.m_root ≠ some t) :
    Inv lt { m with m_tmpdir := some t } hole := by
  have hnm : ∀ ids, namesOf { m with m_tmpdir := some t } ids = namesOf m ids :=
    fun ids => namesOf_same m { m with m_tmpdir := some t } rfl ids
  constructor
  · exact inv.root_ok
  · intro t1 ht1
    simp only [Option.some.injEq] at ht1
    subst ht1
    exact ⟨n, hn, hd, hp, he⟩
  · intro r1 hr1 h
    simp only [Option.some.injEq] at h
    subst h
    exact hr hr1
  · exact inv.dirs_ok
  · exact inv.files_ok
  · exact inv.leaf
  · exact inv.parent_ok
  · exact inv.nonempty
  · intro p n ns hp hns
    exact inv.sorted_dirs p n ns hp (by rw [← hns, hnm])
  · intro p n ns hp hns
    exact inv.sorted_files p n ns hp (by rw [← hns, hnm])

theorem Frame.frame_allocDir (m : FileTreeModel) (x : Node) (hx : x.isDir = true) :
    Frame m (alloc m x).1 where
  len := by simp
  old_sig := fun p n hp => ⟨n, deref_alloc_of_some x hp, rfl, rfl, rfl, rfl, rfl, rfl⟩
  old_file := fun p n hp _ => deref_alloc_of_some x hp
  old_lists := fun p n hp => ⟨n, deref_alloc_of_some x hp, fun _ h => h, fun _ h => h⟩
  new_dir := fun p n hp hl => by
    rw [deref_alloc] at hp
    split at hp
    · cases hp; exact hx
    · exact absurd (deref_lt hp) (by omega)

theorem RankOK.allocNone {m : FileTreeModel} {rk : Nat → Nat} (x : Node)
    (hx : x.parent = none) (hrk : RankOK m rk) : RankOK (alloc m x).1 rk := by
  intro p n q hp hq
  rw [deref_alloc] at hp
  split at hp
  · cases hp; rw [hx] at hq; exact absurd hq (by simp)
  · exact hrk p n q hp hq

/-! ## Branch "no root yet" -/

/-- The cursor at a root that was just created. -/
theorem Cursor.newRoot {lt : QString → QString → Bool} {m m0 : FileTreeModel}
    (name path : QString) (segs : List QString)
    (fr : Frame m m0) (inv : Inv lt m0 none) (hrk : Ranked m0) (ht : m0.m_tmpdir = m.m_tmpdir)
    (hsegs : ∀ s ∈ segs, isSeg s = true) (hpath : path = dirPath segs)
    (hname : name = fileNameOf path) :
    Cursor lt m { (alloc m0 (mkDir name path none)).1 with m_root := some m0.nodes.length }
      m0.nodes.length .invalid := by
  have hnew : deref (alloc m0 (mkDir name path none)).1 m0.nodes.length
      = some (mkDir name path none) := deref_alloc_new _ _
  have hnt : m0.m_tmpdir ≠ some m0.nodes.length := by
    intro h
    obtain ⟨n, hn, _⟩ := inv.tmp_ok _ h
    exact absurd (deref_lt hn) (by omega)
  have inv1 : Inv lt { (alloc m0 (mkDir name path none)).1 with
      m_root := some m0.nodes.length } (some m0.nodes.length) :=
    Inv.setRoot (Inv.allocDir name path inv) hnew rfl rfl hnt
  obtain ⟨rk, hrk⟩ := hrk
  exact {
    frame := fr.trans ((Frame.frame_allocDir m0 _ rfl).trans (Frame.of_nodes_eq _ _ rfl))
    ranked := ⟨rk, RankOK.rank_congr (alloc m0 (mkDir name path none)).1 _ rfl
      (RankOK.allocNone _ rfl hrk)⟩
    clean := by
      intro r n hr hn
      simp only [Option.some.injEq] at hr
      subst hr
      rw [deref_set_root, hnew] at hn
      cases hn
      exact ⟨segs, hsegs, hpath, hname⟩
    node := ⟨_, hnew, rfl, fun h => absurd rfl h, Or.inr ⟨inv1, rfl, rfl⟩⟩
    not_tmp := hnt
    idx_ok := Or.inl ⟨rfl, rfl⟩
    tmp_eq := ht }

/-- Lines 55-61. -/
theorem insertInitial_post {lt : QString → QString → Bool} (hlt : StrictWeak lt)
    {m : FileTreeModel} (fileDir filePath fileName : QString) (data : Nat)
    (displayName : QString) (segs : List QString) (good : Good lt m)
    (hsegs : ∀ s ∈ segs, isSeg s = true) (hdir : fileDir = dirPath segs) :
    ∃ m1 h par, insertInitial lt m fileDir filePath fileName data displayName = some (m1, h) ∧
      BranchPost lt m m1 h par fileName filePath data displayName ∧
      m1.m_root = some m.nodes.length ∧ m1.m_tmpdir = m.m_tmpdir ∧ m1.m_tmpdir ≠ some par ∧
      ∃ m2, removeIndex lt m1 h = some (m2, true) ∧ (m.m_root = none → Restored m m2) := by
  have hcur := Cursor.newRoot (fileNameOf fileDir) fileDir segs (Frame.refl m) good.inv
    good.ranked rfl hsegs hdir rfl
  have hnew : deref { (alloc m (mkDir (fileNameOf fileDir) fileDir none)).1 with
      m_root := some m.nodes.length } m.nodes.length
      = some (mkDir (fileNameOf fileDir) fileDir none) := deref_alloc_new _ _
  have hns : namesOf { (alloc m (mkDir (fileNameOf fileDir) fileDir none)).1 with
      m_root := some m.nodes.length } (mkDir (fileNameOf fileDir) fileDir none).files
      = some [] := rfl
  obtain ⟨hi, hpost⟩ := finish_cursor hlt (.beginInsertRows .invalid 0 0)
    fileName filePath data displayName hcur hnew hns
  have hd := deref_finish { (alloc m (mkDir (fileNameOf fileDir) fileDir none)).1 with
      m_root := some m.nodes.length } (.beginInsertRows .invalid 0 0) .endInsertRows
      m.nodes.length (mkDir (fileNameOf fileDir) fileDir none)
      (mkFile fileName filePath (some m.nodes.length) data displayName)
      (lowerBound lt fileName []) (by simp)
  have hdc := hd m.nodes.length
  rw [if_pos rfl] at hdc
  have hdf := hd (alloc m (mkDir (fileNameOf fileDir) fileDir none)).1.nodes.length
  rw [if_neg (by simp), if_pos rfl] at hdf
  obtain ⟨m2, hm2, u1, u2, u3⟩ := @undo_new_root lt _ m.nodes.length
    (alloc m (mkDir (fileNameOf fileDir) fileDir none)).1.nodes.length
    ((mkDir (fileNameOf fileDir) fileDir none).dirs.length + lowerBound lt fileName []) 0 _ _
    hpost.good rfl hdc (by simp [Node.childCount, mkDir, insertAt]) hdf rfl
  refine ⟨_, _, m.nodes.length, ?_, hpost, rfl, rfl, hcur.not_tmp, m2, hm2, fun h0 =>
    ⟨by rw [u1, h0], u2, fun p hp => ?_⟩⟩
  · have e1 := filesAdd_alloc lt
      (m := emit { (alloc m (mkDir (fileNameOf fileDir) fileDir none)).1 with
        m_root := some m.nodes.length } (.beginInsertRows .invalid 0 0))
      (mkFile fileName filePath (some m.nodes.length) data displayName)
      (show deref (emit _ _) m.nodes.length = some _ from hnew)
      (show namesOf (emit _ _) (mkDir (fileNameOf fileDir) fileDir none).files = some []
        from rfl)
    simp only [insertInitial, Option.bind_eq_bind, Option.some_bind, alloc_snd]
    simp only [emit_nodes] at e1
    erw [e1]
    simp only [Option.some_bind]
    erw [hi]
    rfl
  · rw [u3, hd p, if_neg (by omega), if_neg (by simp; omega), deref_set_root, deref_alloc,
      if_neg (by omega)]

end FileTreeModel


namespace FileTreeModel

/-! ## Branch "under the temporary directory" -/

/-- The last step of the scratch branch. -/
theorem scratch_finish {lt : QString → QString → Bool} (hlt : StrictWeak lt)
    {m m0 : FileTreeModel} {hole : Option Nat} {t rc : Nat} {tn : Node} {ns : List QString}
    (e1 : Event) (fileName filePath : QString) (data : Nat) (displayName : QString)
    (fr : Frame m m0) (inv : Inv lt m0 hole) (hh : hole = none ∨ hole = some t)
    (hrk : Ranked m0) (hclean : RootClean m0)
    (ht : m0.m_tmpdir = some t) (htn : deref m0 t = some tn)
    (hns : namesOf m0 tn.files = some ns) (hrc : rootChildCount m0 = some rc) :
    index (emit (attachedFile (emit m0 e1) t tn
        (mkFile fileName filePath (some t) data displayName) (lowerBound lt fileName ns))
        .endInsertRows) (rc + lowerBound lt fileName ns) 0 .invalid
      = some (.mk (rc + lowerBound lt fileName ns) 0 m0.nodes.length) ∧
    BranchPost lt m (emit (attachedFile (emit m0 e1) t tn
        (mkFile fileName filePath (some t) data displayName) (lowerBound lt fileName ns))
        .endInsertRows)
      (.mk (rc + lowerBound lt fileName ns) 0 m0.nodes.length) t
      fileName filePath data displayName := by
  obtain ⟨tn0, htn0, htd, htp, hte⟩ := inv.tmp_ok t ht
  rw [htn] at htn0; cases htn0
  obtain ⟨rk, hrk⟩ := hrk
  have hcl := deref_lt htn
  have hpos : lowerBound lt fileName ns ≤ tn.files.length := by
    rw [← namesOf_length hns]; exact lowerBound_le _ _ _
  have hd := deref_finish m0 e1 .endInsertRows t tn
    (mkFile fileName filePath (some t) data displayName) (lowerBound lt fileName ns) hcl
  have hdc := hd t
  rw [if_pos rfl] at hdc
  have hdf := hd m0.nodes.length
  rw [if_neg (by omega), if_pos rfl] at hdf
  have hrc1 : rootChildCount (emit (attachedFile (emit m0 e1) t tn
        (mkFile fileName filePath (some t) data displayName) (lowerBound lt fileName ns))
        .endInsertRows) = some rc := by
    unfold rootChildCount at hrc ⊢
    simp only [emit_m_root, attachedFile_m_root]
    cases hr : m0.m_root with
    | none => rw [hr] at hrc; exact hrc
    | some r =>
      rw [hr] at hrc
      simp only at hrc ⊢
      obtain ⟨rn, hrn, _⟩ := inv.root_ok r hr
      have hrt : r ≠ t := fun e => inv.root_ne_tmp r hr (e ▸ ht)
      have := deref_lt hrn
      rw [hd r, if_neg hrt, if_neg (by omega)]
      exact hrc
  have hidx : index (emit (attachedFile (emit m0 e1) t tn
        (mkFile fileName filePath (some t) data displayName) (lowerBound lt fileName ns))
        .endInsertRows) (rc + lowerBound lt fileName ns) 0 .invalid
      = some (.mk (rc + lowerBound lt fileName ns) 0 m0.nodes.length) := by
    rw [index_top_tmp _ (by simpa using ht) hdc (by exact htd) hrc1 (by omega)]
    simp only [hte, List.length_nil, ge_iff_le, Nat.zero_le, if_true, Nat.add_sub_cancel_left,
      Nat.sub_zero]
    rw [insertAt_getElem? _ _ _ hpos]
    rfl
  refine ⟨hidx, ?_⟩
  apply finish_core hlt e1 _ fileName filePath data displayName fr inv hh hrk hclean htn htd hns
  intro _
  refine ⟨_, .invalid, rfl, ?_, hidx⟩
  have ht1 : (emit (attachedFile (emit m0 e1) t tn
        (mkFile fileName filePath (some t) data displayName) (lowerBound lt fileName ns))
        .endInsertRows).m_tmpdir = some t := by simpa using ht
  simp only [parent, Option.bind_eq_bind]
  rw [hdf]
  simp [mkFile, ht]

/-- Lines 45-54. -/
theorem insertScratch_post {lt : QString → QString → Bool} (hlt : StrictWeak lt)
    {m : FileTreeModel} (tempPath filePath fileName : QString) (data : Nat)
    (displayName : QString) (good : Good lt m) :
    ∃ m1 h t, insertScratch lt tempPath m filePath fileName data displayName = some (m1, h) ∧
      BranchPost lt m m1 h t fileName filePath data displayName ∧
      m1.m_root = m.m_root ∧ m1.m_tmpdir = some t ∧
      (m.m_tmpdir = some t ∨ (m.m_tmpdir = none ∧ t = m.nodes.length)) ∧
      (∀ p, p < m.nodes.length → some p ≠ m.m_tmpdir → deref m1 p = deref m p) ∧
      ∃ m2, removeIndex lt m1 h = some (m2, true) ∧ Restored m m2 := by
  cases htmp : m.m_tmpdir with
  | some t =>
    obtain ⟨tn, htn, htd, _, _⟩ := good.inv.tmp_ok t htmp
    obtain ⟨ns, hns⟩ := good.inv.namesOf_files htn
    obtain ⟨rc, hrc⟩ := rootChildCount_exists good.inv
    obtain ⟨hi, hpost⟩ := scratch_finish hlt
      (.beginInsertRows .invalid ((rc + lowerBound lt fileName ns : Nat) : Int)
        ((rc + lowerBound lt fileName ns : Nat) : Int))
      fileName filePath data displayName (Frame.refl m) good.inv (Or.inl rfl) good.ranked
      good.rootClean htmp htn hns hrc
    obtain ⟨m2, hm2, u1, u2, u3⟩ := undo_post_file hlt _ _ fileName filePath data displayName
      hpost htn (good.inv.nonempty t tn htn htd (by simp)) hns
    refine ⟨_, _, t, ?_, hpost, rfl, by simpa using htmp, Or.inl rfl, ?_,
      m2, hm2, u1, by rw [u2, htmp], u3⟩
    · have e1 := filesAdd_alloc lt
        (m := emit m (.beginInsertRows .invalid
          ((rc + lowerBound lt fileName ns : Nat) : Int)
          ((rc + lowerBound lt fileName ns : Nat) : Int)))
        (mkFile fileName filePath (some t) data displayName)
        (show deref (emit m _) t = some tn from htn)
        (show namesOf (emit m _) tn.files = some ns by simpa using hns)
      simp only [emit_nodes] at e1
      simp only [insertScratch, htmp, Option.bind_eq_bind, Option.some_bind, htn, hns, hrc,
        insIndex, alloc_snd, emit_nodes]
      erw [e1]
      simp only [Option.some_bind]
      erw [hi]
      rfl
    · intro p hp hpt
      have hpt' : p ≠ t := fun e => hpt (by rw [e])
      rw [deref_finish m _ _ t tn _ _ (deref_lt htn) p, if_neg hpt', if_neg (by omega)]
  | none =>
    have hnew : deref { (alloc m (mkDir (fileNameOf tempPath) tempPath none)).1 with
        m_tmpdir := some m.nodes.length } m.nodes.length
        = some (mkDir (fileNameOf tempPath) tempPath none) := deref_alloc_new _ _
    have hnr : m.m_root ≠ some m.nodes.length := by
      intro h
      obtain ⟨n, hn, _⟩ := good.inv.root_ok _ h
      exact absurd (deref_lt hn) (by omega)
    have inv1 : Inv lt { (alloc m (mkDir (fileNameOf tempPath) tempPath none)).1 with
        m_tmpdir := some m.nodes.length } (some m.nodes.length) :=
      Inv.setTmp (Inv.allocDir _ _ good.inv) (deref_alloc_new _ _) rfl rfl rfl hnr
    have fr1 : Frame m { (alloc m (mkDir (fileNameOf tempPath) tempPath none)).1 with
        m_tmpdir := some m.nodes.length } :=
      (Frame.frame_allocDir m _ rfl).trans (Frame.of_nodes_eq _ _ rfl)
    obtain ⟨rk, hrk⟩ := good.ranked
    have hrk1 : Ranked { (alloc m (mkDir (fileNameOf tempPath) tempPath none)).1 with
        m_tmpdir := some m.nodes.length } :=
      ⟨rk, RankOK.rank_congr (alloc m (mkDir (fileNameOf tempPath) tempPath none)).1 _ rfl
        (RankOK.allocNone _ rfl hrk)⟩
    have hclean1 : RootClean { (alloc m (mkDir (fileNameOf tempPath) tempPath none)).1 with
        m_tmpdir := some m.nodes.length } :=
      RootClean.of_sig m _ rfl fr1.old_sig
        (fun r hr => by obtain ⟨n, hn, _⟩ := good.inv.root_ok r hr; exact ⟨n, hn⟩)
        good.rootClean
    obtain ⟨rc, hrc⟩ := rootChildCount_exists inv1
    obtain ⟨hi, hpost⟩ := scratch_finish hlt
      (.beginInsertRows .invalid ((rc + lowerBound lt fileName [] : Nat) : Int)
        ((rc + lowerBound lt fileName [] : Nat) : Int))
      fileName filePath data displayName fr1 inv1 (Or.inr rfl) hrk1 hclean1 rfl hnew
      (show namesOf _ (mkDir (fileNameOf tempPath) tempPath none).files = some [] from rfl) hrc
    have hd := deref_finish { (alloc m (mkDir (fileNameOf tempPath) tempPath none)).1 with
        m_tmpdir := some m.nodes.length } (.beginInsertRows .invalid
        ((rc + lowerBound lt fileName [] : Nat) : Int)
        ((rc + lowerBound lt fileName [] : Nat) : Int)) .endInsertRows m.nodes.length
        (mkDir (fileNameOf tempPath) tempPath none)
        (mkFile fileName filePath (some m.nodes.length) data displayName)
        (lowerBound lt fileName []) (by simp)
    have hdc := hd m.nodes.length
    rw [if_pos rfl] at hdc
    have hdf := hd (alloc m (mkDir (fileNameOf tempPath) tempPath none)).1.nodes.length
    rw [if_neg (by simp), if_pos rfl] at hdf
    obtain ⟨m2, hm2, u1, u2, u3⟩ := @undo_new_tmp lt _ m.nodes.length
      (alloc m (mkDir (fileNameOf tempPath) tempPath none)).1.nodes.length
      (rc + lowerBound lt fileName []) 0 _ _
      hpost.good rfl hdc (by simp [Node.childCount, mkDir, insertAt]) hdf rfl
    refine ⟨_, _, m.nodes.length, ?_, hpost, rfl, rfl, Or.inr ⟨rfl, rfl⟩, ?_,
      m2, hm2, u1, by rw [u2, htmp], fun p hp => ?_⟩
    rotate_right
    · rw [u3, hd p, if_neg (by omega), if_neg (by simp; omega), deref_set_tmpdir, deref_alloc,
        if_neg (by omega)]
    · have e1 := filesAdd_alloc lt
        (m := emit { (alloc m (mkDir (fileNameOf tempPath) tempPath none)).1 with
          m_tmpdir := some m.nodes.length } (.beginInsertRows .invalid
          ((rc + lowerBound lt fileName [] : Nat) : Int)
          ((rc + lowerBound lt fileName [] : Nat) : Int)))
        (mkFile fileName filePath (some m.nodes.length) data displayName)
        (show deref (emit _ _) m.nodes.length = some _ from hnew)
        (show namesOf (emit _ _) (mkDir (fileNameOf tempPath) tempPath none).files = some []
          from rfl)
      simp only [emit_nodes] at e1
      simp only [insertScratch, htmp, Option.bind_eq_bind, Option.some_bind, alloc_snd]
      erw [hnew]
      simp only [Option.some_bind]
      erw [show namesOf { (alloc m (mkDir (fileNameOf tempPath) tempPath none)).1 with
          m_tmpdir := some m.nodes.length } (mkDir (fileNameOf tempPath) tempPath none).files
          = some [] from rfl]
      simp only [Option.some_bind, insIndex, hrc]
      erw [e1]
      simp only [Option.some_bind]
      erw [hi]
      rfl
    · intro p hp _
      have h1 := deref_finish { (alloc m (mkDir (fileNameOf tempPath) tempPath none)).1 with
          m_tmpdir := some m.nodes.length } (.beginInsertRows .invalid
          ((rc + lowerBound lt fileName [] : Nat) : Int)
          ((rc + lowerBound lt fileName [] : Nat) : Int)) .endInsertRows m.nodes.length
          (mkDir (fileNameOf tempPath) tempPath none)
          (mkFile fileName filePath (some m.nodes.length) data displayName)
          (lowerBound lt fileName []) (by simp) p
      rw [h1, if_neg (by omega), if_neg (by simp; omega), deref_set_tmpdir, deref_alloc,
        if_neg (by omega)]

end FileTreeModel


namespace FileTreeModel

/-! ## Re-parenting the old root -/

theorem deref_store2 (m : FileTreeModel) (cur r : Nat) (c1 r1 : Node)
    (hcur : cur < m.nodes.length) (hr : r < m.nodes.length) (p : Nat) :
    deref (store (store m cur c1) r r1) p =
      if p = r then some r1 else if p = cur then some c1 else deref m p := by
  rw [deref_store, deref_store]
  simp only [store_length, hr, hcur, if_true]

/-- Lines 83-84 evaluated, for a cursor without subdirectories. -/
theorem attachOldRoot_eq {lt : QString → QString → Bool} {m : FileTreeModel} {cur r : Nat}
    {c rn : Node} (hc : deref m cur = some c) (hce : c.dirs = []) (hr : deref m r = some rn)
    (hne : r ≠ cur) :
    attachOldRoot lt m cur r =
      some (store (store m cur { c with dirs := [r] }) r { rn with parent := some cur }) := by
  have h1 : dirsAdd lt m cur r = some (store m cur { c with dirs := [r] }) := by
    simp [dirsAdd, hc, hr, hce, namesOf, lowerBound, insertAt]
  have h2 : deref (store m cur { c with dirs := [r] }) r = some rn := by
    rw [deref_store, if_neg hne]; exact hr
  simp [attachOldRoot, h1, h2]

theorem Inv.attachOld {lt : QString → QString → Bool} {m : FileTreeModel} {cur r : Nat}
    {c rn : Node} (inv : Inv lt m (some cur))
    (hc : deref m cur = some c) (hcd : c.isDir = true)
    (hr : deref m r = some rn) (hrd : rn.isDir = true) (hrp : rn.parent = none)
    (hne : r ≠ cur) (hroot : m.m_root ≠ some r) (htr : m.m_tmpdir ≠ some r)
    (htc : m.m_tmpdir ≠ some cur) :
    Inv lt (store (store m cur { c with dirs := [r] }) r { rn with parent := some cur })
      none := by
  have hcl := deref_lt hc
  have hrl := deref_lt hr
  have hd := deref_store2 m cur r { c with dirs := [r] } { rn with parent := some cur } hcl hrl
  have hcases : ∀ {p : Nat} {n : Node},
      deref (store (store m cur { c with dirs := [r] }) r { rn with parent := some cur }) p
        = some n →
      (p = r ∧ n = { rn with parent := some cur }) ∨ (p = cur ∧ n = { c with dirs := [r] }) ∨
      (p ≠ r ∧ p ≠ cur ∧ deref m p = some n) := by
    intro p n h
    rw [hd] at h
    split at h
    · rename_i hp; exact Or.inl ⟨hp, (Option.some.inj h).symm⟩
    · split at h
      · rename_i hp; exact Or.inr (Or.inl ⟨hp, (Option.some.inj h).symm⟩)
      · rename_i h1 h2; exact Or.inr (Or.inr ⟨h1, h2, h⟩)
  -- every node keeps its kind and name; all but `r` keep their parent
  have hsig : ∀ {q : Nat} {qn : Node}, deref m q = some qn → ∃ qn1,
      deref (store (store m cur { c with dirs := [r] }) r { rn with parent := some cur }) q
        = some qn1 ∧
      qn1.isDir = qn.isDir ∧ qn1.fileName = qn.fileName ∧ (q ≠ r → qn1.parent = qn.parent) := by
    intro q qn hq
    rw [hd]
    by_cases hqr : q = r
    · subst hqr
      rw [hr] at hq; cases hq
      exact ⟨{ rn with parent := some cur }, by rw [if_pos rfl], rfl, rfl,
        fun h => absurd rfl h⟩
    · by_cases hqc : q = cur
      · subst hqc
        rw [hc] at hq; cases hq
        exact ⟨{ c with dirs := [r] }, by rw [if_neg hqr, if_pos rfl], rfl, rfl, fun _ => rfl⟩
      · exact ⟨qn, by rw [if_neg hqr, if_neg hqc]; exact hq, rfl, rfl, fun _ => rfl⟩
  have hnames : ∀ {ids : List Nat}, (∀ p ∈ ids, ∃ n, deref m p = some n) →
      namesOf (store (store m cur { c with dirs := [r] }) r { rn with parent := some cur }) ids
        = namesOf m ids := by
    intro ids h
    apply namesOf_congr
    intro p hp
    obtain ⟨n, hn⟩ := h p hp
    obtain ⟨n1, hn1, _, e, _⟩ := hsig hn
    rw [hn1, hn]; simp [e]
  -- children have a parent, so `r` is no child
  have hchild : ∀ {p : Nat} {n : Node} {ch : Nat}, deref m p = some n →
      ch ∈ n.dirs ∨ ch ∈ n.files → ch ≠ r := by
    intro p n ch hp hch e
    subst e
    rcases hch with h | h
    · obtain ⟨cn, h1, _, h3⟩ := inv.dirs_ok p n ch hp h
      rw [hr] at h1; cases h1
      rw [hrp] at h3; exact absurd h3 (by simp)
    · obtain ⟨cn, h1, _, h3⟩ := inv.files_ok p n ch hp h
      rw [hr] at h1; cases h1
      rw [hrp] at h3; exact absurd h3 (by simp)
  have hdirs : ∀ {p : Nat} {n : Node} {ch : Nat}, deref m p = some n → ch ∈ n.dirs →
      ∃ cn, deref (store (store m cur { c with dirs := [r] }) r
        { rn with parent := some cur }) ch = some cn ∧ cn.isDir = true ∧
        cn.parent = some p := by
    intro p n ch hp hch
    obtain ⟨cn, h1, h2, h3⟩ := inv.dirs_ok p n ch hp hch
    obtain ⟨cn1, g1, g2, _, g4⟩ := hsig h1
    exact ⟨cn1, g1, g2 ▸ h2, (g4 (hchild hp (Or.inl hch))) ▸ h3⟩
  have hfiles : ∀ {p : Nat} {n : Node} {ch : Nat}, deref m p = some n → ch ∈ n.files →
      ∃ cn, deref (store (store m cur { c with dirs := [r] }) r
        { rn with parent := some cur }) ch = some cn ∧ cn.isDir = false ∧
        cn.parent = some p := by
    intro p n ch hp hch
    obtain ⟨cn, h1, h2, h3⟩ := inv.files_ok p n ch hp hch
    obtain ⟨cn1, g1, g2, _, g4⟩ := hsig h1
    exact ⟨cn1, g1, g2 ▸ h2, (g4 (hchild hp (Or.inr hch))) ▸ h3⟩
  constructor
  · intro r1 hr1
    obtain ⟨n, hn, h1, h2⟩ := inv.root_ok r1 hr1
    obtain ⟨n1, g1, g2, _, g4⟩ := hsig hn
    have : r1 ≠ r := fun e => hroot (e ▸ hr1)
    exact ⟨n1, g1, g2 ▸ h1, (g4 this) ▸ h2⟩
  · intro t ht
    obtain ⟨n, hn, h1, h2, h3⟩ := inv.tmp_ok t ht
    have h4 : t ≠ r := fun e => htr (e ▸ ht)
    have h5 : t ≠ cur := fun e => htc (e ▸ ht)
    exact ⟨n, by rw [hd, if_neg h4, if_neg h5]; exact hn, h1, h2, h3⟩
  · exact inv.root_ne_tmp
  · intro p n ch hp hch
    rcases hcases hp with ⟨rfl, rfl⟩ | ⟨rfl, rfl⟩ | ⟨_, _, hp0⟩
    · exact hdirs hr hch
    · simp only [List.mem_singleton] at hch
      rw [hch]
      exact ⟨{ rn with parent := some p }, by rw [hd, if_pos rfl], hrd, rfl⟩
    · exact hdirs hp0 hch
  · intro p n ch hp hch
    rcases hcases hp with ⟨rfl, rfl⟩ | ⟨rfl, rfl⟩ | ⟨_, _, hp0⟩
    · exact hfiles hr hch
    · exact hfiles hc hch
    · exact hfiles hp0 hch
  · intro p n hp hf
    rcases hcases hp with ⟨rfl, rfl⟩ | ⟨rfl, rfl⟩ | ⟨_, _, hp0⟩
    · simp only at hf; rw [hrd] at hf; exact absurd hf (by simp)
    · simp only at hf; rw [hcd] at hf; exact absurd hf (by simp)
    · exact inv.leaf p n hp0 hf
  · intro p n q hp hq
    rcases hcases hp with ⟨rfl, rfl⟩ | ⟨rfl, rfl⟩ | ⟨_, _, hp0⟩
    · simp only [Option.some.injEq] at hq
      rw [← hq]
      exact ⟨{ c with dirs := [p] }, by rw [hd, if_neg (Ne.symm hne), if_pos rfl], hcd⟩
    · obtain ⟨qn, h1, h2⟩ := inv.parent_ok p c q hc hq
      obtain ⟨qn1, g1, g2, _⟩ := hsig h1
      exact ⟨qn1, g1, g2 ▸ h2⟩
    · obtain ⟨qn, h1, h2⟩ := inv.parent_ok p n q hp0 hq
      obtain ⟨qn1, g1, g2, _⟩ := hsig h1
      exact ⟨qn1, g1, g2 ▸ h2⟩
  · intro p n hp hdir _
    rcases hcases hp with ⟨rfl, rfl⟩ | ⟨rfl, rfl⟩ | ⟨_, hpc, hp0⟩
    · exact inv.nonempty p rn hr hrd (by simpa using hne)
    · simp [Node.childCount]
    · exact inv.nonempty p n hp0 hdir (by simpa using hpc)
  · intro p n ns hp hns
    rcases hcases hp with ⟨rfl, rfl⟩ | ⟨rfl, rfl⟩ | ⟨_, _, hp0⟩
    · rw [hnames (fun q hq => by
        obtain ⟨cn, h, _⟩ := inv.dirs_ok p rn q hr hq; exact ⟨cn, h⟩)] at hns
      exact inv.sorted_dirs p rn ns hr hns
    · have hl := namesOf_length hns
      simp only [List.length_singleton] at hl
      match ns, hl with
      | [a], _ => exact List.pairwise_singleton _ _
    · rw [hnames (fun q hq => by
        obtain ⟨cn, h, _⟩ := inv.dirs_ok p n q hp0 hq; exact ⟨cn, h⟩)] at hns
      exact inv.sorted_dirs p n ns hp0 hns
  · intro p n ns hp hns
    rcases hcases hp with ⟨rfl, rfl⟩ | ⟨rfl, rfl⟩ | ⟨_, _, hp0⟩
    · rw [hnames (fun q hq => by
        obtain ⟨cn, h, _⟩ := inv.files_ok p rn q hr hq; exact ⟨cn, h⟩)] at hns
      exact inv.sorted_files p rn ns hr hns
    · rw [hnames (fun q hq => by
        obtain ⟨cn, h, _⟩ := inv.files_ok p c q hc hq; exact ⟨cn, h⟩)] at hns
      exact inv.sorted_files p c ns hc hns
    · rw [hnames (fun q hq => by
        obtain ⟨cn, h, _⟩ := inv.files_ok p n q hp0 hq; exact ⟨cn, h⟩)] at hns
      exact inv.sorted_files p n ns hp0 hns

theorem RankOK.rank_attachOld {m : FileTreeModel} {rk : Nat → Nat} {cur r : Nat} {c rn : Node}
    (hrk : RankOK m rk) (hc : deref m cur = some c) (hr : deref m r = some rn)
    (hlt : rk cur < rk r) :
    RankOK (store (store m cur { c with dirs := [r] }) r { rn with parent := some cur })
      rk := by
  intro p n q hp hq
  rw [deref_store2 m cur r _ _ (deref_lt hc) (deref_lt hr)] at hp
  split at hp
  · rename_i h; subst h
    cases hp
    simp only [Option.some.injEq] at hq
    subst hq; exact hlt
  · split at hp
    · rename_i h; subst h
      cases hp
      exact hrk p c q hc hq
    · exact hrk p n q hp hq

theorem Frame.frame_attachOld {m : FileTreeModel} {cur r : Nat} {c rn : Node}
    (hc : deref m cur = some c) (hcd : c.isDir = true) (hce : c.dirs = [])
    (hr : deref m r = some rn) (hrd : rn.isDir = true) :
    Frame m (store (store m cur { c with dirs := [r] }) r { rn with parent := some cur }) := by
  have hd := deref_store2 m cur r { c with dirs := [r] } { rn with parent := some cur }
    (deref_lt hc) (deref_lt hr)
  constructor
  · simp
  · intro p n hp
    rw [hd]
    by_cases h1 : p = r
    · subst h1; rw [hr] at hp; cases hp
      exact ⟨{ rn with parent := some cur }, by rw [if_pos rfl], rfl, rfl, rfl, rfl, rfl, rfl⟩
    · by_cases h2 : p = cur
      · subst h2; rw [hc] at hp; cases hp
        exact ⟨{ c with dirs := [r] }, by rw [if_neg h1, if_pos rfl], rfl, rfl, rfl, rfl, rfl,
          rfl⟩
      · exact ⟨n, by rw [if_neg h1, if_neg h2]; exact hp, rfl, rfl, rfl, rfl, rfl, rfl⟩
  · intro p n hp hf
    rw [hd]
    by_cases h1 : p = r
    · subst h1; rw [hr] at hp; cases hp
      rw [hrd] at hf; exact absurd hf (by simp)
    · by_cases h2 : p = cur
      · subst h2; rw [hc] at hp; cases hp
        rw [hcd] at hf; exact absurd hf (by simp)
      · rw [if_neg h1, if_neg h2]; exact hp
  · intro p n hp
    rw [hd]
    by_cases h1 : p = r
    · subst h1; rw [hr] at hp; cases hp
      exact ⟨{ rn with parent := some cur }, by rw [if_pos rfl], fun _ h => h, fun _ h => h⟩
    · by_cases h2 : p = cur
      · subst h2; rw [hc] at hp; cases hp
        exact ⟨{ c with dirs := [r] }, by rw [if_neg h1, if_pos rfl],
          fun d hd => by rw [hce] at hd; simp at hd, fun _ h => h⟩
      · exact ⟨n, by rw [if_neg h1, if_neg h2]; exact hp, fun _ h => h, fun _ h => h⟩
  · intro p n hp hl
    have := deref_lt hp
    simp only [store_length] at this
    omega

theorem Descends.mono {m m1 : FileTreeModel} (fr : Frame m m1) {a b : Nat}
    {segs : List QString} (h : Descends m a segs b) : Descends m1 a segs b := by
  induction h with
  | here a => exact Descends.here a
  | down hn hc hcn hs _ ih =>
    obtain ⟨n1, h1, h2, _⟩ := fr.old_lists _ _ hn
    obtain ⟨cn1, g1, _, g3, _⟩ := fr.old_sig _ _ hcn
    exact Descends.down h1 (h2 _ hc) g1 (g3.trans hs) ih

theorem Descends.snoc {m : FileTreeModel} {a b c : Nat} {segs : List QString} {bn cn : Node}
    (h : Descends m a segs b) (hb : deref m b = some bn) (hc : c ∈ bn.dirs)
    (hcn : deref m c = some cn) : Descends m a (segs ++ [cn.fileName]) c := by
  induction h with
  | here a => exact Descends.down hb hc hcn rfl (Descends.here c)
  | down hn hc1 hcn1 hs _ ih => exact Descends.down hn hc1 hcn1 hs (ih hb)

end FileTreeModel


namespace FileTreeModel

/-! ## The chain loops -/

theorem chainLoop_spec {lt : QString → QString → Bool} (hlt : StrictWeak lt)
    (m : FileTreeModel) (r : Nat) (rn : Node) (parts : List QString) :
    ∀ (m0 : FileTreeModel) (cur : Nat) (c : Node),
      ChainInv lt m r rn parts.length m0 cur c →
      ∃ m1 cur1 c1, chainLoop lt m0 cur parts = some (m1, cur1) ∧
        ChainInv lt m r rn 0 m1 cur1 c1 ∧ m1.m_root = m0.m_root ∧
        Descends m1 cur parts cur1 ∧ c1.path = c.path ++ slashCat parts ∧
        (∀ p, p < m0.nodes.length → p ≠ cur → deref m1 p = deref m0 p) ∧
        m0.nodes.length ≤ m1.nodes.length ∧
        ∃ c2, deref m1 cur = some c2 ∧ c2.fileName = c.fileName ∧ c2.path = c.path ∧
          c2.parent = c.parent ∧ c2.isDir = true ∧ c2.files = [] ∧
          ((parts = [] ∧ cur1 = cur ∧ c2 = c) ∨
           (∃ d, c2.dirs = [d] ∧ m0.nodes.length ≤ cur1)) := by
  induction parts with
  | nil =>
    intro m0 cur c h
    exact ⟨m0, cur, c, rfl, h, rfl, Descends.here cur, by simp [slashCat],
      fun _ _ _ => rfl, Nat.le_refl _,
      c, h.node, rfl, rfl, rfl, h.isDir, h.files, Or.inl ⟨rfl, rfl, rfl⟩⟩
  | cons s rest ih =>
    intro m0 cur c h
    have hc := h.node
    have hcl := deref_lt hc
    have hns : namesOf m0 c.dirs = some [] := by rw [h.dirs]; rfl
    have e1 := dirsAdd_alloc lt (mkDir s (c.path ++ '/' :: s) (some cur)) hc hns
    have hd := deref_attachedDir m0 cur c (mkDir s (c.path ++ '/' :: s) (some cur))
      (lowerBound lt s []) hcl
    have hdc := hd cur
    rw [if_pos rfl] at hdc
    have hdx := hd m0.nodes.length
    rw [if_neg (by omega), if_pos rfl] at hdx
    have hrc : r ≠ cur := by have := h.r_old; have := h.cur_new; omega
    have hrl : r < m0.nodes.length := lt_of_lt_of_le h.r_old h.frame.len
    have fr1 : Frame m0 (attachedDir m0 cur c (mkDir s (c.path ++ '/' :: s) (some cur))
        (lowerBound lt s [])) := Frame.attachedDir _ _ hc h.isDir rfl
    obtain ⟨rk, hrk, hrkb⟩ := h.rank
    have hnext : ChainInv lt m r rn rest.length
        (attachedDir m0 cur c (mkDir s (c.path ++ '/' :: s) (some cur)) (lowerBound lt s []))
        m0.nodes.length (mkDir s (c.path ++ '/' :: s) (some cur)) := {
      frame := h.frame.trans fr1
      inv := Inv.attachDir hlt s _ h.inv (Or.inr rfl) hc h.isDir h.not_tmp hns rfl
      rank := ⟨fun p => if p = m0.nodes.length then rk cur + 1 else rk p,
        RankOK.attach hrk hc rfl rfl (fun p n q hp hq => h.inv.parent_lt p n q hp hq), by
          simp only [if_true]
          rw [if_neg (by omega)]
          simp only [List.length_cons] at hrkb
          omega⟩
      clean := RootClean.of_sig m0 _ rfl fr1.old_sig
        (fun r1 hr1 => by obtain ⟨n, hn, _⟩ := h.inv.root_ok r1 hr1; exact ⟨n, hn⟩) h.clean
      node := hdx
      isDir := rfl
      dirs := rfl
      files := rfl
      not_tmp := by
        intro ht
        have ht0 : m0.m_tmpdir = some m0.nodes.length := ht
        obtain ⟨n, hn, _⟩ := h.inv.tmp_ok _ ht0
        exact absurd (deref_lt hn) (by omega)
      tmp_eq := h.tmp_eq
      r_old := h.r_old
      cur_new := h.frame.len
      old := h.old
      keep := fun p hp => by
        have := h.cur_new
        have := h.frame.len
        rw [hd p, if_neg (by omega), if_neg (by omega)]
        exact h.keep p hp }
    obtain ⟨m1, cur1, c1, hloop, hinv1, hroot1, hdesc, hpath, hkeep, hlen, c2, hc2, hc2n, _, _,
      _, _, hcase⟩ := ih _ _ _ hnext
    have hcur1 : deref m1 cur = some { c with dirs := [m0.nodes.length] } := by
      rw [hkeep cur (by simp; omega) (by omega), hdc, h.dirs]
      rfl
    refine ⟨m1, cur1, c1, ?_, hinv1, by rw [hroot1]; rfl,
      Descends.down hcur1 (List.mem_singleton_self _) hc2 hc2n hdesc, ?_, ?_, ?_,
      _, hcur1, rfl, rfl, rfl, h.isDir, h.files, Or.inr ⟨_, rfl, ?_⟩⟩
    · simp only [chainLoop, Option.bind_eq_bind, Option.some_bind, hc, alloc_snd]
      erw [e1]
      exact hloop
    · rw [hpath]
      simp [mkDir, slashCat]
    · intro p hp hpc
      rw [hkeep p (by simp; omega) (by omega), hd p, if_neg hpc, if_neg (by omega)]
    · simp only [attachedDir_length] at hlen
      omega
    · rcases hcase with ⟨_, e, _⟩ | ⟨_, _, e⟩
      · omega
      · simp only [attachedDir_length] at e
        omega

end FileTreeModel


namespace FileTreeModel

/-! ## States with the same arena and roots -/

theorem deref_congr (m m1 : FileTreeModel) (h : m1.nodes = m.nodes) (p : Nat) :
    deref m1 p = deref m p := by
  unfold deref; rw [h]

theorem index_congr (m m1 : FileTreeModel) (h1 : m1.nodes = m.nodes)
    (h2 : m1.m_root = m.m_root) (h3 : m1.m_tmpdir = m.m_tmpdir) (row col : Nat)
    (par : QModelIndex) : index m1 row col par = index m row col par := by
  have hd : ∀ p, deref m1 p = deref m p := deref_congr m m1 h1
  have hrc : rootChildCount m1 = rootChildCount m := by
    unfold rootChildCount; rw [h2]; cases m.m_root <;> simp [hd]
  unfold index
  simp only [h2, h3, hd, hrc]

theorem RootClean.clean_congr (m m1 : FileTreeModel) (h1 : m1.nodes = m.nodes)
    (h2 : m1.m_root = m.m_root) (h : RootClean m) : RootClean m1 := by
  intro r n hr hn
  rw [deref_congr m m1 h1] at hn
  exact h r n (h2 ▸ hr) hn

theorem Cursor.cursor_congr {lt : QString → QString → Bool} {m : FileTreeModel}
    (m1 m2 : FileTreeModel) {cur : Nat} {idx : QModelIndex}
    (h1 : m2.nodes = m1.nodes) (h2 : m2.m_root = m1.m_root) (h3 : m2.m_tmpdir = m1.m_tmpdir)
    (h : Cursor lt m m1 cur idx) : Cursor lt m m2 cur idx := by
  obtain ⟨c, hc, hcd, hpar, hinv⟩ := h.node
  obtain ⟨rk, hrk⟩ := h.ranked
  exact {
    frame := h.frame.trans (Frame.of_nodes_eq m1 m2 h1)
    ranked := ⟨rk, RankOK.rank_congr m1 m2 h1 hrk⟩
    clean := RootClean.clean_congr m1 m2 h1 h2 h.clean
    node := ⟨c, by rw [deref_congr m1 m2 h1]; exact hc, hcd, by rw [h2]; exact hpar, by
      rcases hinv with hi | ⟨hi, e1, e2⟩
      · exact Or.inl (Inv.congr m1 m2 h1 h2 h3 hi)
      · exact Or.inr ⟨Inv.congr m1 m2 h1 h2 h3 hi, e1, e2⟩⟩
    not_tmp := by rw [h3]; exact h.not_tmp
    idx_ok := by
      rcases h.idx_ok with ⟨e1, e2⟩ | e
      · exact Or.inl ⟨e1, by rw [h2]; exact e2⟩
      · exact Or.inr e
    tmp_eq := by rw [h3]; exact h.tmp_eq }

/-! ## The new branch of lines 143-147 -/

theorem branchLoop_spec {lt : QString → QString → Bool} (hlt : StrictWeak lt)
    (m : FileTreeModel) (parts : List QString) :
    ∀ (m0 : FileTreeModel) (cur : Nat) (idx : QModelIndex), Cursor lt m m0 cur idx →
      (∀ c ns, deref m0 cur = some c → namesOf m0 c.dirs = some ns →
        ∀ s ∈ parts.head?, s ∉ ns) →
      ∃ m1 cur1 idx1, branchLoop lt m0 cur idx parts = some (m1, cur1, idx1) ∧
        Cursor lt m m1 cur1 idx1 ∧ m1.m_root = m0.m_root ∧ Frame m0 m1 ∧
        Descends m1 cur parts cur1 ∧
        (∀ p, p < m0.nodes.length → p ≠ cur → deref m1 p = deref m0 p) ∧
        (parts = [] → m1 = m0 ∧ cur1 = cur) ∧
        (∀ s rest, parts = s :: rest → m0.nodes.length ≤ cur1 ∧
          (∃ c1, deref m1 cur1 = some c1 ∧ c1.dirs = [] ∧ c1.files = []) ∧
          (∃ xn, deref m1 m0.nodes.length = some xn ∧ xn.fileName = s) ∧
          ∀ c ns, deref m0 cur = some c → namesOf m0 c.dirs = some ns →
            deref m1 cur = some
              { c with dirs := insertAt m0.nodes.length (lowerBound lt s ns) c.dirs }) := by
  induction parts with
  | nil =>
    intro m0 cur idx hcur _
    exact ⟨m0, cur, idx, rfl, hcur, rfl, Frame.refl m0, Descends.here cur, fun _ _ _ => rfl,
      fun _ => ⟨rfl, rfl⟩, fun s rest h => absurd h (by simp)⟩
  | cons s rest ih =>
    intro m0 cur idx hcur hfirst
    obtain ⟨c, hc, hcd, hpar, hinv⟩ := hcur.node
    obtain ⟨hole, inv, hh⟩ := hcur.inv
    obtain ⟨ns, hns⟩ := inv.namesOf_dirs hc
    have hcl := deref_lt hc
    have hpos : lowerBound lt s ns ≤ c.dirs.length := by
      rw [← namesOf_length hns]; exact lowerBound_le _ _ _
    obtain ⟨hi0, hcur0⟩ := Cursor.step_new hlt .endInsertRows .endInsertRows s
      (c.path ++ '/' :: s) hcur hc hns
    have hcur1 : Cursor lt m (attachedDir m0 cur c (mkDir s (c.path ++ '/' :: s) (some cur))
        (lowerBound lt s ns)) m0.nodes.length (.mk (lowerBound lt s ns) 0 m0.nodes.length) :=
      Cursor.cursor_congr (emit (attachedDir (emit m0 .endInsertRows) cur c
        (mkDir s (c.path ++ '/' :: s) (some cur)) (lowerBound lt s ns)) .endInsertRows) _
        rfl rfl rfl hcur0
    have hi : index (attachedDir m0 cur c (mkDir s (c.path ++ '/' :: s) (some cur))
        (lowerBound lt s ns)) (lowerBound lt s ns) 0 idx
        = some (.mk (lowerBound lt s ns) 0 m0.nodes.length) := by
      rw [← hi0]
      exact (index_congr (attachedDir m0 cur c (mkDir s (c.path ++ '/' :: s) (some cur))
        (lowerBound lt s ns)) (emit (attachedDir (emit m0 .endInsertRows) cur c
        (mkDir s (c.path ++ '/' :: s) (some cur)) (lowerBound lt s ns)) .endInsertRows)
        rfl rfl rfl _ _ _).symm
    have hd := deref_attachedDir m0 cur c (mkDir s (c.path ++ '/' :: s) (some cur))
      (lowerBound lt s ns) hcl
    have hdc := hd cur
    rw [if_pos rfl] at hdc
    have hdx := hd m0.nodes.length
    rw [if_neg (by omega), if_pos rfl] at hdx
    have fr1 : Frame m0 (attachedDir m0 cur c (mkDir s (c.path ++ '/' :: s) (some cur))
        (lowerBound lt s ns)) := Frame.attachedDir _ _ hc hcd rfl
    obtain ⟨m1, cur1, idx1, hloop, hc1, hroot1, hfr, hdesc, hkeep, hnil, hcons⟩ :=
      ih _ _ _ hcur1 (by
        intro c0 ns0 hc0 hns0 s0 _
        rw [hdx] at hc0
        cases hc0
        simp only [mkDir, namesOf, Option.some.injEq] at hns0
        subst hns0
        simp)
    have hcurfin : deref m1 cur = some
        { c with dirs := insertAt m0.nodes.length (lowerBound lt s ns) c.dirs } := by
      rw [hkeep cur (by simp; omega) (by omega), hdc]
    have hxfin : ∃ xn, deref m1 m0.nodes.length = some xn ∧ xn.fileName = s ∧
        m0.nodes.length ≤ cur1 ∧ ∃ c1, deref m1 cur1 = some c1 ∧ c1.dirs = [] ∧ c1.files = [] := by
      cases rest with
      | nil =>
        obtain ⟨e1, e2⟩ := hnil rfl
        subst e1; subst e2
        exact ⟨_, hdx, rfl, Nat.le_refl _, _, hdx, rfl, rfl⟩
      | cons s2 rest2 =>
        obtain ⟨h1, h2, _, h4⟩ := hcons s2 rest2 rfl
        have h5 := h4 _ [] hdx rfl
        simp only [attachedDir_length] at h1
        exact ⟨_, h5, rfl, by omega, h2⟩
    obtain ⟨xn, hxn, hxname, hcur1lt, hfresh⟩ := hxfin
    refine ⟨m1, cur1, idx1, ?_, hc1, by rw [hroot1]; rfl, fr1.trans hfr,
      Descends.down hcurfin (mem_insertAt_self _ _ _) hxn hxname hdesc, ?_,
      fun h => absurd h (by simp), ?_⟩
    · have e1 := dirsAddAt_alloc (mkDir s (c.path ++ '/' :: s) (some cur)) hc hpos
      simp only [branchLoop, Option.bind_eq_bind, Option.some_bind, hc, hns, insIndex,
        alloc_snd, e1, hi]
      exact hloop
    · intro p hp hpc
      rw [hkeep p (by simp; omega) (by omega), hd p, if_neg hpc, if_neg (by omega)]
    · intro s0 rest0 he
      cases he
      refine ⟨hcur1lt, hfresh, ⟨xn, hxn, hxname⟩, ?_⟩
      intro c0 ns0 hc0 hns0
      rw [hc] at hc0; cases hc0
      rw [hns] at hns0; cases hns0
      exact hcurfin

end FileTreeModel


namespace FileTreeModel

/-! ## More on states with the same arena and roots -/

theorem rootChildCount_congr (m m1 : FileTreeModel) (h1 : m1.nodes = m.nodes)
    (h2 : m1.m_root = m.m_root) : rootChildCount m1 = rootChildCount m := by
  unfold rootChildCount
  rw [h2]
  cases m.m_root <;> simp [deref_congr m m1 h1]

theorem parent_congr (lt : QString → QString → Bool) (m m1 : FileTreeModel)
    (h1 : m1.nodes = m.nodes) (h2 : m1.m_root = m.m_root) (h3 : m1.m_tmpdir = m.m_tmpdir)
    (idx : QModelIndex) : parent lt m1 idx = parent lt m idx := by
  have hd : ∀ p, deref m1 p = deref m p := deref_congr m m1 h1
  have hn : ∀ ids, namesOf m1 ids = namesOf m ids := namesOf_same m m1 h1
  have hrc := rootChildCount_congr m m1 h1 h2
  cases idx with
  | invalid => rfl
  | mk r c p =>
    unfold parent
    simp only [h2, h3, hd, hn, hrc]

theorem Good.good_congr {lt : QString → QString → Bool} (m m1 : FileTreeModel)
    (h1 : m1.nodes = m.nodes) (h2 : m1.m_root = m.m_root) (h3 : m1.m_tmpdir = m.m_tmpdir)
    (h : Good lt m) : Good lt m1 := by
  obtain ⟨rk, hrk⟩ := h.ranked
  exact ⟨Inv.congr m m1 h1 h2 h3 h.inv, ⟨rk, RankOK.rank_congr m m1 h1 hrk⟩,
    RootClean.clean_congr m m1 h1 h2 h.rootClean⟩

theorem BranchPost.post_congr {lt : QString → QString → Bool} {m : FileTreeModel}
    (m1 m2 : FileTreeModel) {h : QModelIndex} {par : Nat} {fileName filePath : QString}
    {data : Nat} {displayName : QString}
    (h1 : m2.nodes = m1.nodes) (h2 : m2.m_root = m1.m_root) (h3 : m2.m_tmpdir = m1.m_tmpdir)
    (hp : BranchPost lt m m1 h par fileName filePath data displayName) :
    BranchPost lt m m2 h par fileName filePath data displayName := by
  have hd : ∀ p, deref m2 p = deref m1 p := deref_congr m1 m2 h1
  obtain ⟨row, P, e1, e2, e3⟩ := hp.handle
  exact {
    good := Good.good_congr m1 m2 h1 h2 h3 hp.good
    grows := by rw [h1]; exact hp.grows
    handle := ⟨row, P, by rw [h1]; exact e1, by rw [parent_congr lt m1 m2 h1 h2 h3]; exact e2,
      by rw [index_congr m1 m2 h1 h2 h3]; exact e3⟩
    node := by rw [hd, h1]; exact hp.node
    old_sig := fun p n hn => by rw [hd]; exact hp.old_sig p n hn
    old_file := fun p n hn hf => by rw [hd]; exact hp.old_file p n hn hf
    old_lists := fun p n hn => by rw [hd]; exact hp.old_lists p n hn
    new_file := fun p n hn hl hf => by
      rw [hd] at hn; rw [h1]; exact hp.new_file p n hn hl hf }

theorem Descends.mono_of {m m1 : FileTreeModel}
    (hs : ∀ p n, deref m p = some n → ∃ n1, deref m1 p = some n1 ∧
      n1.fileName = n.fileName ∧ ∀ c ∈ n.dirs, c ∈ n1.dirs)
    {a b : Nat} {segs : List QString} (h : Descends m a segs b) : Descends m1 a segs b := by
  induction h with
  | here a => exact Descends.here a
  | down hn hc hcn hs1 _ ih =>
    obtain ⟨n1, h1, _, h3⟩ := hs _ _ hn
    obtain ⟨cn1, g1, g2, _⟩ := hs _ _ hcn
    exact Descends.down h1 (h3 _ hc) g1 (g2.trans hs1) ih

/-! ## The state in which a re-rooting call builds its new tree -/

/-- The start of the chain below a new root: the old root pointer is dropped, the new
root node is allocated. -/
theorem ChainInv.start {lt : QString → QString → Bool} {m : FileTreeModel}
    (m4 : FileTreeModel) {r : Nat} {rn : Node} (k : Nat) (name path : QString) (segs : List QString)
    (good : Good lt m) (hr : m.m_root = some r) (hrn : deref m r = some rn)
    (h1 : m4.nodes = m.nodes) (h2 : m4.m_root = none) (h3 : m4.m_tmpdir = m.m_tmpdir)
    (hsegs : ∀ s ∈ segs, isSeg s = true) (hpath : path = dirPath segs)
    (hname : name = fileNameOf path) :
    ChainInv lt m r rn k
      { (alloc m4 (mkDir name path none)).1 with m_root := some m.nodes.length }
      m.nodes.length (mkDir name path none) := by
  have hlen : m4.nodes.length = m.nodes.length := by rw [h1]
  have inv4 : Inv lt m4 none :=
    Inv.congr { m with m_root := none } m4 h1 h2 h3 (Inv.dropRoot good.inv)
  have hd4 : ∀ p, deref m4 p = deref m p := deref_congr m m4 h1
  have hnew : deref { (alloc m4 (mkDir name path none)).1 with
      m_root := some m.nodes.length } m.nodes.length = some (mkDir name path none) := by
    rw [deref_set_root, ← hlen]; exact deref_alloc_new _ _
  have hnt : m4.m_tmpdir ≠ some m.nodes.length := by
    intro h
    obtain ⟨n, hn, _⟩ := inv4.tmp_ok _ h
    exact absurd (deref_lt hn) (by omega)
  obtain ⟨rk, hrk⟩ := good.ranked
  have hold : ∀ p, p < m.nodes.length → deref { (alloc m4 (mkDir name path none)).1 with
      m_root := some m.nodes.length } p = deref m p := by
    intro p hp
    rw [deref_set_root, deref_alloc, if_neg (by omega), hd4]
  exact {
    frame := (Frame.of_nodes_eq m m4 h1).trans
      ((Frame.frame_allocDir m4 _ rfl).trans (Frame.of_nodes_eq _ _ rfl))
    inv := by
      have := Inv.setRoot (Inv.allocDir name path inv4) (deref_alloc_new _ _) rfl rfl
        (by rw [hlen]; exact hnt)
      rw [hlen] at this
      exact this
    rank := ⟨fun p => if p = m.nodes.length then 0 else rk p + (k + 1), by
      intro p n q hp hq
      rw [deref_set_root, deref_alloc] at hp
      split at hp
      · cases hp; simp [mkDir] at hq
      · rw [hd4] at hp
        have hpl := deref_lt hp
        have hql := good.inv.parent_lt p n q hp hq
        have := hrk p n q hp hq
        simp only
        rw [if_neg (by omega), if_neg (by omega)]
        omega, by
      have := deref_lt hrn
      simp only [if_true]
      rw [if_neg (by omega)]
      omega⟩
    clean := by
      intro r1 n hr1 hn
      simp only [Option.some.injEq] at hr1
      subst hr1
      rw [hnew] at hn
      cases hn
      exact ⟨segs, hsegs, hpath, hname⟩
    node := hnew
    isDir := rfl
    dirs := rfl
    files := rfl
    not_tmp := hnt
    tmp_eq := h3
    r_old := deref_lt hrn
    cur_new := Nat.le_refl _
    old := hrn
    keep := hold }

end FileTreeModel


namespace FileTreeModel

theorem ChainInv.chain_congr {lt : QString → QString → Bool} {m : FileTreeModel} {r : Nat}
    {rn : Node} {k : Nat} (m1 m2 : FileTreeModel) {cur : Nat} {c : Node}
    (h1 : m2.nodes = m1.nodes) (h2 : m2.m_root = m1.m_root) (h3 : m2.m_tmpdir = m1.m_tmpdir)
    (h : ChainInv lt m r rn k m1 cur c) : ChainInv lt m r rn k m2 cur c := by
  have hd : ∀ p, deref m2 p = deref m1 p := deref_congr m1 m2 h1
  obtain ⟨rk, hrk, hb⟩ := h.rank
  exact {
    frame := h.frame.trans (Frame.of_nodes_eq m1 m2 h1)
    inv := Inv.congr m1 m2 h1 h2 h3 h.inv
    rank := ⟨rk, RankOK.rank_congr m1 m2 h1 hrk, hb⟩
    clean := RootClean.clean_congr m1 m2 h1 h2 h.clean
    node := by rw [hd]; exact h.node
    isDir := h.isDir
    dirs := h.dirs
    files := h.files
    not_tmp := by rw [h3]; exact h.not_tmp
    tmp_eq := by rw [h3]; exact h.tmp_eq
    r_old := h.r_old
    cur_new := h.cur_new
    old := h.old
    keep := fun p hp => by rw [hd]; exact h.keep p hp }

/-- The new root with the chain down to the old root (lines 78-84 and 128-138): after the
chain loop and the re-parenting the cursor of the call is at the new root. -/
theorem reroot_spec {lt : QString → QString → Bool} (hlt : StrictWeak lt)
    {m : FileTreeModel} (m6 : FileTreeModel) {r : Nat} {rn : Node}
    (name path : QString) (segs parts : List QString)
    (good : Good lt m) (hr : m.m_root = some r) (hrn : deref m r = some rn)
    (h6n : m6.nodes = m.nodes ++ [mkDir name path none])
    (h6r : m6.m_root = some m.nodes.length) (h6t : m6.m_tmpdir = m.m_tmpdir)
    (hsegs : ∀ s ∈ segs, isSeg s = true) (hpath : path = dirPath segs)
    (hname : name = fileNameOf path) :
    ∃ m7 cur1 m8 c8, chainLoop lt m6 m.nodes.length parts = some (m7, cur1) ∧
      attachOldRoot lt m7 cur1 r = some m8 ∧
      Cursor lt m m8 m.nodes.length .invalid ∧ Inv lt m8 none ∧
      m8.m_root = some m.nodes.length ∧ m8.m_tmpdir = m.m_tmpdir ∧
      deref m8 m.nodes.length = some c8 ∧ c8.path = path ∧ c8.fileName = name ∧
      c8.files = [] ∧ c8.dirs.length = 1 ∧
      Descends m8 m.nodes.length parts cur1 ∧
      Descends m8 m.nodes.length (parts ++ [rn.fileName]) r ∧
      deref m8 r = some { rn with parent := some cur1 } ∧
      (∀ p, p < m.nodes.length → p ≠ r → deref m8 p = deref m p) ∧
      m.nodes.length < m8.nodes.length ∧
      m.nodes.length ≤ cur1 ∧ SoleChain m8 m.nodes.length cur1 ∧
      ∃ n, deref m8 cur1 = some n ∧ n.isDir = true ∧ n.dirs = [r] ∧ n.files = [] := by
  obtain ⟨rn0, hrn0, hrd, hrp⟩ := good.inv.root_ok r hr
  rw [hrn] at hrn0; cases hrn0
  have hrl := deref_lt hrn
  have hstart0 := ChainInv.start { m with m_root := none } parts.length name path segs
    good hr hrn rfl rfl rfl hsegs hpath hname
  have hstart : ChainInv lt m r rn parts.length m6 m.nodes.length (mkDir name path none) :=
    ChainInv.chain_congr { (alloc { m with m_root := none } (mkDir name path none)).1 with
      m_root := some m.nodes.length } m6 h6n h6r h6t hstart0
  obtain ⟨m7, cur1, c1, hloop, hinv7, hroot7, hdesc7, _, _, hlen7, c2, hc2, hc2n, hc2p, _,
    hc2d, hc2f, hcase⟩ := chainLoop_spec hlt m r rn parts m6 m.nodes.length _ hstart
  have hlen6 : m6.nodes.length = m.nodes.length + 1 := by rw [h6n]; simp
  have hr7 : deref m7 r = some rn := by rw [hinv7.keep r hinv7.r_old]; exact hrn
  have hcn1 := hinv7.cur_new
  have hne : r ≠ cur1 := by omega
  have hnel : r ≠ m.nodes.length := by omega
  have hroot7' : m7.m_root = some m.nodes.length := by rw [hroot7, h6r]
  have htr : m7.m_tmpdir ≠ some r := by
    rw [hinv7.tmp_eq]; exact good.inv.root_ne_tmp r hr
  have hd8 := deref_store2 m7 cur1 r { c1 with dirs := [r] } { rn with parent := some cur1 }
    (deref_lt hinv7.node) (deref_lt hr7)
  have inv8 : Inv lt (store (store m7 cur1 { c1 with dirs := [r] }) r
      { rn with parent := some cur1 }) none :=
    Inv.attachOld hinv7.inv hinv7.node hinv7.isDir hr7 hrd hrp hne
      (by rw [hroot7']; intro h; exact hnel (Option.some.inj h).symm) htr hinv7.not_tmp
  have fr78 : Frame m7 (store (store m7 cur1 { c1 with dirs := [r] }) r
      { rn with parent := some cur1 }) :=
    Frame.frame_attachOld hinv7.node hinv7.isDir hinv7.dirs hr7 hrd
  obtain ⟨rk, hrk, hb⟩ := hinv7.rank
  have hdr8 : deref (store (store m7 cur1 { c1 with dirs := [r] }) r
      { rn with parent := some cur1 }) r = some { rn with parent := some cur1 } := by
    rw [hd8, if_pos rfl]
  have hdc8 : deref (store (store m7 cur1 { c1 with dirs := [r] }) r
      { rn with parent := some cur1 }) cur1 = some { c1 with dirs := [r] } := by
    rw [hd8, if_neg (Ne.symm hne), if_pos rfl]
  have hdesc8 : Descends (store (store m7 cur1 { c1 with dirs := [r] }) r
      { rn with parent := some cur1 }) m.nodes.length parts cur1 := hdesc7.mono fr78
  -- the node of the new root
  have hc8 : ∃ c8, deref (store (store m7 cur1 { c1 with dirs := [r] }) r
      { rn with parent := some cur1 }) m.nodes.length = some c8 ∧ c8.path = path ∧
      c8.fileName = name ∧ c8.files = [] ∧ c8.dirs.length = 1 ∧ c8.isDir = true := by
    rcases hcase with ⟨_, e2, e3⟩ | ⟨d, e1, e2⟩
    · subst e2
      subst e3
      have := hinv7.node
      rw [hc2] at this
      cases this
      exact ⟨_, hdc8, rfl, rfl, rfl, rfl, rfl⟩
    · have hne2 : m.nodes.length ≠ cur1 := by omega
      refine ⟨c2, ?_, ?_, ?_, hc2f, by rw [e1]; rfl, hc2d⟩
      · rw [hd8, if_neg (Ne.symm hnel), if_neg hne2]; exact hc2
      · rw [hc2p]; rfl
      · rw [hc2n]; rfl
  obtain ⟨c8, hc8, hc8p, hc8n, hc8f, hc8l, hc8d⟩ := hc8
  have htmp8 : (store (store m7 cur1 { c1 with dirs := [r] }) r
      { rn with parent := some cur1 }).m_tmpdir = m.m_tmpdir := hinv7.tmp_eq
  have hnt8 : m.m_tmpdir ≠ some m.nodes.length := by
    intro h
    obtain ⟨n, hn, _⟩ := good.inv.tmp_ok _ h
    exact absurd (deref_lt hn) (by omega)
  have hsn := Descends.snoc hdesc8 hdc8 (List.mem_singleton_self r) hdr8
  obtain ⟨_, _, hsole7⟩ := chainLoop_chain parts m6 m.nodes.length _ m7 cur1 hstart.node
    rfl rfl rfl hlen6 hloop
  refine ⟨m7, cur1, _, c8, hloop, attachOldRoot_eq hinv7.node hinv7.dirs hr7 hne, ?_, inv8,
    hroot7', htmp8, hc8, hc8p, hc8n, hc8f, hc8l, hdesc8, hsn, hdr8, ?_, ?_, hcn1, ?_,
    ⟨_, hdc8, hinv7.isDir, rfl, hinv7.files⟩⟩
  rotate_right
  · intro k hk1 hk2
    obtain ⟨n, hn, hn1, hn2, hn3⟩ := hsole7 k hk1 hk2
    exact ⟨n, by rw [hd8, if_neg (by omega), if_neg (by omega)]; exact hn, hn1, hn2, hn3⟩
  · exact {
      frame := hinv7.frame.trans fr78
      ranked := ⟨rk, RankOK.rank_attachOld hrk hinv7.node hr7 (by omega)⟩
      clean := RootClean.of_sig m7 _ rfl fr78.old_sig
        (fun r1 hr1 => by obtain ⟨n, hn, _⟩ := hinv7.inv.root_ok r1 hr1; exact ⟨n, hn⟩)
        hinv7.clean
      node := ⟨c8, hc8, hc8d, fun h => absurd hroot7' h, Or.inl inv8⟩
      not_tmp := by rw [htmp8]; exact hnt8
      idx_ok := Or.inl ⟨rfl, hroot7'⟩
      tmp_eq := htmp8 }
  · intro p hp hpr
    rw [hd8, if_neg hpr, if_neg (by omega)]
    exact hinv7.keep p hp
  · simp only [store_length]
    omega

end FileTreeModel


namespace FileTreeModel

/-! ## Branch "root below the new directory" -/

/-- Lines 70-87. -/
theorem insertAbove_post {lt : QString → QString → Bool} (hlt : StrictWeak lt)
    {m : FileTreeModel} {r : Nat} {rn : Node}
    (fileDir filePath fileName : QString) (data : Nat) (displayName : QString)
    (segs : List QString) (good : Good lt m) (hr : m.m_root = some r)
    (hrn : deref m r = some rn) (hsegs : ∀ s ∈ segs, isSeg s = true)
    (hdir : fileDir = dirPath segs) :
    ∃ m1 h cur1 c9, insertAbove lt m r fileDir filePath fileName data displayName
        = some (m1, h) ∧
      BranchPost lt m m1 h m.nodes.length fileName filePath data displayName ∧
      m1.m_root = some m.nodes.length ∧ m1.m_tmpdir = m.m_tmpdir ∧
      m1.m_tmpdir ≠ some m.nodes.length ∧
      deref m1 m.nodes.length = some c9 ∧ c9.path = fileDir ∧
      c9.files = [m1.nodes.length - 1] ∧ c9.dirs.length = 1 ∧
      Descends m1 m.nodes.length (splitSlash (mid rn.path fileDir.length)).dropLast cur1 ∧
      Descends m1 m.nodes.length
        ((splitSlash (mid rn.path fileDir.length)).dropLast ++ [rn.fileName]) r ∧
      deref m1 r = some { rn with parent := some cur1 } ∧
      (∀ p, p < m.nodes.length → p ≠ r → deref m1 p = deref m p) ∧
      ∃ m2, removeIndex lt m1 h = some (m2, true) ∧ Rerooted m m2 := by
  obtain ⟨m7, cur1, m8, c8, hloop, hatt, hcur8, inv8, hroot8, htmp8, hc8, hc8p, _, hc8f, hc8l,
    hdesc1, hdesc2, hr8, hkeep8, hlen8, hle8, hsole8, hlast8⟩ :=
    reroot_spec hlt
      { (alloc (emit (emit { emit m (.beginRemoveRows .invalid 0
          ((rn.childCount : Int) - 1)) with m_root := none } .endRemoveRows)
          (.beginInsertRows .invalid 0 1)) (mkDir (fileNameOf fileDir) fileDir none)).1 with
          m_root := some m.nodes.length }
      (fileNameOf fileDir) fileDir segs
      (splitSlash (mid rn.path fileDir.length)).dropLast good hr hrn
      rfl rfl rfl hsegs hdir rfl
  have hns : namesOf m8 c8.files = some [] := by rw [hc8f]; rfl
  have hcl := deref_lt hc8
  obtain ⟨hi0, hpost0⟩ := finish_cursor hlt .endInsertRows fileName filePath data displayName
    hcur8 hc8 hns
  have hpost := BranchPost.post_congr (emit (attachedFile (emit m8 .endInsertRows) m.nodes.length c8
      (mkFile fileName filePath (some m.nodes.length) data displayName)
      (lowerBound lt fileName [])) .endInsertRows) (emit (attachedFile m8 m.nodes.length c8
      (mkFile fileName filePath (some m.nodes.length) data displayName)
      (lowerBound lt fileName [])) .endInsertRows) rfl rfl rfl hpost0
  have h1 : 1 + lowerBound lt fileName [] = 1 := rfl
  have hi : index (emit (attachedFile m8 m.nodes.length c8
      (mkFile fileName filePath (some m.nodes.length) data displayName)
      (lowerBound lt fileName [])) .endInsertRows) 1 0 .invalid
      = some (.mk 1 0 m8.nodes.length) := by
    rw [hc8l, h1] at hi0
    rw [← hi0]
    exact index_congr (emit (attachedFile (emit m8 .endInsertRows) m.nodes.length c8
      (mkFile fileName filePath (some m.nodes.length) data displayName)
      (lowerBound lt fileName [])) .endInsertRows)
      (emit (attachedFile m8 m.nodes.length c8
      (mkFile fileName filePath (some m.nodes.length) data displayName)
      (lowerBound lt fileName [])) .endInsertRows) rfl rfl rfl _ _ _
  rw [hc8l, h1] at hpost
  have hd : ∀ p, deref (emit (attachedFile m8 m.nodes.length c8
      (mkFile fileName filePath (some m.nodes.length) data displayName)
      (lowerBound lt fileName [])) .endInsertRows) p =
      if p = m.nodes.length then
        some { c8 with files := insertAt m8.nodes.length (lowerBound lt fileName []) c8.files }
      else if p = m8.nodes.length then
        some (mkFile fileName filePath (some m.nodes.length) data displayName)
      else deref m8 p := by
    intro p
    rw [deref_emit, deref_attachedFile _ _ _ _ _ hcl]
  have hmono : ∀ p n, deref m8 p = some n → ∃ n1, deref (emit (attachedFile m8 m.nodes.length
      c8 (mkFile fileName filePath (some m.nodes.length) data displayName)
      (lowerBound lt fileName [])) .endInsertRows) p = some n1 ∧
      n1.fileName = n.fileName ∧ ∀ c ∈ n.dirs, c ∈ n1.dirs := by
    intro p n hp
    rw [hd]
    by_cases h1 : p = m.nodes.length
    · subst h1
      rw [hc8] at hp; cases hp
      exact ⟨{ c8 with files := insertAt m8.nodes.length (lowerBound lt fileName []) c8.files },
        by rw [if_pos rfl], rfl, fun _ h => h⟩
    · have := deref_lt hp
      rw [if_neg h1, if_neg (by omega)]
      exact ⟨n, hp, rfl, fun _ h => h⟩
  have hrl := deref_lt hrn
  obtain ⟨_, _, _, hpar, _⟩ := hpost.handle
  obtain ⟨m2, hm2, u1, u2, u3⟩ := undo_file hlt hpost.good hc8
    (by simp only [Node.childCount]; omega) hns
    (x := mkFile fileName filePath (some m.nodes.length) data displayName) rfl rfl hd
    hpar
  have hre : Rerooted m m2 :=
    ⟨r, rn, cur1, hr, hrn, by rw [u1]; simpa using hroot8, by rw [u2]; simpa using htmp8,
      by rw [u3 r (by omega)]; exact hr8,
      fun p hp hpr => by rw [u3 p (by omega)]; exact hkeep8 p hp hpr, hle8,
      fun k hk1 hk2 => by
        obtain ⟨n, hn, hn1⟩ := hsole8 k hk1 hk2
        exact ⟨n, by rw [u3 k (deref_lt hn)]; exact hn, hn1⟩,
      by
        obtain ⟨n, hn, hn1⟩ := hlast8
        exact ⟨n, by rw [u3 cur1 (deref_lt hn)]; exact hn, hn1⟩⟩
  refine ⟨_, _, cur1,
    { c8 with files := (insertAt m8.nodes.length (lowerBound lt fileName []) c8.files) }, ?_, hpost, by simpa using hroot8, by simpa using htmp8, ?_, ?_, hc8p, ?_,
    hc8l, hdesc1.mono_of hmono, hdesc2.mono_of hmono, ?_, ?_, m2, hm2, hre⟩
  · have e1 := filesAdd_alloc lt
      (mkFile fileName filePath (some m.nodes.length) data displayName) hc8 hns
    simp only [insertAbove, Option.bind_eq_bind, Option.some_bind, hrn, alloc_snd, emit_nodes]
    erw [hloop]
    simp only [Option.some_bind]
    erw [hatt]
    simp only [Option.some_bind]
    erw [e1]
    simp only [Option.some_bind]
    erw [hi]
    rfl
  · have := hcur8.not_tmp
    simpa using this
  · rw [hd, if_pos rfl]
  · simp [hc8f, insertAt, lowerBound]
  · have : r ≠ m.nodes.length := by omega
    rw [hd, if_neg this, if_neg (by omega)]
    exact hr8
  · intro p hp hpr
    rw [hd, if_neg (by omega), if_neg (by omega)]
    exact hkeep8 p hp hpr

end FileTreeModel


namespace FileTreeModel

/-! ## Branch "unrelated trees" -/

theorem Descends.head {m : FileTreeModel} {a b : Nat} {s : QString} {segs : List QString}
    (h : Descends m a (s :: segs) b) :
    ∃ n c cn, deref m a = some n ∧ c ∈ n.dirs ∧ deref m c = some cn ∧ cn.fileName = s ∧
      Descends m c segs b := by
  cases h with
  | down hn hc hcn hs hrest => exact ⟨_, _, _, hn, hc, hcn, hs, hrest⟩

/-- The segments of the root below position `pos`, the last one read off the root's name. -/
theorem drop_dropLast_fileName (rs : List QString) (pos : Nat) (hrs : ∀ s ∈ rs, isSeg s = true)
    (hpos : pos < rs.length) :
    (rs.drop pos).dropLast ++ [fileNameOf (dirPath rs)] = rs.drop pos := by
  have hne : rs ≠ [] := by intro h; rw [h] at hpos; simp at hpos
  have hdne : rs.drop pos ≠ [] := by
    intro h
    have := congrArg List.length h
    simp at this
    omega
  have hlast : fileNameOf (dirPath rs) = rs.getLast hne := by
    have hsplit := List.dropLast_append_getLast hne
    have hseg : isSeg (rs.getLast hne) = true := hrs _ (List.getLast_mem hne)
    conv_lhs => rw [← hsplit]
    exact fileNameOf_dirPath_snoc _ _ hseg
  have hl2 : (rs.drop pos).getLast hdne = rs.getLast hne := List.getLast_drop hdne
  rw [hlast, ← hl2]
  exact List.dropLast_append_getLast hdne

/-- Lines 113-151. -/
theorem insertUnrelated_post {lt : QString → QString → Bool} (hlt : StrictWeak lt)
    {m : FileTreeModel} {r : Nat} {rn : Node}
    (fileDir filePath fileName : QString) (data : Nat) (displayName : QString)
    (rs ds : List QString) (good : Good lt m) (hr : m.m_root = some r)
    (hrn : deref m r = some rn)
    (hrs : ∀ s ∈ rs, isSeg s = true) (hrpath : rn.path = dirPath rs)
    (hrname : rn.fileName = fileNameOf rn.path)
    (hds : ∀ s ∈ ds, isSeg s = true) (hdir : fileDir = dirPath ds)
    (h1 : startsWith rn.path fileDir = false) (h2 : startsWith fileDir rn.path = false) :
    ∃ m1 h cur1 cur2 c9 c10, insertUnrelated lt m r fileDir filePath fileName data displayName
        = some (m1, h) ∧
      BranchPost lt m m1 h cur2 fileName filePath data displayName ∧
      m1.m_root = some m.nodes.length ∧ m1.m_tmpdir = m.m_tmpdir ∧
      m1.m_tmpdir ≠ some cur2 ∧
      deref m1 m.nodes.length = some c9 ∧ c9.path = dirPath (rs.take (commonLen rs ds)) ∧
      c9.files = [] ∧ c9.dirs.length = 2 ∧
      Descends m1 m.nodes.length (rs.drop (commonLen rs ds)).dropLast cur1 ∧
      Descends m1 m.nodes.length (rs.drop (commonLen rs ds)) r ∧
      Descends m1 m.nodes.length (ds.drop (commonLen rs ds)) cur2 ∧
      deref m1 cur2 = some c10 ∧ c10.dirs = [] ∧ c10.files = [m1.nodes.length - 1] ∧
      deref m1 r = some { rn with parent := some cur1 } ∧
      (∀ p, p < m.nodes.length → p ≠ r → deref m1 p = deref m p) ∧
      ∃ m2, removeIndex lt m1 h = some (m2, true) ∧ Rerooted m m2 := by
  have hsr : splitSlash rn.path = rs := by rw [hrpath]; exact splitSlash_dirPath rs hrs
  have hsd : splitSlash fileDir = ds := by rw [hdir]; exact splitSlash_dirPath ds hds
  rw [hrpath, hdir] at h1
  rw [hrpath, hdir] at h2
  obtain ⟨hpr, hpd⟩ := commonLen_lt_of_unrelated rs ds h1 h2
  have hnr : '/' :: joinSlash (rs.take (commonLen rs ds)) = dirPath (rs.take (commonLen rs ds)) :=
    joinSlash_dirPath _
  have htake : ∀ s ∈ rs.take (commonLen rs ds), isSeg s = true :=
    fun s hs => hrs s (List.mem_of_mem_take hs)
  obtain ⟨m7, cur1, m8, c8, hloop, hatt, hcur8, inv8, hroot8, htmp8, hc8, hc8p, _, hc8f, hc8l,
    hdesc1, hdesc2, hr8, hkeep8, hlen8, hle8, hsole8, hlast8⟩ :=
    reroot_spec hlt
      (emit { (alloc (emit { emit m (.beginRemoveRows .invalid 0
          ((rn.childCount : Int) - 1)) with m_root := none } .endRemoveRows)
          (mkDir (fileNameOf (dirPath (rs.take (commonLen rs ds))))
            (dirPath (rs.take (commonLen rs ds))) none)).1 with
          m_root := some m.nodes.length } (.beginInsertRows .invalid 0 1))
      (fileNameOf (dirPath (rs.take (commonLen rs ds)))) (dirPath (rs.take (commonLen rs ds)))
      (rs.take (commonLen rs ds)) (rs.drop (commonLen rs ds)).dropLast good hr hrn
      rfl rfl rfl htake rfl rfl
  have hfull : (rs.drop (commonLen rs ds)).dropLast ++ [rn.fileName]
      = rs.drop (commonLen rs ds) := by
    rw [hrname, hrpath]; exact drop_dropLast_fileName rs _ hrs hpr
  rw [hfull] at hdesc2
  -- the first segments below the new root differ
  obtain ⟨x, hx⟩ : ∃ x, rs[commonLen rs ds]? = some x :=
    ⟨_, List.getElem?_eq_getElem hpr⟩
  obtain ⟨y, hy⟩ : ∃ y, ds[commonLen rs ds]? = some y :=
    ⟨_, List.getElem?_eq_getElem hpd⟩
  have hxy : x ≠ y := commonLen_differ rs ds x y hx hy
  have hrd : rs.drop (commonLen rs ds) = x :: rs.drop (commonLen rs ds + 1) := by
    rw [List.drop_eq_getElem_cons hpr]
    simp only [List.getElem?_eq_getElem hpr, Option.some.injEq] at hx
    rw [hx]
  have hdd : ds.drop (commonLen rs ds) = y :: ds.drop (commonLen rs ds + 1) := by
    rw [List.drop_eq_getElem_cons hpd]
    simp only [List.getElem?_eq_getElem hpd, Option.some.injEq] at hy
    rw [hy]
  rw [hrd] at hdesc2
  obtain ⟨n0, d, dn, hn0, hdmem, hdn, hdname, _⟩ := hdesc2.head
  rw [hc8] at hn0; cases hn0
  have hc8dirs : c8.dirs = [d] := by
    match hl : c8.dirs, hc8l, hdmem with
    | [e], _, hmem =>
      rw [hl] at hdmem
      simp only [List.mem_singleton] at hdmem
      rw [hdmem]
  have hns8 : namesOf m8 c8.dirs = some [x] := by
    rw [hc8dirs]; simp [namesOf, hdn, hdname]
  obtain ⟨m9, cur2, idx, hbranch, hcur9, hroot9, hfr9, hdesc9, hkeep9, _, hcons9⟩ :=
    branchLoop_spec hlt m (ds.drop (commonLen rs ds)) m8 m.nodes.length .invalid hcur8 (by
      intro c ns hc hns s hs
      rw [hc8] at hc; cases hc
      rw [hns8] at hns; cases hns
      rw [hdd] at hs
      simp only [List.head?_cons, Option.mem_def, Option.some.injEq] at hs
      subst hs
      simpa using hxy.symm)
  obtain ⟨hcur2lt, ⟨c1, hc1, hc1d, hc1f⟩, _, hrootnode⟩ := hcons9 y _ hdd
  have hroot9n := hrootnode c8 [x] hc8 hns8
  have hns : namesOf m9 c1.files = some [] := by rw [hc1f]; rfl
  have hcl := deref_lt hc1
  obtain ⟨hi0, hpost0⟩ := finish_cursor hlt .endInsertRows fileName filePath data displayName
    hcur9 hc1 hns
  have hz : c1.dirs.length + lowerBound lt fileName [] = 0 := by rw [hc1d]; rfl
  rw [hz] at hi0 hpost0
  have hpost := BranchPost.post_congr (emit (attachedFile (emit m9 .endInsertRows) cur2 c1
      (mkFile fileName filePath (some cur2) data displayName)
      (lowerBound lt fileName [])) .endInsertRows) (emit (attachedFile m9 cur2 c1
      (mkFile fileName filePath (some cur2) data displayName)
      (lowerBound lt fileName [])) .endInsertRows) rfl rfl rfl hpost0
  have hi : index (emit (attachedFile m9 cur2 c1
      (mkFile fileName filePath (some cur2) data displayName)
      (lowerBound lt fileName [])) .endInsertRows) 0 0 idx
      = some (.mk 0 0 m9.nodes.length) := by
    rw [← hi0]
    exact index_congr (emit (attachedFile (emit m9 .endInsertRows) cur2 c1
      (mkFile fileName filePath (some cur2) data displayName)
      (lowerBound lt fileName [])) .endInsertRows)
      (emit (attachedFile m9 cur2 c1
      (mkFile fileName filePath (some cur2) data displayName)
      (lowerBound lt fileName [])) .endInsertRows) rfl rfl rfl _ _ _
  have hd : ∀ p, deref (emit (attachedFile m9 cur2 c1
      (mkFile fileName filePath (some cur2) data displayName)
      (lowerBound lt fileName [])) .endInsertRows) p =
      if p = cur2 then
        some { c1 with files := (insertAt m9.nodes.length (lowerBound lt fileName []) c1.files) }
      else if p = m9.nodes.length then
        some (mkFile fileName filePath (some cur2) data displayName)
      else deref m9 p := by
    intro p
    rw [deref_emit, deref_attachedFile _ _ _ _ _ hcl]
  have hmono : ∀ p n, deref m9 p = some n → ∃ n1, deref (emit (attachedFile m9 cur2
      c1 (mkFile fileName filePath (some cur2) data displayName)
      (lowerBound lt fileName [])) .endInsertRows) p = some n1 ∧
      n1.fileName = n.fileName ∧ ∀ c ∈ n.dirs, c ∈ n1.dirs := by
    intro p n hp
    rw [hd]
    by_cases h1 : p = cur2
    · subst h1
      rw [hc1] at hp; cases hp
      exact ⟨{ c1 with files := (insertAt m9.nodes.length (lowerBound lt fileName []) c1.files) },
        by rw [if_pos rfl], rfl, fun _ h => h⟩
    · have := deref_lt hp
      rw [if_neg h1, if_neg (by omega)]
      exact ⟨n, hp, rfl, fun _ h => h⟩
  have hrl := deref_lt hrn
  have hlen9 := hfr9.len
  have hposle : lowerBound lt y [x] ≤ c8.dirs.length := by
    rw [hc8dirs]
    exact lowerBound_le lt y [x]
  have hung : Hung lt m8 m9 m.nodes.length m8.nodes.length cur2 :=
    branchLoop_delta y _ .invalid hc8 (by rw [← hdd]; exact hbranch)
  obtain ⟨m2, hm2, u1, u2, u3⟩ := @undo_chain lt hlt _ _ _ _ _ _ 0 0 _
    (mkFile fileName filePath (some cur2) data displayName) hpost.good hung hc1
    (fun pn hpn => by
      rw [hc8] at hpn; cases hpn
      exact ⟨by simp only [Node.childCount]; omega,
        Or.inl (by simpa [hroot9] using hroot8)⟩)
    rfl
    (fun p => by rw [hd p]; simp [hc1f, insertAt, lowerBound])
  have hre : Rerooted m m2 :=
    ⟨r, rn, cur1, hr, hrn, by rw [u1]; simpa [hroot9] using hroot8,
      by rw [u2]; simpa using hcur9.tmp_eq,
      by rw [u3 r (by omega)]; exact hr8,
      fun p hp hpr => by rw [u3 p (by omega)]; exact hkeep8 p hp hpr, hle8,
      fun k hk1 hk2 => by
        obtain ⟨n, hn, hn1⟩ := hsole8 k hk1 hk2
        exact ⟨n, by rw [u3 k (deref_lt hn)]; exact hn, hn1⟩,
      by
        obtain ⟨n, hn, hn1⟩ := hlast8
        exact ⟨n, by rw [u3 cur1 (deref_lt hn)]; exact hn, hn1⟩⟩
  refine ⟨_, _, cur1, cur2,
    { c8 with dirs := (insertAt m8.nodes.length (lowerBound lt y [x]) c8.dirs) },
    { c1 with files := (insertAt m9.nodes.length (lowerBound lt fileName []) c1.files) },
    ?_, hpost, by simpa [hroot9] using hroot8, by simpa using hcur9.tmp_eq, ?_, ?_, hc8p, hc8f, ?_,
    (hdesc1.mono hfr9).mono_of hmono, ?_, hdesc9.mono_of hmono, ?_, hc1d, ?_, ?_, ?_,
    m2, hm2, hre⟩
  · have e1 := filesAdd_alloc lt
      (mkFile fileName filePath (some cur2) data displayName) hc1 hns
    simp only [insertUnrelated, Option.bind_eq_bind, Option.some_bind, hrn, alloc_snd,
      emit_nodes, hsr, hsd, hnr]
    erw [hloop]
    simp only [Option.some_bind]
    erw [hatt]
    simp only [Option.some_bind]
    erw [hbranch]
    simp only [Option.some_bind]
    erw [e1]
    simp only [Option.some_bind]
    erw [hi]
    rfl
  · have := hcur9.not_tmp
    simpa using this
  · have : m.nodes.length ≠ cur2 := by omega
    rw [hd, if_neg this, if_neg (by omega)]
    exact hroot9n
  · simp only [insertAt_length _ _ _ hposle, hc8l]
  · have hdesc2' : Descends m8 m.nodes.length (rs.drop (commonLen rs ds)) r := by
      rw [hrd]
      exact Descends.down hc8 hdmem hdn hdname (by assumption)
    exact (hdesc2'.mono hfr9).mono_of hmono
  · rw [hd, if_pos rfl]
  · simp [hc1f, insertAt, lowerBound]
  · have h3 : r ≠ cur2 := by omega
    rw [hd, if_neg h3, if_neg (by omega), hkeep9 r (by omega) (by omega)]
    exact hr8
  · intro p hp hpr
    rw [hd, if_neg (by omega), if_neg (by omega), hkeep9 p (by omega) (by omega)]
    exact hkeep8 p hp hpr

end FileTreeModel


namespace FileTreeModel

/-! ## `insertFile`, all branches -/

/-- Which branch `insertFile` takes. -/
theorem insertFile_branch (lt : QString → QString → Bool) (tempPath : QString)
    (m : FileTreeModel) (segs : List QString) (name : QString) (data : Nat)
    (displayName : QString) (hname : isSeg name = true) :
    insertFile lt tempPath m (filePathOf segs name) data displayName =
      if startsWith (dirPath segs) tempPath then
        insertScratch lt tempPath m (filePathOf segs name) name data displayName
      else
        match m.m_root with
        | none => insertInitial lt m (dirPath segs) (filePathOf segs name) name data displayName
        | some r =>
          match deref m r with
          | none => none
          | some rn =>
            if rn.path = dirPath segs then
              insertAtRoot lt m r (filePathOf segs name) name data displayName
            else if startsWith rn.path (dirPath segs) then
              insertAbove lt m r (dirPath segs) (filePathOf segs name) name data displayName
            else if startsWith (dirPath segs) rn.path then
              insertBelow lt m r (dirPath segs) (filePathOf segs name) name data displayName
            else
              insertUnrelated lt m r (dirPath segs) (filePathOf segs name) name data
                displayName := by
  simp only [insertFile, absolutePath_filePathOf segs name hname,
    fileNameOf_filePathOf segs name hname] <;> rfl

/-- Every call of `insertFile` with a clean absolute path returns, keeps the invariant,
and puts the new file node below some node `par`; under the temporary directory `par`
is the scratch root and the main root stays, otherwise the scratch root stays and is
not `par`. -/
theorem insertFile_post {lt : QString → QString → Bool} (hlt : StrictWeak lt)
    (tempPath : QString) {m : FileTreeModel} (segs : List QString)
    (name : QString) (data : Nat) (displayName : QString) (good : Good lt m)
    (hsegs : ∀ s ∈ segs, isSeg s = true) (hname : isSeg name = true) :
    ∃ m1 h par, insertFile lt tempPath m (filePathOf segs name) data displayName
        = some (m1, h) ∧
      BranchPost lt m m1 h par name (filePathOf segs name) data displayName ∧
      (startsWith (dirPath segs) tempPath = true →
        m1.m_root = m.m_root ∧ m1.m_tmpdir = some par ∧
        (m.m_tmpdir = some par ∨ (m.m_tmpdir = none ∧ par = m.nodes.length)) ∧
        ∀ p, p < m.nodes.length → some p ≠ m.m_tmpdir → deref m1 p = deref m p) ∧
      (startsWith (dirPath segs) tempPath = false →
        m1.m_tmpdir = m.m_tmpdir ∧ m1.m_tmpdir ≠ some par) := by
  rw [insertFile_branch lt tempPath m segs name data displayName hname]
  by_cases ht : startsWith (dirPath segs) tempPath = true
  · rw [if_pos ht]
    obtain ⟨m1, h, t, he, hp, h1, h2, h3, h4, _⟩ :=
      insertScratch_post hlt tempPath (filePathOf segs name) name data displayName good
    exact ⟨m1, h, t, he, hp, fun _ => ⟨h1, h2, h3, h4⟩, fun hf => by rw [hf] at ht; cases ht⟩
  · rw [if_neg ht]
    match hr : m.m_root with
    | none =>
      obtain ⟨m1, h, par, he, hp, _, h2, h3, _⟩ :=
        insertInitial_post hlt (dirPath segs) (filePathOf segs name) name data displayName
          segs good hsegs rfl
      exact ⟨m1, h, par, he, hp, fun hf => absurd hf ht, fun _ => ⟨h2, h3⟩⟩
    | some r =>
      obtain ⟨rn, hrn, _, _⟩ := good.inv.root_ok r hr
      obtain ⟨rs, hrs, hrpath, hrname⟩ := good.rootClean r rn hr hrn
      simp only [hrn]
      by_cases h1 : rn.path = dirPath segs
      · rw [if_pos h1]
        obtain ⟨m1, h, he, hp, _, h3, _⟩ :=
          insertAtRoot_post hlt (filePathOf segs name) name data displayName good hr
        refine ⟨m1, h, r, he, hp, fun hf => absurd hf ht, fun _ => ⟨h3, ?_⟩⟩
        rw [h3]
        exact good.inv.root_ne_tmp r hr
      · rw [if_neg h1]
        by_cases h2 : startsWith rn.path (dirPath segs) = true
        · rw [if_pos h2]
          obtain ⟨m1, h, cur1, c9, he, hp, _, h4, h5, _⟩ :=
            insertAbove_post hlt (dirPath segs) (filePathOf segs name) name data
              displayName segs good hr hrn hsegs rfl
          exact ⟨m1, h, _, he, hp, fun hf => absurd hf ht, fun _ => ⟨h4, h5⟩⟩
        · rw [if_neg h2]
          by_cases h3 : startsWith (dirPath segs) rn.path = true
          · rw [if_pos h3]
            obtain ⟨m1, h, par, he, hp, _, h5, h6, _⟩ :=
              insertBelow_post hlt (dirPath segs) (filePathOf segs name) name data
                displayName good hr
            exact ⟨m1, h, par, he, hp, fun hf => absurd hf ht, fun _ => ⟨h5, h6⟩⟩
          · rw [if_neg h3]
            obtain ⟨m1, h, cur1, cur2, c9, c10, he, hp, _, h5, h6, _⟩ :=
              insertUnrelated_post hlt (dirPath segs) (filePathOf segs name) name data
                displayName rs segs good hr hrn hrs hrpath hrname hsegs rfl
                (by simpa using h2) (by simpa using h3)
            exact ⟨m1, h, cur2, he, hp, fun hf => absurd hf ht, fun _ => ⟨h5, h6⟩⟩

theorem startsWith_antisymm {a b : QString} (h1 : startsWith a b = true)
    (h2 : startsWith b a = true) : a = b := by
  obtain ⟨t, ht⟩ := startsWith_iff.1 h1
  obtain ⟨u, hu⟩ := startsWith_iff.1 h2
  have hl : a.length = b.length + t.length := by rw [ht]; simp
  have hl2 : b.length = a.length + u.length := by rw [hu]; simp
  have : t = [] := List.eq_nil_of_length_eq_zero (by omega)
  rw [ht, this]; simp

theorem keepsRoot_of_root {tempPath : QString} {m : FileTreeModel} {r : Nat} {rn : Node}
    (fileDir : QString) (ht : ¬ startsWith fileDir tempPath = true) (hr : m.m_root = some r)
    (hrn : deref m r = some rn) :
    keepsRoot tempPath m fileDir = startsWith fileDir rn.path := by
  simp only [keepsRoot, hr, hrn]
  simp only [Bool.not_eq_true] at ht
  rw [ht]; rfl

/-- Every call of `insertFile` with a clean absolute path returns an index that
`removeIndex` accepts.  After the removal every node of the state before the call is as
it was, under the same roots, if the call left the main root in place or made the first
one; otherwise the main root of that state hangs below a new main root. -/
theorem insertFile_undo {lt : QString → QString → Bool} (hlt : StrictWeak lt)
    (tempPath : QString) {m : FileTreeModel} (segs : List QString)
    (name : QString) (data : Nat) (displayName : QString) (good : Good lt m)
    (hsegs : ∀ s ∈ segs, isSeg s = true) (hname : isSeg name = true) :
    ∃ m1 h m2, insertFile lt tempPath m (filePathOf segs name) data displayName
        = some (m1, h) ∧ removeIndex lt m1 h = some (m2, true) ∧
      (keepsRoot tempPath m (dirPath segs) = true → Restored m m2) ∧
      (keepsRoot tempPath m (dirPath segs) = false → Rerooted m m2) := by
  rw [insertFile_branch lt tempPath m segs name data displayName hname]
  by_cases ht : startsWith (dirPath segs) tempPath = true
  · rw [if_pos ht]
    obtain ⟨m1, h, t, he, _, _, _, _, _, m2, hm2, hres⟩ :=
      insertScratch_post hlt tempPath (filePathOf segs name) name data displayName good
    exact ⟨m1, h, m2, he, hm2, fun _ => hres, fun hk => by simp [keepsRoot, ht] at hk⟩
  · rw [if_neg ht]
    match hr : m.m_root with
    | none =>
      obtain ⟨m1, h, par, he, _, _, _, _, m2, hm2, hres⟩ :=
        insertInitial_post hlt (dirPath segs) (filePathOf segs name) name data displayName
          segs good hsegs rfl
      exact ⟨m1, h, m2, he, hm2, fun _ => hres hr, fun hk => by simp [keepsRoot, hr] at hk⟩
    | some r =>
      obtain ⟨rn, hrn, _, _⟩ := good.inv.root_ok r hr
      obtain ⟨rs, hrs, hrpath, hrname⟩ := good.rootClean r rn hr hrn
      have hkr := keepsRoot_of_root (dirPath segs) ht hr hrn
      simp only [hrn]
      by_cases h1 : rn.path = dirPath segs
      · rw [if_pos h1]
        obtain ⟨m1, h, he, _, _, _, m2, hm2, hres⟩ :=
          insertAtRoot_post hlt (filePathOf segs name) name data displayName good hr
        refine ⟨m1, h, m2, he, hm2, fun _ => hres, fun hk => ?_⟩
        rw [hkr, h1, startsWith_iff.2 ⟨[], by simp⟩] at hk
        cases hk
      · rw [if_neg h1]
        by_cases h2 : startsWith rn.path (dirPath segs) = true
        · rw [if_pos h2]
          obtain ⟨m1, h, cur1, c9, he, _, _, _, _, _, _, _, _, _, _, _, _, m2, hm2, hres⟩ :=
            insertAbove_post hlt (dirPath segs) (filePathOf segs name) name data
              displayName segs good hr hrn hsegs rfl
          refine ⟨m1, h, m2, he, hm2, fun hk => ?_, fun _ => hres⟩
          rw [hkr] at hk
          exact absurd (startsWith_antisymm h2 hk) h1
        · rw [if_neg h2]
          by_cases h3 : startsWith (dirPath segs) rn.path = true
          · rw [if_pos h3]
            obtain ⟨m1, h, par, he, _, _, _, _, m2, hm2, hres⟩ :=
              insertBelow_post hlt (dirPath segs) (filePathOf segs name) name data
                displayName good hr
            refine ⟨m1, h, m2, he, hm2, fun _ => hres, fun hk => ?_⟩
            rw [hkr, h3] at hk
            cases hk
          · rw [if_neg h3]
            obtain ⟨m1, h, cur1, cur2, c9, c10, he, _, _, _, _, _, _, _, _, _, _, _, _, _,
                _, _, _, m2, hm2, hres⟩ :=
              insertUnrelated_post hlt (dirPath segs) (filePathOf segs name) name data
                displayName rs segs good hr hrn hrs hrpath hrname hsegs rfl
                (by simpa using h2) (by simpa using h3)
            refine ⟨m1, h, m2, he, hm2, fun hk => ?_, fun _ => hres⟩
            rw [hkr] at hk
            exact absurd hk h3

end FileTreeModel


namespace FileTreeModel

/-! ## Removal keeps the invariant -/

theorem deref_map_congr {m m1 : FileTreeModel}
    (hnode : ∀ p n1, deref m1 p = some n1 → ∃ n, deref m p = some n ∧ n1.fileName = n.fileName)
    (hkeep : ∀ p n, deref m p = some n → ∃ n1, deref m1 p = some n1) (p : Nat) :
    (deref m1 p).map Node.fileName = (deref m p).map Node.fileName := by
  cases h1 : deref m1 p with
  | some n1 =>
    obtain ⟨n, hn, e⟩ := hnode p n1 h1
    rw [hn]; simp [e]
  | none =>
    cases h : deref m p with
    | none => rfl
    | some n =>
      obtain ⟨n1, hn1⟩ := hkeep p n h
      rw [h1] at hn1; cases hn1

theorem names_sublist {m : FileTreeModel} {ids1 ids : List Nat} {ns1 ns : List QString}
    (hs : ids1.Sublist ids) (h1 : namesOf m ids1 = some ns1) (h : namesOf m ids = some ns) :
    ns1.Sublist ns := by
  rw [namesOf_eq_some] at h1 h
  have := hs.map (fun p => (deref m p).map Node.fileName)
  rw [h1, h] at this
  obtain ⟨l, hl, e⟩ := List.sublist_map_iff.mp this
  have : ns1 = l := (List.map_injective_iff.mpr (Option.some_injective _)) e
  rw [this]; exact hl

/-- An update that only removes entries of child lists, and leaves no directory empty,
keeps the invariant. -/
theorem Inv.shrink {lt : QString → QString → Bool} {m m1 : FileTreeModel}
    (inv : Inv lt m none) (hroot : m1.m_root = m.m_root) (htmp : m1.m_tmpdir = m.m_tmpdir)
    (hnode : ∀ p n1, deref m1 p = some n1 → ∃ n, deref m p = some n ∧
      n1.isDir = n.isDir ∧ n1.fileName = n.fileName ∧ n1.parent = n.parent ∧
      n1.dirs.Sublist n.dirs ∧ n1.files.Sublist n.files ∧
      (n.isDir = true → 1 ≤ n1.childCount))
    (hkeep : ∀ p n, deref m p = some n → ∃ n1, deref m1 p = some n1) : Inv lt m1 none := by
  have hname : ∀ p, (deref m1 p).map Node.fileName = (deref m p).map Node.fileName :=
    deref_map_congr (fun p n1 h => by
      obtain ⟨n, hn, _, e, _⟩ := hnode p n1 h; exact ⟨n, hn, e⟩) hkeep
  have hn : ∀ ids, namesOf m1 ids = namesOf m ids := fun ids =>
    namesOf_congr (fun p _ => hname p)
  have hfwd : ∀ p n, deref m p = some n → ∃ n1, deref m1 p = some n1 ∧
      n1.isDir = n.isDir ∧ n1.parent = n.parent ∧ n1.dirs.Sublist n.dirs ∧
      n1.files.Sublist n.files := by
    intro p n hp
    obtain ⟨n1, hn1⟩ := hkeep p n hp
    obtain ⟨n0, hn0, e1, _, e3, e4, e5, _⟩ := hnode p n1 hn1
    rw [hp] at hn0; cases hn0
    exact ⟨n1, hn1, e1, e3, e4, e5⟩
  constructor
  · intro r hr
    obtain ⟨n, hn0, e1, e2⟩ := inv.root_ok r (hroot ▸ hr)
    obtain ⟨n1, hn1, f1, f2, _⟩ := hfwd r n hn0
    exact ⟨n1, hn1, by rw [f1, e1], by rw [f2, e2]⟩
  · intro t ht
    obtain ⟨n, hn0, e1, e2, e3⟩ := inv.tmp_ok t (htmp ▸ ht)
    obtain ⟨n1, hn1, f1, f2, f3, _⟩ := hfwd t n hn0
    refine ⟨n1, hn1, by rw [f1, e1], by rw [f2, e2], ?_⟩
    rw [e3] at f3
    exact List.eq_nil_of_sublist_nil f3
  · intro r hr
    rw [htmp]
    exact inv.root_ne_tmp r (hroot ▸ hr)
  · intro p n1 c hp hc
    obtain ⟨n, hn0, _, _, _, e4, _⟩ := hnode p n1 hp
    obtain ⟨cn, hcn, g1, g2⟩ := inv.dirs_ok p n c hn0 (e4.subset hc)
    obtain ⟨cn1, hcn1, f1, f2, _⟩ := hfwd c cn hcn
    exact ⟨cn1, hcn1, by rw [f1, g1], by rw [f2, g2]⟩
  · intro p n1 c hp hc
    obtain ⟨n, hn0, _, _, _, _, e5, _⟩ := hnode p n1 hp
    obtain ⟨cn, hcn, g1, g2⟩ := inv.files_ok p n c hn0 (e5.subset hc)
    obtain ⟨cn1, hcn1, f1, f2, _⟩ := hfwd c cn hcn
    exact ⟨cn1, hcn1, by rw [f1, g1], by rw [f2, g2]⟩
  · intro p n1 hp hd
    obtain ⟨n, hn0, e1, _, _, e4, e5, _⟩ := hnode p n1 hp
    obtain ⟨g1, g2⟩ := inv.leaf p n hn0 (by rw [← e1, hd])
    rw [g1] at e4; rw [g2] at e5
    exact ⟨List.eq_nil_of_sublist_nil e4, List.eq_nil_of_sublist_nil e5⟩
  · intro p n1 q hp hq
    obtain ⟨n, hn0, _, _, e3, _⟩ := hnode p n1 hp
    obtain ⟨qn, hqn, g1⟩ := inv.parent_ok p n q hn0 (by rw [← e3, hq])
    obtain ⟨qn1, hqn1, f1, _⟩ := hfwd q qn hqn
    exact ⟨qn1, hqn1, by rw [f1, g1]⟩
  · intro p n1 hp hd _
    obtain ⟨n, _, e1, _, _, _, _, e6⟩ := hnode p n1 hp
    exact e6 (by rw [← e1, hd])
  · intro p n1 ns1 hp hns
    obtain ⟨n, hn0, _, _, _, e4, _⟩ := hnode p n1 hp
    obtain ⟨ns, hns0⟩ := inv.namesOf_dirs hn0
    rw [hn] at hns
    exact List.Pairwise.sublist (names_sublist e4 hns hns0) (inv.sorted_dirs p n ns hn0 hns0)
  · intro p n1 ns1 hp hns
    obtain ⟨n, hn0, _, _, _, _, e5, _⟩ := hnode p n1 hp
    obtain ⟨ns, hns0⟩ := inv.namesOf_files hn0
    rw [hn] at hns
    exact List.Pairwise.sublist (names_sublist e5 hns hns0) (inv.sorted_files p n ns hn0 hns0)

theorem length_eraseIdx_ge {α : Type} (l : List α) (i : Nat) :
    l.length ≤ (l.eraseIdx i).length + 1 := by
  induction l generalizing i with
  | nil => simp
  | cons a as ih =>
    cases i with
    | zero => simp
    | succ j => simpa using ih j

/-- Replacing the node of `par` by one with shorter child lists. -/
theorem Good.store_shrink {lt : QString → QString → Bool} {m : FileTreeModel} {par : Nat}
    {c c1 : Node} (good : Good lt m) (hc : deref m par = some c)
    (e1 : c1.isDir = c.isDir) (e2 : c1.fileName = c.fileName) (e3 : c1.parent = c.parent)
    (e4 : c1.path = c.path) (e5 : c1.dirs.Sublist c.dirs) (e6 : c1.files.Sublist c.files)
    (e7 : 1 ≤ c1.childCount) : Good lt (store m par c1) := by
  have hl := deref_lt hc
  have hd : ∀ p, deref (store m par c1) p = if p = par then some c1 else deref m p := by
    intro p
    rw [deref_store, if_pos hl]
  have hnode : ∀ p n1, deref (store m par c1) p = some n1 → ∃ n, deref m p = some n ∧
      n1.isDir = n.isDir ∧ n1.fileName = n.fileName ∧ n1.parent = n.parent ∧
      n1.path = n.path ∧ n1.dirs.Sublist n.dirs ∧ n1.files.Sublist n.files ∧
      (n.isDir = true → 1 ≤ n1.childCount) := by
    intro p n1 hp
    rw [hd] at hp
    by_cases h : p = par
    · subst h
      rw [if_pos rfl] at hp; cases hp
      exact ⟨c, hc, e1, e2, e3, e4, e5, e6, fun _ => e7⟩
    · rw [if_neg h] at hp
      exact ⟨n1, hp, rfl, rfl, rfl, rfl, List.Sublist.refl _, List.Sublist.refl _,
        fun hdir => good.inv.nonempty p n1 hp hdir (by simp)⟩
  have hkeep : ∀ p n, deref m p = some n → ∃ n1, deref (store m par c1) p = some n1 := by
    intro p n hp
    rw [hd]
    by_cases h : p = par
    · exact ⟨c1, by rw [if_pos h]⟩
    · exact ⟨n, by rw [if_neg h]; exact hp⟩
  refine ⟨Inv.shrink good.inv rfl rfl (fun p n1 hp => ?_) hkeep, ?_, ?_⟩
  · obtain ⟨n, hn, a1, a2, a3, _, a5, a6, a7⟩ := hnode p n1 hp
    exact ⟨n, hn, a1, a2, a3, a5, a6, a7⟩
  · obtain ⟨rk, hrk⟩ := good.ranked
    refine ⟨rk, fun p n1 q hp hq => ?_⟩
    obtain ⟨n, hn, _, _, a3, _⟩ := hnode p n1 hp
    exact hrk p n q hn (by rw [← a3, hq])
  · intro r n1 hr hp
    obtain ⟨n, hn, _, a2, _, a4, _⟩ := hnode r n1 hp
    obtain ⟨segs, h1, h2, h3⟩ := good.rootClean r n hr hn
    exact ⟨segs, h1, by rw [a4, h2], by rw [a2, a4, h3]⟩

theorem Good.good_emit {lt : QString → QString → Bool} {m : FileTreeModel} (e : Event)
    (good : Good lt m) : Good lt (emit m e) :=
  Good.good_congr m (FileTreeModel.emit m e) rfl rfl rfl good

theorem Good.delete {lt : QString → QString → Bool} {m : FileTreeModel} (d : Option Nat)
    (good : Good lt m) : Good lt (delete m d) :=
  Good.good_congr m (FileTreeModel.delete m d) (by simp) (by simp) (by simp) good

theorem Good.good_dropRoot {lt : QString → QString → Bool} {m : FileTreeModel}
    (good : Good lt m) : Good lt { m with m_root := none } := by
  obtain ⟨rk, hrk⟩ := good.ranked
  exact ⟨good.inv.dropRoot, ⟨rk, RankOK.rank_congr m { m with m_root := none } rfl hrk⟩,
    fun r n hr _ => by simp at hr⟩

theorem Good.good_dropTmp {lt : QString → QString → Bool} {m : FileTreeModel}
    (good : Good lt m) : Good lt { m with m_tmpdir := none } := by
  obtain ⟨rk, hrk⟩ := good.ranked
  exact ⟨good.inv.dropTmp, ⟨rk, RankOK.rank_congr m { m with m_tmpdir := none } rfl hrk⟩,
    RootClean.clean_congr m { m with m_tmpdir := none } rfl rfl good.rootClean⟩

/-- Where the loop of lines 203-211 stops: at a node without parent, or below a directory
that has not exactly one child. -/
theorem pruneLoop_stop {lt : QString → QString → Bool} {m : FileTreeModel} :
    ∀ (fuel p : Nat) (idx : QModelIndex) (f : Bool) (A : Nat) (di : QModelIndex) (g : Bool),
      pruneLoop lt m fuel p idx f = some (A, di, g) →
      ∃ an, deref m A = some an ∧ (an.parent = none ∨
        ∃ q qn, an.parent = some q ∧ deref m q = some qn ∧ qn.childCount ≠ 1) := by
  intro fuel
  induction fuel with
  | zero => intro p idx f A di g h; simp [pruneLoop] at h
  | succ k ih =>
    intro p idx f A di g h
    unfold pruneLoop at h
    cases hp : deref m p with
    | none => simp [hp] at h
    | some dn =>
      simp only [hp, Option.bind_eq_bind, Option.some_bind] at h
      cases hq : dn.parent with
      | none =>
        simp only [hq, Option.some.injEq, Prod.mk.injEq] at h
        obtain ⟨rfl, _, _⟩ := h
        exact ⟨dn, hp, Or.inl hq⟩
      | some q =>
        simp only [hq] at h
        cases hqn : deref m q with
        | none => simp [hqn] at h
        | some qn =>
          simp only [hqn, Option.some_bind] at h
          by_cases h1 : qn.childCount = 1
          · rw [if_pos h1] at h
            cases hpar : parent lt m idx with
            | none => simp [hpar] at h
            | some di1 =>
              simp only [hpar, Option.some_bind] at h
              exact ih q di1 false A di g h
          · rw [if_neg h1] at h
            simp only [Option.some.injEq, Prod.mk.injEq] at h
            obtain ⟨rfl, _, _⟩ := h
            exact ⟨dn, hp, Or.inr ⟨q, qn, hq, hqn, h1⟩⟩

theorem dirsTake_good {lt : QString → QString → Bool} {m m2 : FileTreeModel} {par node : Nat}
    {c : Node} {taken : Option Nat} (good : Good lt m) (hc : deref m par = some c)
    (h2 : 2 ≤ c.childCount) (h : dirsTake lt m par node = some (m2, taken)) : Good lt m2 := by
  unfold dirsTake at h
  simp only [hc, Option.bind_eq_bind, Option.some_bind] at h
  cases hn : deref m node with
  | none => simp [hn] at h
  | some n =>
    simp only [hn, Option.some_bind] at h
    cases hns : namesOf m c.dirs with
    | none => simp [hns] at h
    | some ns =>
      simp only [hns, Option.some_bind] at h
      cases hf : find lt ns n.fileName with
      | none =>
        simp only [hf, Option.some.injEq, Prod.mk.injEq] at h
        rw [← h.1]; exact good
      | some it =>
        simp only [hf, Option.some.injEq, Prod.mk.injEq] at h
        rw [← h.1]
        refine good.store_shrink hc rfl rfl rfl rfl (List.eraseIdx_sublist _ _)
          (List.Sublist.refl _) ?_
        have := length_eraseIdx_ge c.dirs it
        simp only [Node.childCount] at h2 ⊢
        omega

theorem filesTake_good {lt : QString → QString → Bool} {m m2 : FileTreeModel}
    {par node : Nat} {c : Node} {taken : Option Nat} (good : Good lt m)
    (hc : deref m par = some c) (h2 : 2 ≤ c.childCount)
    (h : filesTake lt m par node = some (m2, taken)) : Good lt m2 := by
  unfold filesTake at h
  simp only [hc, Option.bind_eq_bind, Option.some_bind] at h
  cases hn : deref m node with
  | none => simp [hn] at h
  | some n =>
    simp only [hn, Option.some_bind] at h
    cases hns : namesOf m c.files with
    | none => simp [hns] at h
    | some ns =>
      simp only [hns, Option.some_bind] at h
      cases hf : find lt ns n.fileName with
      | none =>
        simp only [hf, Option.some.injEq, Prod.mk.injEq] at h
        rw [← h.1]; exact good
      | some it =>
        simp only [hf, Option.some.injEq, Prod.mk.injEq] at h
        rw [← h.1]
        refine good.store_shrink hc rfl rfl rfl rfl (List.Sublist.refl _)
          (List.eraseIdx_sublist _ _) ?_
        have := length_eraseIdx_ge c.files it
        simp only [Node.childCount] at h2 ⊢
        omega

/-- `removeIndex` keeps the invariant, whatever index it is given. -/
theorem removeIndex_good {lt : QString → QString → Bool} {m m1 : FileTreeModel} {b : Bool}
    (h : QModelIndex) (good : Good lt m) (he : removeIndex lt m h = some (m1, b)) :
    Good lt m1 := by
  cases h with
  | invalid =>
    simp only [removeIndex, Option.some.injEq, Prod.mk.injEq] at he
    rw [← he.1]; exact good
  | mk row col p =>
    unfold removeIndex at he
    simp only [Option.bind_eq_bind] at he
    cases hp : deref m p with
    | none => simp [hp] at he
    | some node =>
      simp only [hp, Option.some_bind] at he
      cases hl : pruneLoop lt m m.nodes.length p (.mk row col p) (!node.isDir) with
      | none => simp [hl] at he
      | some res =>
        obtain ⟨A, di, g⟩ := res
        obtain ⟨an, han, hstop⟩ := pruneLoop_stop _ _ _ _ _ _ _ hl
        simp only [hl, Option.some_bind] at he
        by_cases h1 : some A = m.m_root
        · rw [if_pos h1] at he
          simp only [Option.some.injEq, Prod.mk.injEq] at he
          rw [← he.1]
          exact (((good.good_emit _).delete _).good_dropRoot).good_emit _
        · rw [if_neg h1] at he
          by_cases h2 : some A = m.m_tmpdir
          · rw [if_pos h2] at he
            cases hrc : rootChildCount m with
            | none => simp [hrc] at he
            | some rc =>
              simp only [hrc, Option.some_bind, han] at he
              simp only [Option.some.injEq, Prod.mk.injEq] at he
              rw [← he.1]
              exact (((good.good_emit _).delete _).good_dropTmp).good_emit _
          · rw [if_neg h2] at he
            cases hpi : parent lt m di with
            | none => simp [hpi] at he
            | some pidx =>
              simp only [hpi, Option.some_bind, deref_emit, han] at he
              rcases hstop with hnone | ⟨q, qn, hq, hqn, hcount⟩
              · simp [hnone] at he
              · simp only [hq, Option.some_bind] at he
                obtain ⟨qn1, hqn1, hqd⟩ := good.inv.parent_ok A an q han hq
                rw [hqn] at hqn1; cases hqn1
                have hge := good.inv.nonempty q qn hqn hqd (by simp)
                have h2c : 2 ≤ qn.childCount := by omega
                have goodE := good.good_emit (.beginRemoveRows pidx di.row di.row)
                cases g with
                | true =>
                  simp only [if_true] at he
                  cases ht : filesTake lt (emit m (.beginRemoveRows pidx di.row di.row)) q A with
                  | none => simp [ht] at he
                  | some r2 =>
                    obtain ⟨m2, taken⟩ := r2
                    simp only [ht, Option.some_bind, Option.some.injEq, Prod.mk.injEq] at he
                    rw [← he.1]
                    exact ((filesTake_good goodE (by simpa using hqn) h2c ht).delete _).good_emit _
                | false =>
                  simp only [Bool.false_eq_true, if_false] at he
                  cases ht : dirsTake lt (emit m (.beginRemoveRows pidx di.row di.row)) q A with
                  | none => simp [ht] at he
                  | some r2 =>
                    obtain ⟨m2, taken⟩ := r2
                    simp only [ht, Option.some_bind, Option.some.injEq, Prod.mk.injEq] at he
                    rw [← he.1]
                    exact ((dirsTake_good goodE (by simpa using hqn) h2c ht).delete _).good_emit _

/-- `clear` keeps the invariant. -/
theorem clear_good {lt : QString → QString → Bool} {m m1 : FileTreeModel}
    (good : Good lt m) (he : clear m = some m1) : Good lt m1 := by
  unfold clear at he
  split at he
  · rw [Option.bind_eq_bind, Option.bind_eq_some] at he
    obtain ⟨rc, _, he⟩ := he
    dsimp only at he
    split at he
    · simp only [Option.some_bind, Option.some.injEq] at he
      rw [← he]
      exact ((((((good.good_emit _).delete _).good_dropRoot).delete _).good_dropTmp)).good_emit _
    · rw [Option.bind_eq_some] at he
      obtain ⟨tc, _, he⟩ := he
      simp only [Option.some.injEq] at he
      rw [← he]
      exact ((((((good.good_emit _).delete _).good_dropRoot).delete _).good_dropTmp)).good_emit _
  · simp only [Option.some.injEq] at he
    rw [← he]; exact good

theorem empty_good (lt : QString → QString → Bool) : Good lt empty := by
  have hd : ∀ p, deref empty p = none := fun p => rfl
  refine ⟨⟨?_, ?_, ?_, ?_, ?_, ?_, ?_, ?_, ?_, ?_⟩, ⟨fun _ => 0, ?_⟩, ?_⟩
  · intro r hr; cases hr
  · intro r hr; cases hr
  · intro r hr; cases hr
  · intro p n c hp; rw [hd] at hp; cases hp
  · intro p n c hp; rw [hd] at hp; cases hp
  · intro p n hp; rw [hd] at hp; cases hp
  · intro p n q hp; rw [hd] at hp; cases hp
  · intro p n hp; rw [hd] at hp; cases hp
  · intro p n ns hp; rw [hd] at hp; cases hp
  · intro p n ns hp; rw [hd] at hp; cases hp
  · intro p n q hp; rw [hd] at hp; cases hp
  · intro r n hr; cases hr

/-- Every reachable state satisfies the invariant. -/
theorem Reachable.good {lt : QString → QString → Bool} (hlt : StrictWeak lt)
    {tempPath : QString} {m : FileTreeModel}
    (h : Reachable lt tempPath m) : Good lt m := by
  induction h with
  | init => exact empty_good lt
  | insert segs name data displayName _ hsegs hname he ih =>
    obtain ⟨m1, h1, par, he1, hp, _⟩ :=
      insertFile_post hlt tempPath segs name data displayName ih hsegs hname
    rw [he] at he1
    cases he1
    exact hp.good
  | remove h _ he ih => exact removeIndex_good h ih he
  | clear _ he ih => exact clear_good ih he

end FileTreeModel


namespace FileTreeModel

/-! ## Sorted child lists, the returned handle, the scratch tree -/

theorem exDeep_reachable : Reachable codeLt exTmp exDeep :=
  Reachable.insert (h := .mk 0 0 1) ["a".toList, "b".toList, "c".toList] "x".toList 1 []
    Reachable.init (by decide) (by decide) (by rfl)

theorem exNum_reachable : Reachable numLt exTmp exNum :=
  Reachable.insert (h := .mk 0 0 4) ["r".toList, "a01".toList] "g".toList 2 []
    (Reachable.insert (h := .mk 0 0 1) ["r".toList, "a1".toList] "f".toList 1 []
      Reachable.init (by decide) (by decide) (show _ = some (exNumOne, _) by rfl))
    (by decide) (by decide) (by rfl)

theorem Inserted.reachable {lt : QString → QString → Bool} {tempPath : QString}
    {m : FileTreeModel} (h : Inserted lt tempPath m) : Reachable lt tempPath m := by
  induction h with
  | init => exact Reachable.init
  | insert segs name data displayName _ hsegs hname he ih =>
    exact Reachable.insert segs name data displayName ih hsegs hname he

theorem Descends.end_parent {m : FileTreeModel} {a b : Nat} {segs : List QString}
    (h : Descends m a segs b) : a = b ∨ ∃ q n, deref m q = some n ∧ b ∈ n.dirs := by
  induction h with
  | here a => exact Or.inl rfl
  | down hn hc hcn hs _ ih =>
    rcases ih with e | e
    · subst e; exact Or.inr ⟨_, _, hn, hc⟩
    · exact Or.inr e

/-- A file node hangs below the scratch root exactly if its directory is under the
temporary directory. -/
theorem Inserted.side {lt : QString → QString → Bool} (hlt : StrictWeak lt)
    {tempPath : QString} {m : FileTreeModel}
    (h : Inserted lt tempPath m) :
    ∀ f fn q, deref m f = some fn → fn.isDir = false → fn.parent = some q →
      (m.m_tmpdir = some q ↔ startsWith (absolutePath fn.path) tempPath = true) := by
  induction h with
  | init => intro f fn q hf; cases hf
  | @insert m m1 h segs name data displayName hm hsegs hname he ih =>
    have good := hm.reachable.good hlt
    obtain ⟨m1', h', par, he1, hp, hs1, hs2⟩ :=
      insertFile_post hlt tempPath segs name data displayName good hsegs hname
    rw [he] at he1
    simp only [Option.some.injEq, Prod.mk.injEq] at he1
    obtain ⟨rfl, rfl⟩ := he1
    intro f fn q hf hfile hq
    by_cases hold : f < m.nodes.length
    · obtain ⟨fn0, hfn0⟩ := deref_some_of_lt hold
      obtain ⟨n1, hn1, e1, _⟩ := hp.old_sig f fn0 hfn0
      rw [hf] at hn1; cases hn1
      have hf0 := hp.old_file f fn0 hfn0 (by rw [← e1, hfile])
      rw [hf] at hf0; cases hf0
      have hql := good.inv.parent_lt f fn q hfn0 hq
      rw [← ih f fn q hfn0 hfile hq]
      by_cases hu : startsWith (dirPath segs) tempPath = true
      · obtain ⟨_, h2, h3, _⟩ := hs1 hu
        rcases h3 with h3 | ⟨h3, h4⟩
        · rw [h2, h3]
        · rw [h2, h3, h4]
          constructor
          · intro e; simp only [Option.some.injEq] at e; omega
          · intro e; cases e
      · rw [(hs2 (by simpa using hu)).1]
    · have hfl := hp.new_file f fn hf (by omega) hfile
      subst hfl
      rw [hp.node] at hf; cases hf
      simp only [mkFile, Option.some.injEq] at hq
      subst hq
      simp only [mkFile, absolutePath_filePathOf segs name hname]
      by_cases hu : startsWith (dirPath segs) tempPath = true
      · obtain ⟨_, h2, _⟩ := hs1 hu
        simp [h2, hu]
      · obtain ⟨_, h3⟩ := hs2 (by simpa using hu)
        constructor
        · intro e; exact absurd e h3
        · intro e; exact absurd e hu

/-- C4: in a state reached by `insertFile` calls alone, (1) a file whose directory path
starts with the temporary-directory path is put into the `files` of the scratch root,
which is created if absent, while the main root pointer and every node other than the
scratch root stay as they were; (2) no file in the `files` of a directory reached from
the main root through `dirs` has a directory path that starts with the
temporary-directory path; (3) every file in the `files` of the scratch root has such a
directory path. -/
theorem c4_scratch_separate {lt : QString → QString → Bool} (hlt : StrictWeak lt)
    {tempPath : QString} {m : FileTreeModel}
    (hm : Inserted lt tempPath m) (segs : List QString) (name : QString) (data : Nat)
    (displayName : QString) (hsegs : ∀ s ∈ segs, isSeg s = true)
    (hname : isSeg name = true) (hunder : startsWith (dirPath segs) tempPath = true) :
    (∃ m1 row f t tn,
      insertFile lt tempPath m (filePathOf segs name) data displayName
        = some (m1, .mk row 0 f) ∧
      m1.m_tmpdir = some t ∧ (m.m_tmpdir = some t ∨ (m.m_tmpdir = none ∧ t = m.nodes.length)) ∧
      deref m1 t = some tn ∧ f ∈ tn.files ∧
      deref m1 f = some (mkFile name (filePathOf segs name) (some t) data displayName) ∧
      m1.m_root = m.m_root ∧
      ∀ p, p < m.nodes.length → some p ≠ m.m_tmpdir → deref m1 p = deref m p) ∧
    (∀ r ps q qn f fn, m.m_root = some r → Descends m r ps q → deref m q = some qn →
      f ∈ qn.files → deref m f = some fn →
      startsWith (absolutePath fn.path) tempPath = false) ∧
    (∀ t tn f fn, m.m_tmpdir = some t → deref m t = some tn → f ∈ tn.files →
      deref m f = some fn → startsWith (absolutePath fn.path) tempPath = true) := by
  have good := hm.reachable.good hlt
  have side := hm.side hlt
  refine ⟨?_, ?_, ?_⟩
  · obtain ⟨m1, h, par, he, hp, hs1, _⟩ :=
      insertFile_post hlt tempPath segs name data displayName good hsegs hname
    obtain ⟨h1, h2, h3, h4⟩ := hs1 hunder
    obtain ⟨row, P, e1, _, _⟩ := hp.handle
    obtain ⟨pn, hpn, hmem⟩ := hp.attached
    subst e1
    exact ⟨m1, row, _, par, pn, he, h2, h3, hpn, hmem, hp.node, h1, h4⟩
  · intro r ps q qn f fn hr hd hq hf hfn
    obtain ⟨cn, hcn1, hfile, hpar⟩ := good.inv.files_ok q qn f hq hf
    rw [hfn] at hcn1; cases hcn1
    have hnt : m.m_tmpdir ≠ some q := by
      intro ht
      obtain ⟨tn, htn, _, hnone, _⟩ := good.inv.tmp_ok q ht
      rcases hd.end_parent with e | ⟨g, gn, hg, hmem⟩
      · subst e; exact good.inv.root_ne_tmp r hr ht
      · obtain ⟨cn, hcn1, _, hp1⟩ := good.inv.dirs_ok g gn q hg hmem
        rw [htn] at hcn1; cases hcn1
        rw [hnone] at hp1; cases hp1
    have := side f fn q hfn hfile hpar
    cases hsw : startsWith (absolutePath fn.path) tempPath with
    | false => rfl
    | true => exact absurd (this.mpr hsw) hnt
  · intro t tn f fn ht htn hf hfn
    obtain ⟨cn, hcn1, hfile, hpar⟩ := good.inv.files_ok t tn f htn hf
    rw [hfn] at hcn1; cases hcn1
    exact (side f fn t hfn hfile hpar).mp ht

theorem exDeep_inserted : Inserted codeLt exTmp exDeep :=
  Inserted.insert (h := .mk 0 0 1) ["a".toList, "b".toList, "c".toList] "x".toList 1 []
    Inserted.init (by decide) (by decide) (by rfl)

/-- The witness of C4: the file `/tmp/s` put into the model that holds `/a/b/c/x`. -/
theorem c4_scratch_separate_witness :
    (∃ m1 row f t tn,
      insertFile codeLt exTmp exDeep (filePathOf ["tmp".toList] "s".toList) 5 []
        = some (m1, .mk row 0 f) ∧
      m1.m_tmpdir = some t ∧
      (exDeep.m_tmpdir = some t ∨ (exDeep.m_tmpdir = none ∧ t = exDeep.nodes.length)) ∧
      deref m1 t = some tn ∧ f ∈ tn.files ∧
      deref m1 f = some (mkFile "s".toList (filePathOf ["tmp".toList] "s".toList)
        (some t) 5 []) ∧
      m1.m_root = exDeep.m_root ∧
      ∀ p, p < exDeep.nodes.length → some p ≠ exDeep.m_tmpdir →
        deref m1 p = deref exDeep p) ∧
    (∀ r ps q qn f fn, exDeep.m_root = some r → Descends exDeep r ps q →
      deref exDeep q = some qn → f ∈ qn.files → deref exDeep f = some fn →
      startsWith (absolutePath fn.path) exTmp = false) ∧
    (∀ t tn f fn, exDeep.m_tmpdir = some t → deref exDeep t = some tn → f ∈ tn.files →
      deref exDeep f = some fn → startsWith (absolutePath fn.path) exTmp = true) :=
  c4_scratch_separate codeLt_strictWeak exDeep_inserted ["tmp".toList]
    "s".toList 5 [] (by decide) (by decide) (by decide)

end FileTreeModel


namespace FileTreeModel

/-! ## Re-rooting -/

/-- The segments by which a path extends an ancestor, as line 71 computes them. -/
theorem splitSlash_mid_dirPath (ds es : List QString) (hes : ∀ s ∈ es, isSeg s = true) :
    splitSlash (mid (dirPath (ds ++ es)) (dirPath ds).length) = es := by
  cases es with
  | nil => simp [mid, splitSlash]
  | cons e es1 =>
    by_cases hd : ds = []
    · subst hd
      have : mid (dirPath ([] ++ e :: es1)) (dirPath []).length = e ++ slashCat es1 := by
        simp [mid, dirPath, slashCat]
      rw [this, splitSlash_seg e _ (hes e (List.mem_cons_self _ _)) (slashCat_shape es1),
        splitSlash_slashCat es1 (fun s hs => hes s (List.mem_cons_of_mem _ hs))]
    · have : mid (dirPath (ds ++ e :: es1)) (dirPath ds).length = slashCat (e :: es1) := by
        simp [mid, dirPath, hd, slashCat_append]
      rw [this, splitSlash_slashCat _ hes]

theorem exDeep_root : exDeep.m_root = some 0 := by rfl

theorem exDeep_node :
    deref exDeep 0 = some { mkDir "c".toList "/a/b/c".toList none with files := [1] } := by
  rfl

/-- C6: in a reachable state whose main root has the path `R = D/e1/.../ek` (`k ≥ 1`),
`insertFile` of a file directly in `D` (not under the temporary directory) returns and
makes a new node with path `D` the main root; the new file is the one entry of its
`files`; the old root is reached from the new root by descending through `dirs` along
`e1, ..., ek`; its node is the old one with `parent` set to the node reached along
`e1, ..., e(k-1)`; every other old node is unchanged.  (The branch, lines 70-87, reads
the node of the old root and the nodes it makes itself, and searches no list of an old
node.) -/
theorem c6_root_below_new {lt : QString → QString → Bool} (hlt : StrictWeak lt)
    {tempPath : QString} {m : FileTreeModel}
    (hm : Reachable lt tempPath m) {r : Nat} {rn : Node} (hr : m.m_root = some r)
    (hrn : deref m r = some rn) (ds es : List QString) (name : QString) (data : Nat)
    (displayName : QString) (hds : ∀ s ∈ ds, isSeg s = true)
    (hes : ∀ s ∈ es, isSeg s = true) (hne : es ≠ []) (hR : rn.path = dirPath (ds ++ es))
    (hname : isSeg name = true) (hout : startsWith (dirPath ds) tempPath = false) :
    ∃ m1 row f nr c cur1,
      insertFile lt tempPath m (filePathOf ds name) data displayName
        = some (m1, .mk row 0 f) ∧
      m1.m_root = some nr ∧ deref m1 nr = some c ∧ c.path = dirPath ds ∧ c.files = [f] ∧
      deref m1 f = some (mkFile name (filePathOf ds name) (some nr) data displayName) ∧
      Descends m1 nr es r ∧ Descends m1 nr es.dropLast cur1 ∧
      deref m1 r = some { rn with parent := some cur1 } ∧
      ∀ p, p < m.nodes.length → p ≠ r → deref m1 p = deref m p := by
  have good := hm.good hlt
  obtain ⟨rs, hrs, hrpath, hrname⟩ := good.rootClean r rn hr hrn
  have hall : ∀ s ∈ ds ++ es, isSeg s = true := by
    intro s hs
    rcases List.mem_append.mp hs with h | h
    · exact hds s h
    · exact hes s h
  have hneq : ¬ rn.path = dirPath ds := by
    intro e
    rw [hR] at e
    have := dirPath_inj hall hds e
    exact hne (by simpa using this)
  have hsw : startsWith rn.path (dirPath ds) = true := by
    rw [hR]; exact startsWith_dirPath ds es
  obtain ⟨m1, h, cur1, c9, he, hp, h3, _, _, h6, h7, h8, _, h10, h11, h12, h13, _⟩ :=
    insertAbove_post hlt (dirPath ds) (filePathOf ds name) name data displayName ds good
      hr hrn hds rfl
  have hsplit : splitSlash (mid rn.path (dirPath ds).length) = es := by
    rw [hR]; exact splitSlash_mid_dirPath ds es hes
  have hlast : es.dropLast ++ [rn.fileName] = es := by
    have := drop_dropLast_fileName (ds ++ es) ds.length hall (by
      have : 0 < es.length := List.length_pos.mpr hne
      simp only [List.length_append]; omega)
    rw [List.drop_left] at this
    rw [hrname, hR]; exact this
  rw [hsplit] at h10 h11
  rw [hlast] at h11
  obtain ⟨row, P, e1, _, _⟩ := hp.handle
  subst e1
  refine ⟨m1, row, _, _, c9, cur1, ?_, h3, h6, h7, h8, hp.node, h11, h10, h12, h13⟩
  rw [insertFile_branch lt tempPath m ds name data displayName hname]
  rw [if_neg (by simp [hout])]
  simp only [hr, hrn]
  rw [if_neg hneq, if_pos hsw]
  exact he

/-- The witness of C6: the file `/a/b/y` put into the model that holds `/a/b/c/x`. -/
theorem c6_root_below_new_witness :
    ∃ m1 row f nr c cur1,
      insertFile codeLt exTmp exDeep (filePathOf ["a".toList, "b".toList] "y".toList) 2 []
        = some (m1, .mk row 0 f) ∧
      m1.m_root = some nr ∧ deref m1 nr = some c ∧
      c.path = dirPath ["a".toList, "b".toList] ∧ c.files = [f] ∧
      deref m1 f = some (mkFile "y".toList
        (filePathOf ["a".toList, "b".toList] "y".toList) (some nr) 2 []) ∧
      Descends m1 nr ["c".toList] 0 ∧ Descends m1 nr ["c".toList].dropLast cur1 ∧
      deref m1 0 = some { ({ mkDir "c".toList "/a/b/c".toList none with files := [1] } : Node)
        with parent := some cur1 } ∧
      ∀ p, p < exDeep.nodes.length → p ≠ 0 → deref m1 p = deref exDeep p :=
  c6_root_below_new codeLt_strictWeak exDeep_reachable exDeep_root
    exDeep_node ["a".toList, "b".toList] ["c".toList] "y".toList 2 [] (by decide)
    (by decide) (by decide) (by rfl) (by decide) (by decide)

/-- The two subdirectories of a node with two `dirs` entries, by name. -/
theorem names_of_two {m : FileTreeModel} {c d1n d2n : Node} {d1 d2 : Nat}
    (hl : c.dirs.length = 2) (h1 : d1 ∈ c.dirs) (h2 : d2 ∈ c.dirs)
    (hd1 : deref m d1 = some d1n) (hd2 : deref m d2 = some d2n)
    (hne : d1n.fileName ≠ d2n.fileName) :
    namesOf m c.dirs = some [d1n.fileName, d2n.fileName] ∨
      namesOf m c.dirs = some [d2n.fileName, d1n.fileName] := by
  match hc : c.dirs, hl with
  | [a, b], _ =>
    rw [hc] at h1 h2
    simp only [List.mem_cons, List.mem_singleton, List.not_mem_nil, or_false] at h1 h2
    have hdne : d1 ≠ d2 := by
      intro e; subst e
      rw [hd1] at hd2; cases hd2
      exact hne rfl
    rcases h1 with rfl | rfl <;> rcases h2 with rfl | rfl
    · exact absurd rfl hdne
    · left; simp [namesOf, hd1, hd2]
    · right; simp [namesOf, hd1, hd2]
    · exact absurd rfl hdne

/-- C7: in a reachable state whose main root has the path `R`, `insertFile` of a file in
a directory `D` (not under the temporary directory) with neither of `R`, `D` a prefix of
the other returns and makes a new node the main root; with `k` the length of the common
prefix of the segment lists of `R` and `D` (they agree on the first `k` segments and
differ in the next, `x` of `R` and `y` of `D`), the path of the new root is `'/'`
followed by the first `k` segments joined by `'/'`; the new root has no files and two
subdirectories, named `x` and `y`; the old root is reached from it along the segments of
`R` after the first `k`, its node being the old one with a new `parent`, and every other
old node is unchanged; the directory reached along the segments of `D` after the first
`k` has no subdirectory and the new file as its one file.  (The branch, lines 113-151,
reads the node of the old root and the nodes it makes itself, and searches no list of an
old node.) -/
theorem c7_unrelated_paths {lt : QString → QString → Bool} (hlt : StrictWeak lt)
    {tempPath : QString} {m : FileTreeModel}
    (hm : Reachable lt tempPath m) {r : Nat} {rn : Node} (hr : m.m_root = some r)
    (hrn : deref m r = some rn) (rs ds : List QString) (name : QString) (data : Nat)
    (displayName : QString) (hrs : ∀ s ∈ rs, isSeg s = true)
    (hds : ∀ s ∈ ds, isSeg s = true) (hR : rn.path = dirPath rs)
    (hname : isSeg name = true) (hout : startsWith (dirPath ds) tempPath = false)
    (h1 : startsWith (dirPath rs) (dirPath ds) = false)
    (h2 : startsWith (dirPath ds) (dirPath rs) = false) :
    ∃ m1 row f nr c cur1 cur2 c2 x y,
      insertFile lt tempPath m (filePathOf ds name) data displayName
        = some (m1, .mk row 0 f) ∧
      m1.m_root = some nr ∧ deref m1 nr = some c ∧
      c.path = '/' :: joinSlash (rs.take (commonLen rs ds)) ∧
      rs.take (commonLen rs ds) = ds.take (commonLen rs ds) ∧
      rs[commonLen rs ds]? = some x ∧ ds[commonLen rs ds]? = some y ∧ x ≠ y ∧
      c.files = [] ∧
      (namesOf m1 c.dirs = some [x, y] ∨ namesOf m1 c.dirs = some [y, x]) ∧
      Descends m1 nr (rs.drop (commonLen rs ds)) r ∧
      deref m1 r = some { rn with parent := some cur1 } ∧
      (∀ p, p < m.nodes.length → p ≠ r → deref m1 p = deref m p) ∧
      Descends m1 nr (ds.drop (commonLen rs ds)) cur2 ∧
      deref m1 cur2 = some c2 ∧ c2.dirs = [] ∧ c2.files = [f] ∧
      deref m1 f = some (mkFile name (filePathOf ds name) (some cur2) data displayName) := by
  have good := hm.good hlt
  obtain ⟨rs0, _, _, hrname⟩ := good.rootClean r rn hr hrn
  have hneq : ¬ rn.path = dirPath ds := by
    intro e
    rw [hR] at e
    rw [e] at h1
    have := startsWith_dirPath ds []
    simp only [List.append_nil] at this
    rw [this] at h1; cases h1
  obtain ⟨hpr, hpd⟩ := commonLen_lt_of_unrelated rs ds h1 h2
  obtain ⟨m1, h, cur1, cur2, c9, c10, he, hp, g1, _, _, g4, g5, g6, g7, _, g9, g10, g11,
    g12, g13, g14, g15, _⟩ :=
    insertUnrelated_post hlt (dirPath ds) (filePathOf ds name) name data displayName
      rs ds good hr hrn hrs hR hrname hds rfl (by rw [hR]; exact h1) (by rw [hR]; exact h2)
  obtain ⟨x, hx⟩ : ∃ x, rs[commonLen rs ds]? = some x := ⟨_, List.getElem?_eq_getElem hpr⟩
  obtain ⟨y, hy⟩ : ∃ y, ds[commonLen rs ds]? = some y := ⟨_, List.getElem?_eq_getElem hpd⟩
  have hxy : x ≠ y := commonLen_differ rs ds x y hx hy
  have hrd : rs.drop (commonLen rs ds) = x :: rs.drop (commonLen rs ds + 1) := by
    rw [List.drop_eq_getElem_cons hpr]
    simp only [List.getElem?_eq_getElem hpr, Option.some.injEq] at hx
    rw [hx]
  have hdd : ds.drop (commonLen rs ds) = y :: ds.drop (commonLen rs ds + 1) := by
    rw [List.drop_eq_getElem_cons hpd]
    simp only [List.getElem?_eq_getElem hpd, Option.some.injEq] at hy
    rw [hy]
  have g9' := g9
  have g10' := g10
  rw [hrd] at g9'
  rw [hdd] at g10'
  obtain ⟨n1, d1, d1n, hn1, hd1m, hd1, hd1name, _⟩ := g9'.head
  obtain ⟨n2, d2, d2n, hn2, hd2m, hd2, hd2name, _⟩ := g10'.head
  rw [g4] at hn1 hn2; cases hn1; cases hn2
  have hnames := names_of_two g7 hd1m hd2m hd1 hd2 (by rw [hd1name, hd2name]; exact hxy)
  rw [hd1name, hd2name] at hnames
  obtain ⟨row, P, e1, _, _⟩ := hp.handle
  subst e1
  refine ⟨m1, row, _, _, c9, cur1, cur2, c10, x, y, ?_, g1, g4, ?_, commonLen_take rs ds, hx,
    hy, hxy, g6, hnames, g9, g14, g15, g10, g11, g12, g13, hp.node⟩
  · rw [insertFile_branch lt tempPath m ds name data displayName hname]
    rw [if_neg (by simp [hout])]
    simp only [hr, hrn]
    rw [if_neg hneq, if_neg (by rw [hR]; simp [h1]), if_neg (by rw [hR]; simp [h2])]
    exact he
  · rw [g5, joinSlash_dirPath]

/-- The witness of C7: the file `/z/w` put into the model that holds `/a/b/c/x`. -/
theorem c7_unrelated_paths_witness :
    ∃ m1 row f nr c cur1 cur2 c2 x y,
      insertFile codeLt exTmp exDeep (filePathOf ["z".toList] "w".toList) 2 []
        = some (m1, .mk row 0 f) ∧
      m1.m_root = some nr ∧ deref m1 nr = some c ∧
      c.path = '/' :: joinSlash (["a".toList, "b".toList, "c".toList].take
        (commonLen ["a".toList, "b".toList, "c".toList] ["z".toList])) ∧
      ["a".toList, "b".toList, "c".toList].take
          (commonLen ["a".toList, "b".toList, "c".toList] ["z".toList])
        = ["z".toList].take (commonLen ["a".toList, "b".toList, "c".toList] ["z".toList]) ∧
      ["a".toList, "b".toList, "c".toList][commonLen ["a".toList, "b".toList, "c".toList]
        ["z".toList]]? = some x ∧
      ["z".toList][commonLen ["a".toList, "b".toList, "c".toList] ["z".toList]]? = some y ∧
      x ≠ y ∧ c.files = [] ∧
      (namesOf m1 c.dirs = some [x, y] ∨ namesOf m1 c.dirs = some [y, x]) ∧
      Descends m1 nr (["a".toList, "b".toList, "c".toList].drop
        (commonLen ["a".toList, "b".toList, "c".toList] ["z".toList])) 0 ∧
      deref m1 0 = some { ({ mkDir "c".toList "/a/b/c".toList none with files := [1] } : Node)
        with parent := some cur1 } ∧
      (∀ p, p < exDeep.nodes.length → p ≠ 0 → deref m1 p = deref exDeep p) ∧
      Descends m1 nr (["z".toList].drop
        (commonLen ["a".toList, "b".toList, "c".toList] ["z".toList])) cur2 ∧
      deref m1 cur2 = some c2 ∧ c2.dirs = [] ∧ c2.files = [f] ∧
      deref m1 f = some (mkFile "w".toList (filePathOf ["z".toList] "w".toList)
        (some cur2) 2 []) :=
  c7_unrelated_paths codeLt_strictWeak exDeep_reachable exDeep_root
    exDeep_node ["a".toList, "b".toList, "c".toList] ["z".toList] "w".toList 2 []
    (by decide) (by decide) (by rfl) (by decide) (by decide) (by decide) (by decide)

end FileTreeModel


namespace FileTreeModel

/-! ## Scenarios: malformed input, lookups, removal by name, recorded paths -/

/-- C13 (as stated) fails: `insertFile` with the empty path on the empty model does not
return the unchanged model with an invalid index. -/
theorem c13_counterexample :
    ¬ (insertFile codeLt exTmp empty [] 7 [] = some (empty, .invalid)) := by
  decide

/-- C13, amended: there is no test of the path; with the empty path on the empty model
(temporary directory `/tmp`) `insertFile` makes a directory with empty name and path the
main root, puts a file node with empty name and path into its `files`, emits one
`beginInsertRows`/`endInsertRows` pair for row 0 of the top level and returns the valid
index `(0, 0)` of that file node. -/
theorem c13_empty_path (lt : QString → QString → Bool) (data : Nat) (displayName : QString) :
    insertFile lt exTmp empty [] data displayName
      = some ({ nodes := [{ mkDir [] [] none with files := [1] },
                  mkFile [] [] (some 0) data displayName],
                m_root := some 0, m_tmpdir := none, deleted := [],
                log := [.beginInsertRows .invalid 0 0, .endInsertRows] },
              .mk 0 0 1) := by
  rfl

/-- C14, the failing input: in the model that holds `/a/b/g` and `/a/b/c/f` the main root
has the path `/a/b`; `findFile` of `/a/bc/f` (whose directory `/a/bc` is not below
`/a/b`) returns a valid index, and it points to the node with the path `/a/b/c/f`:
line 174 compares characters. -/
theorem c14_wrong_node_found :
    ((insertAll codeLt exTmp empty [("/a/b/g".toList, 1), ("/a/b/c/f".toList, 2)]).bind
      fun m => (findFile codeLt m "/a/bc/f".toList true).map fun h =>
        ((rootNode m).map Node.path, h, (nodeOf m h).map Node.path))
      = some (some "/a/b".toList, .mk 0 0 3, some "/a/b/c/f".toList) := by
  decide

/-- C15, the failing input: with a main root (from `/a/x`) and a scratch root holding
`/tmp/s`, `findFile` of `/tmp/q` has no result: line 171 applies `*it` to the `end()`
that `find` returned, before line 172 compares `it` with `end()`. -/
theorem c15_end_dereferenced :
    ((insertAll codeLt exTmp empty [("/a/x".toList, 1), ("/tmp/s".toList, 2)]).map
      fun m => (m.m_root.isSome, (tmpNode m).bind (fun t => namesOf m t.files),
        findFile codeLt m "/tmp/q".toList true))
      = some (true, some ["s".toList], none) := by
  decide

/-- C16, the failing input: after `/a/bc/f` and then `/a/b/g` the file `/a/bc/f` is still
a leaf of the main tree, and `findFile` of `/a/bc/f` returns the invalid index. -/
theorem c16_earlier_file_lost :
    ((insertAll codeLt exTmp empty [("/a/bc/f".toList, 1), ("/a/b/g".toList, 2)]).map
      fun m => (leaves m, findFile codeLt m "/a/bc/f".toList true))
      = some ([("f".toList, "/a/bc/f".toList, 1), ("g".toList, "/a/b/g".toList, 2)],
          some .invalid) := by
  decide

/-- C17, the failing input: after `/a/x` was inserted with payload 1 and again with
payload 2 the leaves are `x` (payload 2), `x` (payload 1); row 1 is the node with payload
1 (node 1); `removeIndex` of that index deletes node 1 but erases row 0 from `files`:
afterwards the one leaf is the deleted node 1, with payload 1. -/
theorem c17_take_by_name :
    ((insertAll codeLt exTmp empty [("/a/x".toList, 1), ("/a/x".toList, 2)]).bind
      fun m => (index m 1 0 .invalid).bind fun h => (removeIndex codeLt m h).map fun r =>
        (leaves m, h, leaves r.1, r.1.deleted))
      = some ([("x".toList, "/a/x".toList, 2), ("x".toList, "/a/x".toList, 1)], .mk 1 0 1,
          [("x".toList, "/a/x".toList, 1)], [1]) := by
  rfl

/-- C20, the failing input: after `/a/b/x` and then `/z/w` the main root has the path `/`
and its subdirectories `a` and `z` have the recorded paths `//a` and `//z`. -/
theorem c20_double_slash :
    ((insertAll codeLt exTmp empty [("/a/b/x".toList, 1), ("/z/w".toList, 2)]).bind
      fun m => (rootNode m).map fun n =>
        (n.path, n.dirs.map fun d => (deref m d).map fun c => (c.fileName, c.path)))
      = some ("/".toList, [some ("a".toList, "//a".toList), some ("z".toList, "//z".toList)]) := by
  decide

/-- C3, the failing input: after `/a/x` was inserted with payload 1 and again with
payload 2, and row 1 was removed, the `files` of the main root `/a` are the one node 1,
which is deleted.  `insertFile` of `/a/y`, whose directory is the path of the root and not
under the temporary directory, takes the branch of lines 62-69, and the lower bound
search of line 64 reads the name of that node. -/
theorem c3_deleted_node_searched :
    ((insertAll codeLt exTmp empty [("/a/x".toList, 1), ("/a/x".toList, 2)]).bind
      fun m => (index m 1 0 .invalid).bind fun h => (removeIndex codeLt m h).map fun r =>
        ((rootNode r.1).map fun n => (n.path, n.files), r.1.deleted,
          absolutePath "/a/y".toList, startsWith (absolutePath "/a/y".toList) exTmp))
      = some (some ("/a".toList, [1]), [1], "/a".toList, false) := by
  decide

/-- C9, the failing input: in the model that holds `/r/a1/f` and `/r/a01/g`, built with
the comparator `numLt` under which `a01` and `a1` compare as equal, the `dirs` of the main
root are `a01`, `a1`, and `f` is the only child of `a1` (row 1 of the top level).
`removeIndex` of the index of `f` returns `true` and announces the removal of row 0 of
the top level, but removes and deletes nothing: `take` finds `a01` at the lower bound of
`a1`, the names differ, and it returns `nullptr`. -/
theorem c9_nothing_pruned :
    ((insertAll numLt exTmp empty [("/r/a1/f".toList, 1), ("/r/a01/g".toList, 2)]).bind
      fun m => (index m 1 0 .invalid).bind fun P => (index m 0 0 P).bind fun h =>
        (removeIndex numLt m h).map fun r =>
          ((rootNode m).bind fun n => namesOf m n.dirs, P, h, (nodeOf m h).map Node.path,
            r.2, r.1.log.drop m.log.length,
            (rootNode r.1).bind fun n => namesOf r.1 n.dirs, leaves r.1, r.1.deleted))
      = some (some ["a01".toList, "a1".toList], .mk 1 0 0, .mk 0 0 1,
          some "/r/a1/f".toList, true,
          [.beginRemoveRows .invalid 0 0, .endRemoveRows],
          some ["a01".toList, "a1".toList],
          [("g".toList, "/r/a01/g".toList, 2), ("f".toList, "/r/a1/f".toList, 1)], []) := by
  rfl

/-- With `numLt`, after `/r/a1/f`, `/r/a01/g` and `/r/a1/h` the `dirs` of the main root
are `a1`, `a01`, `a1`: `find` tests the entry at the lower bound only, does not find the
first `a1` behind `a01`, and a second directory `a1` is made; `findFile` of `/r/a1/f`
found nothing before the third insertion. -/
theorem numLt_directory_twice :
    ((insertAll numLt exTmp empty [("/r/a1/f".toList, 1), ("/r/a01/g".toList, 2)]).bind
      fun m => (insertFile numLt exTmp m "/r/a1/h".toList 3 []).map fun r =>
        (findFile numLt m "/r/a1/f".toList true,
          (rootNode r.1).bind fun n => namesOf r.1 n.dirs))
      = some (some .invalid, some ["a1".toList, "a01".toList, "a1".toList]) := by
  decide

/-- C11, the failing input: after `/a/x` was inserted with payload 1 and again with
payload 2, and row 1 was removed, every entry of the `files` of the main root is a
deleted node; a following `insertFile` of `/a/y` searches that list by name. -/
theorem c11_deleted_leaf_listed :
    ((insertAll codeLt exTmp empty [("/a/x".toList, 1), ("/a/x".toList, 2)]).bind
      fun m => (index m 1 0 .invalid).bind fun h => (removeIndex codeLt m h).map fun r =>
        (r.2, (rootNode r.1).map fun n => n.files.map fun f =>
          (f, decide (f ∈ r.1.deleted))))
      = some (true, some [(1, true)]) := by
  decide

/-- C19: in every state reached from the empty model by `insertFile` (clean absolute
paths), `removeIndex` and `clear`, every directory node has at least one child. -/
theorem c19_no_empty_directory {lt : QString → QString → Bool} (hlt : StrictWeak lt)
    {tempPath : QString} {m : FileTreeModel}
    (hm : Reachable lt tempPath m) {p : Nat} {n : Node} (hp : deref m p = some n)
    (hd : n.isDir = true) : 1 ≤ n.childCount :=
  (hm.good hlt).inv.nonempty p n hp hd (by simp)

/-- The witness of C19: the root of the model that holds `/a/b/c/x`. -/
theorem c19_no_empty_directory_witness :
    1 ≤ ({ mkDir "c".toList "/a/b/c".toList none with files := [1] } : Node).childCount :=
  c19_no_empty_directory codeLt_strictWeak exDeep_reachable
    (p := 0) (by rfl) (by rfl)

end FileTreeModel


namespace FileTreeModel

/-! ## `insertFile` followed by `removeIndex` -/

/-- In a state with the old nodes and roots the trees consist of the old nodes. -/
theorem Restored.live_iff {lt : QString → QString → Bool} {m m2 : FileTreeModel}
    (good : Good lt m) (h : Restored m m2) (p : Nat) : Live m2 p ↔ Live m p := by
  obtain ⟨h1, h2, h3⟩ := h
  constructor
  · intro hl
    have : Live m p ∧ ∃ n, deref m p = some n := by
      induction hl with
      | root hr =>
        rw [h1] at hr
        obtain ⟨n, hn, _⟩ := good.inv.root_ok _ hr
        exact ⟨Live.root hr, n, hn⟩
      | tmp ht =>
        rw [h2] at ht
        obtain ⟨n, hn, _⟩ := good.inv.tmp_ok _ ht
        exact ⟨Live.tmp ht, n, hn⟩
      | dir _ hq hc ih =>
        obtain ⟨hlq, qn, hqn⟩ := ih
        rw [h3 _ (deref_lt hqn)] at hq
        obtain ⟨cn, hcn, _⟩ := good.inv.dirs_ok _ _ _ hq hc
        exact ⟨Live.dir hlq hq hc, cn, hcn⟩
      | file _ hq hc ih =>
        obtain ⟨hlq, qn, hqn⟩ := ih
        rw [h3 _ (deref_lt hqn)] at hq
        obtain ⟨cn, hcn, _⟩ := good.inv.files_ok _ _ _ hq hc
        exact ⟨Live.file hlq hq hc, cn, hcn⟩
    exact this.1
  · intro hl
    induction hl with
    | root hr => exact Live.root (by rw [h1]; exact hr)
    | tmp ht => exact Live.tmp (by rw [h2]; exact ht)
    | dir _ hq hc ih => exact Live.dir ih (by rw [h3 _ (deref_lt hq)]; exact hq) hc
    | file _ hq hc ih => exact Live.file ih (by rw [h3 _ (deref_lt hq)]; exact hq) hc

/-- C10 (amended): in every reachable state in which no node of the trees has been
deleted, `insertFile` of a clean absolute path followed by `removeIndex` of the returned
index returns; if the directory of the path is under the temporary directory, or there
is no main root, or the directory of the path starts with the path of the main root, the
resulting state has the main root and the scratch root of the state before, every node
of the state before is unchanged in it (its path and its `dirs` and `files` in their
order), and its trees consist of the same nodes.  (`delete` leaves a node readable in
this model; `hlive` keeps the statement to the states in which the program reads no
deleted node.) -/
theorem c10_shape_restored {lt : QString → QString → Bool} (hlt : StrictWeak lt)
    {tempPath : QString} {m : FileTreeModel}
    (hm : Reachable lt tempPath m) (hlive : ∀ p, Live m p → p ∉ m.deleted)
    (segs : List QString) (name : QString) (data : Nat)
    (displayName : QString) (hsegs : ∀ s ∈ segs, isSeg s = true)
    (hname : isSeg name = true) (hkeep : keepsRoot tempPath m (dirPath segs) = true) :
    ∃ m2, insertThenRemove lt tempPath m (filePathOf segs name) data displayName = some m2 ∧
      m2.m_root = m.m_root ∧ m2.m_tmpdir = m.m_tmpdir ∧
      (∀ p, p < m.nodes.length → deref m2 p = deref m p) ∧
      ∀ p, Live m2 p ↔ Live m p := by
  have good := hm.good hlt
  obtain ⟨m1, h, m2, he, hm2, hres, _⟩ :=
    insertFile_undo hlt tempPath segs name data displayName good hsegs hname
  have hr := hres hkeep
  refine ⟨m2, by simp [insertThenRemove, he, hm2], hr.1, hr.2.1, hr.2.2,
    Restored.live_iff good hr⟩

/-- The witness of C10: `/r/a1/h` put into the model that holds `/r/a1/f` and
`/r/a01/g`, built with `numLt`, and taken out again; the insertion adds a second
directory `a1` in front of `a01`, the removal takes it out. -/
theorem c10_shape_restored_witness :
    ∃ m2, insertThenRemove numLt exTmp exNum
        (filePathOf ["r".toList, "a1".toList] "h".toList) 3 [] = some m2 ∧
      m2.m_root = exNum.m_root ∧ m2.m_tmpdir = exNum.m_tmpdir ∧
      (∀ p, p < exNum.nodes.length → deref m2 p = deref exNum p) ∧
      ∀ p, Live m2 p ↔ Live exNum p :=
  c10_shape_restored numLt_strictWeak exNum_reachable
    (fun p _ h => by
      have e : exNum.deleted = [] := rfl
      rw [e] at h
      cases h)
    ["r".toList, "a1".toList] "h".toList 3 [] (by decide) (by decide) (by decide)

end FileTreeModel


namespace FileTreeModel

/-! ## The row projection in both directions -/

end FileTreeModel


namespace FileTreeModel

/-! ## Sorted lists and the positions of the positional `add` -/

end FileTreeModel
